import Mathlib

/-!
# Boot loader of lab1 (`labcodes/lab1/boot/bootmain.c`)

A shallow embedding of `waitdisk`, `readsect`, `readseg` and `bootmain`.

* Machine words are natural numbers reduced modulo `2 ^ 32` (`uintptr_t` and
  `uint32_t` are both 32 bits wide on the i386 target of the lab).
* Memory is a function from addresses to bytes; the disk is a function from
  byte numbers to bytes (sector `s` is the bytes `512 * s .. 512 * s + 511`).
* The device is an environment: `Dev.status i` is the value the `i`-th read of
  the status port `0x1F7` returns, `Dev.disk` is the medium.
* Every loop of the source is a recursion on a fuel argument.  A run that
  exhausts its fuel ends in `Res.timeout`, carrying the state reached so far, so
  that statements about what a run has done also cover runs that never finish.
* The machine carries a trace.  Port accesses are logged by the port
  primitives; entering `readsect`/`readseg` and the final control transfer are
  logged as ghost events.
-/

namespace Bootmain

/-! ## Words, bytes, memory -/

abbrev Byte := Fin 256

/-- SECTSIZE of the source: `#define SECTSIZE 512`. -/
def SECTSIZE : Nat := 512

/-- ELFHDR of the source: `#define ELFHDR ((struct elfhdr *)0x10000)`, as an address. -/
def ELFHDR : Nat := 0x10000

/-- Reduction of a natural number to a 32-bit unsigned machine word. -/
def u32 (x : Nat) : Nat := x % 2 ^ 32

/-- Little-endian 16-bit load (`uint16_t` field access). -/
def read16 (mem : Nat → Byte) (a : Nat) : Nat :=
  (mem (u32 a)).val + 2 ^ 8 * (mem (u32 (a + 1))).val

/-- Little-endian 32-bit load (`uint32_t` field access). -/
def read32 (mem : Nat → Byte) (a : Nat) : Nat :=
  (mem (u32 a)).val + 2 ^ 8 * (mem (u32 (a + 1))).val
    + 2 ^ 16 * (mem (u32 (a + 2))).val + 2 ^ 24 * (mem (u32 (a + 3))).val

/-! ## Trace, device, machine -/

inductive Event where
  | inb (port val : Nat)
  | outb (port val : Nat)
  | outw (port val : Nat)
  | insl (port addr cnt : Nat)
  | readsect (dst secno : Nat)
  | readseg (va count offset : Nat)
  | jump (entry : Nat)
  deriving DecidableEq

/-- Command-block registers of the IDE controller (ports `0x1F2` .. `0x1F6`) and the
disk byte number the data port `0x1F0` delivers next. -/
structure Ide where
  nsect : Nat
  lba0 : Nat
  lba1 : Nat
  lba2 : Nat
  drive : Nat
  pos : Nat

/-- The 28-bit block address held by the command-block registers. -/
def Ide.lba (d : Ide) : Nat :=
  d.lba0 + 2 ^ 8 * d.lba1 + 2 ^ 16 * d.lba2 + 2 ^ 24 * (d.drive &&& 0xF)

/-- The environment of the program: the medium and the status oracle. -/
structure Dev where
  disk : Nat → Byte
  status : Nat → Byte

structure Machine where
  mem : Nat → Byte
  ide : Ide
  polls : Nat
  trace : List Event

def Machine.log (m : Machine) (e : Event) : Machine :=
  { m with trace := m.trace ++ [e] }

/-- Result of a run with fuel: finished, or fuel exhausted in the state given. -/
inductive Res where
  | done (m : Machine)
  | timeout (m : Machine)

def Res.state : Res → Machine
  | Res.done m => m
  | Res.timeout m => m

def Res.isDone : Res → Bool
  | Res.done _ => true
  | Res.timeout _ => false

/-- Sequencing: a run that timed out stays where it is. -/
def Res.andThen (r : Res) (f : Machine → Res) : Res :=
  match r with
  | Res.done m => f m
  | Res.timeout m => Res.timeout m

/-! ## Port primitives

`x86.h` (`inb`, `outb`, `outw`, `insl`) is not among the sources; the primitives
below are the port accesses those names stand for, acting on the device model. -/

/-- Modelled from the spec: `inb` of `x86.h` together with the device's status
port.  The `i`-th read of port `0x1F7` returns `Dev.status i`; other ports are
not read by the program and return `0`. -/
def inb (D : Dev) (port : Nat) (m : Machine) : Nat × Machine :=
  if port = 0x1F7 then
    ((D.status m.polls).val,
      { m with polls := m.polls + 1,
               trace := m.trace ++ [Event.inb port (D.status m.polls).val] })
  else (0, m.log (Event.inb port 0))

/-- Modelled from the spec: `outb` of `x86.h` together with the device's
command-block registers.  A byte written to `0x1F2` .. `0x1F6` is latched; the
command `0x20` (read sectors) on `0x1F7` positions the data port at the first
byte of the sector the registers address as a 28-bit block address (the mode
the program selects with `0xE0`). -/
def outb (port val : Nat) (m : Machine) : Machine :=
  let v := val % 256
  let d := m.ide
  let d' : Ide :=
    if port = 0x1F2 then { d with nsect := v }
    else if port = 0x1F3 then { d with lba0 := v }
    else if port = 0x1F4 then { d with lba1 := v }
    else if port = 0x1F5 then { d with lba2 := v }
    else if port = 0x1F6 then { d with drive := v }
    else if port = 0x1F7 ∧ v = 0x20 then { d with pos := SECTSIZE * d.lba }
    else d
  { m with ide := d', trace := m.trace ++ [Event.outb port v] }

/-- Modelled from the spec: `outw` of `x86.h`.  The only port written is the
signalling port `0x8A00`, which has no effect on disk or memory. -/
def outw (port val : Nat) (m : Machine) : Machine :=
  m.log (Event.outw port (val % 65536))

/-- Modelled from the spec: `insl` of `x86.h` together with the device's data
port.  `cnt` 32-bit words are taken from port `0x1F0` and stored at
`addr, addr + 4, ...` (addresses modulo `2 ^ 32`); the bytes delivered are the
disk bytes from the data position on, which advances by `4 * cnt`. -/
def insl (D : Dev) (port addr cnt : Nat) (m : Machine) : Machine :=
  if port = 0x1F0 then
    { m with
      mem := fun a =>
        if a < 2 ^ 32 ∧ (a + 2 ^ 32 - u32 addr) % 2 ^ 32 < 4 * cnt then
          D.disk (m.ide.pos + (a + 2 ^ 32 - u32 addr) % 2 ^ 32)
        else m.mem a
      ide := { m.ide with pos := m.ide.pos + 4 * cnt }
      trace := m.trace ++ [Event.insl port addr cnt] }
  else m.log (Event.insl port addr cnt)

/-! ## The program -/

/-- The source's `waitdisk`: `while ((inb(0x1F7) & 0xC0) != 0x40);` -/
def waitdisk (D : Dev) : Nat → Machine → Res
  | 0, m => Res.timeout m
  | fuel + 1, m =>
    let r := inb D 0x1F7 m
    if r.1 &&& 0xC0 ≠ 0x40 then waitdisk D fuel r.2 else Res.done r.2

/-- The source's `readsect(dst, secno)`. -/
def readsect (D : Dev) (fuel : Nat) (dst secno : Nat) (m : Machine) : Res :=
  (waitdisk D fuel (m.log (Event.readsect dst secno))).andThen fun m =>
  let m := outb 0x1F2 1 m
  let m := outb 0x1F3 (secno &&& 0xFF) m
  let m := outb 0x1F4 ((secno >>> 8) &&& 0xFF) m
  let m := outb 0x1F5 ((secno >>> 16) &&& 0xFF) m
  let m := outb 0x1F6 (((secno >>> 24) &&& 0xF) ||| 0xE0) m
  let m := outb 0x1F7 0x20 m
  (waitdisk D fuel m).andThen fun m =>
  Res.done (insl D 0x1F0 dst (SECTSIZE / 4) m)

/-- The loop of `readseg`:
`for (; va < end_va; va += SECTSIZE, secno ++) readsect((void *)va, secno);` -/
def readsegLoop (D : Dev) (fuel : Nat) : Nat → Nat → Nat → Nat → Machine → Res
  | 0, _, _, _, m => Res.timeout m
  | k + 1, va, end_va, secno, m =>
    if va < end_va then
      (readsect D fuel va secno m).andThen
        (readsegLoop D fuel k (u32 (va + SECTSIZE)) end_va (u32 (secno + 1)))
    else Res.done m

/-- The source's `readseg(va, count, offset)`. -/
def readseg (D : Dev) (fuel : Nat) (va count offset : Nat) (m : Machine) : Res :=
  let m := m.log (Event.readseg va count offset)
  let end_va := u32 (va + count)
  let va := u32 (va + 2 ^ 32 - offset % SECTSIZE)
  let secno := u32 (offset / SECTSIZE + 1)
  readsegLoop D fuel fuel va end_va secno m

/-- The declarations of `elf.h` the program uses, which is not among the
sources, taken as parameters: the magic constant, the byte offsets of the fields
of `struct elfhdr` and `struct proghdr` that `bootmain` reads, and
`sizeof(struct proghdr)`.  The one offset fixed here is that of `e_magic`, which
the specification places in the first four bytes of the header. -/
structure ElfLayout where
  ELF_MAGIC : Nat
  e_entry : Nat
  e_phoff : Nat
  e_phnum : Nat
  phsize : Nat
  p_offset : Nat
  p_va : Nat
  p_memsz : Nat

/-- The ELF32 layout: the magic of the claims and the standard field offsets. -/
def elf32 : ElfLayout :=
  { ELF_MAGIC := 0x464C457F, e_entry := 24, e_phoff := 28, e_phnum := 44,
    phsize := 32, p_offset := 4, p_va := 8, p_memsz := 20 }

/-- How a run of `bootmain` ends: control was transferred to `entry`, the
program reached the final `while (1);`, or the fuel ran out. -/
inductive Outcome where
  | jumped (entry : Nat) (m : Machine)
  | spin (m : Machine)
  | timeout (m : Machine)

def Outcome.isJumped : Outcome → Bool
  | Outcome.jumped _ _ => true
  | _ => false

def Outcome.state : Outcome → Machine
  | Outcome.jumped _ m => m
  | Outcome.spin m => m
  | Outcome.timeout m => m

/-- The `bad:` label of `bootmain`: two `outw` and then `while (1);`. -/
def bad (m : Machine) : Outcome :=
  let m := outw 0x8A00 0x8A00 m
  let m := outw 0x8A00 0x8E00 m
  Outcome.spin m

/-- The segment loop of `bootmain`:
`for (; ph < eph; ph ++) readseg(ph->p_va & 0xFFFFFF, ph->p_memsz, ph->p_offset);` -/
def phLoop (D : Dev) (L : ElfLayout) (fuel : Nat) : Nat → Nat → Nat → Machine → Res
  | 0, _, _, m => Res.timeout m
  | k + 1, ph, eph, m =>
    if ph < eph then
      (readseg D fuel (read32 m.mem (ph + L.p_va) &&& 0xFFFFFF)
          (read32 m.mem (ph + L.p_memsz)) (read32 m.mem (ph + L.p_offset)) m).andThen
        (phLoop D L fuel k (u32 (ph + L.phsize)) eph)
    else Res.done m

/-- The last statement of `bootmain` before `bad:`,
`((void (*)(void))(ELFHDR->e_entry & 0xFFFFFF))();`.  The call is the end of the
run (the source notes that it does not return). -/
def callEntry (L : ElfLayout) (m : Machine) : Outcome :=
  let entry := read32 m.mem (ELFHDR + L.e_entry) &&& 0xFFFFFF
  Outcome.jumped entry (m.log (Event.jump entry))

/-- The part of `bootmain` after the magic check: the segment loop and the call
of the entry point. -/
def loadAndJump (D : Dev) (L : ElfLayout) (fuel : Nat) (m : Machine) : Outcome :=
  let ph := u32 (ELFHDR + read32 m.mem (ELFHDR + L.e_phoff))
  let eph := u32 (ph + L.phsize * read16 m.mem (ELFHDR + L.e_phnum))
  match phLoop D L fuel fuel ph eph m with
  | Res.timeout m => Outcome.timeout m
  | Res.done m => callEntry L m

/-- The source's `bootmain`: load the first page of the image, check the magic,
then either `goto bad` or load the segments and call the entry point. -/
def bootmain (D : Dev) (L : ElfLayout) (fuel : Nat) (m : Machine) : Outcome :=
  match readseg D fuel ELFHDR (SECTSIZE * 8) 0 m with
  | Res.timeout m => Outcome.timeout m
  | Res.done m =>
    if read32 m.mem ELFHDR ≠ L.ELF_MAGIC then bad m
    else loadAndJump D L fuel m

/-! ## Observations on traces -/

/-- The sector reads of a trace: `(dst, secno)` of every `readsect` entered. -/
def sectorReads (t : List Event) : List (Nat × Nat) :=
  t.filterMap fun e => match e with
    | Event.readsect d s => some (d, s)
    | _ => none

/-- The segment loads of a trace: `(va, count, offset)` of every `readseg` entered. -/
def segLoads (t : List Event) : List (Nat × Nat × Nat) :=
  t.filterMap fun e => match e with
    | Event.readseg v c o => some (v, c, o)
    | _ => none

/-- The port writes of a trace, `(port, value)`, bytes and words alike, in order. -/
def portWrites (t : List Event) : List (Nat × Nat) :=
  t.filterMap fun e => match e with
    | Event.outb p v => some (p, v)
    | Event.outw p v => some (p, v)
    | _ => none

/-- The control transfers of a trace. -/
def jumps (t : List Event) : List Nat :=
  t.filterMap fun e => match e with
    | Event.jump a => some a
    | _ => none

/-- The events a state `m'` has beyond those of an earlier state `m`. -/
def newEvents (m m' : Machine) : List Event := m'.trace.drop m.trace.length

/-- The initial machine with memory `mem`: registers zero, nothing logged. -/
def Machine.boot (mem : Nat → Byte) : Machine :=
  { mem := mem, ide := ⟨0, 0, 0, 0, 0, 0⟩, polls := 0, trace := [] }

/-- A device whose status port always reads ready (`(status & 0xC0) = 0x40`). -/
def AlwaysReady (D : Dev) : Prop := ∀ i, (D.status i).val &&& 0xC0 = 0x40

/-- Byte `k` of the kernel image, which starts at device sector 1. -/
def imageByte (D : Dev) (k : Nat) : Byte := D.disk (SECTSIZE + k)

/-- Little-endian 16-bit word at byte offset `k` of the kernel image. -/
def image16 (D : Dev) (k : Nat) : Nat :=
  (imageByte D k).val + 2 ^ 8 * (imageByte D (k + 1)).val

/-- Little-endian 32-bit word at byte offset `k` of the kernel image. -/
def image32 (D : Dev) (k : Nat) : Nat :=
  (imageByte D k).val + 2 ^ 8 * (imageByte D (k + 1)).val
    + 2 ^ 16 * (imageByte D (k + 2)).val + 2 ^ 24 * (imageByte D (k + 3)).val

/-- The segment loads as the specification words them: one `readseg` per
descriptor, for descriptors `0 .. n - 1` of the table at `ph` in table order,
each with the masked destination, the in-memory size and the source offset that
the descriptor holds when its turn comes. -/
def loadSegmentsSpec (D : Dev) (L : ElfLayout) (fuel : Nat) : Nat → Nat → Machine → Res
  | 0, _, m => Res.done m
  | n + 1, ph, m =>
    (readseg D fuel (read32 m.mem (ph + L.p_va) &&& 0xFFFFFF)
        (read32 m.mem (ph + L.p_memsz)) (read32 m.mem (ph + L.p_offset)) m).andThen
      (loadSegmentsSpec D L fuel n (ph + L.phsize))

/-- The header fields `bootmain` reads lie in the first 4096 bytes of the image
and the descriptor fields it reads lie inside one descriptor. -/
abbrev ElfLayout.Sane (L : ElfLayout) : Prop :=
  L.e_entry + 4 ≤ 4096 ∧ L.e_phoff + 4 ≤ 4096 ∧ L.e_phnum + 2 ≤ 4096 ∧
    L.p_offset + 4 ≤ L.phsize ∧ L.p_va + 4 ≤ L.phsize ∧ L.p_memsz + 4 ≤ L.phsize

/-- Events of one sector read: polls of `0x1F7`, byte writes to `0x1F2` ..
`0x1F7`, data transfers from `0x1F0`, and entering `readsect`. -/
def Event.isSector : Event → Bool
  | Event.inb p _ => p == 0x1F7
  | Event.outb p _ => decide (0x1F2 ≤ p ∧ p ≤ 0x1F7)
  | Event.insl p _ _ => p == 0x1F0
  | Event.readsect _ _ => true
  | _ => false

/-- Events of the segment loop: those of sector reads, and entering `readseg`
with a destination below `2 ^ 24`. -/
def Event.isLoad : Event → Bool
  | Event.readseg va _ _ => decide (va < 2 ^ 24)
  | e => e.isSector

/-- The trace of `m'` extends that of `m` by events that all satisfy `P`. -/
def Grows (P : Event → Bool) (m m' : Machine) : Prop :=
  ∃ ext, m'.trace = m.trace ++ ext ∧ ∀ e ∈ ext, P e = true

/-- The end of the run as the specification words it: when the segment loop
has returned in state `m`, control is transferred to the entry address held in
the header at that moment, masked with `0xFFFFFF`; a loop that ran out of fuel
transfers nothing. -/
def thenJump (L : ElfLayout) : Res → Outcome
  | Res.timeout m => Outcome.timeout m
  | Res.done m =>
    Outcome.jumped (read32 m.mem (ELFHDR + L.e_entry) &&& 0xFFFFFF)
      (m.log (Event.jump (read32 m.mem (ELFHDR + L.e_entry) &&& 0xFFFFFF)))

/-- A medium whose image (from sector 1 on) starts with the bytes `bs` and is
zero elsewhere. -/
def imageDisk (bs : List Byte) : Nat → Byte :=
  fun k => if 512 ≤ k then bs.getD (k - 512) 0 else 0

/-! ## Closed forms used in the proofs -/

/-- State after `readsect(dst, secno)` when each `waitdisk` polls once. -/
def readsectDone (D : Dev) (dst secno : Nat) (m : Machine) : Machine :=
  let m := (inb D 0x1F7 (m.log (Event.readsect dst secno))).2
  let m := outb 0x1F2 1 m
  let m := outb 0x1F3 (secno &&& 0xFF) m
  let m := outb 0x1F4 ((secno >>> 8) &&& 0xFF) m
  let m := outb 0x1F5 ((secno >>> 16) &&& 0xFF) m
  let m := outb 0x1F6 (((secno >>> 24) &&& 0xF) ||| 0xE0) m
  let m := outb 0x1F7 0x20 m
  let m := (inb D 0x1F7 m).2
  insl D 0x1F0 dst (SECTSIZE / 4) m

/-- State after `n` consecutive sector reads starting at `(va, secno)`. -/
def readsDone (D : Dev) : Nat → Nat → Nat → Machine → Machine
  | 0, _, _, m => m
  | n + 1, va, secno, m =>
    readsDone D n (va + SECTSIZE) (secno + 1) (readsectDone D va secno m)

/-- The number of sectors between the sector-aligned start and the end of a
request: `ceil((offset mod 512 + count) / 512)`. -/
def sectorCount (count offset : Nat) : Nat := (offset % SECTSIZE + count + 511) / SECTSIZE

/-- The `(dst, secno)` pairs of `n` consecutive sector reads from `(va, secno)`. -/
def readList (n va secno : Nat) : List (Nat × Nat) :=
  (List.range n).map fun i => (va + SECTSIZE * i, secno + i)

/-- The events of one `readsect(dst, secno)` whose first poll is poll number `p`,
on a device that is ready at once. -/
def readsectEvents (D : Dev) (dst secno p : Nat) : List Event :=
  [Event.readsect dst secno, Event.inb 0x1F7 (D.status p).val,
   Event.outb 0x1F2 1, Event.outb 0x1F3 ((secno &&& 0xFF) % 256),
   Event.outb 0x1F4 (((secno >>> 8) &&& 0xFF) % 256),
   Event.outb 0x1F5 (((secno >>> 16) &&& 0xFF) % 256),
   Event.outb 0x1F6 ((((secno >>> 24) &&& 0xF) ||| 0xE0) % 256),
   Event.outb 0x1F7 0x20, Event.inb 0x1F7 (D.status (p + 1)).val,
   Event.insl 0x1F0 dst 128]

/-- The events of `n` consecutive sector reads, see `readsDone`. -/
def readsEvents (D : Dev) : Nat → Nat → Nat → Nat → List Event
  | 0, _, _, _ => []
  | n + 1, va, secno, p =>
    readsectEvents D va secno p ++ readsEvents D n (va + SECTSIZE) (secno + 1) (p + 2)

/-- Two machine states with the same memory and device registers; the number of
polls made and the trace may differ. -/
def Machine.Sim (a b : Machine) : Prop := a.mem = b.mem ∧ a.ide = b.ide

/-- A trace without its status polls. -/
def noPolls (t : List Event) : List Event :=
  t.filter fun e => match e with
    | Event.inb _ _ => false
    | _ => true

/-! ## Concrete devices and images -/

/-- A device that is ready at every poll, with medium `disk`. -/
def readyDev (disk : Nat → Byte) : Dev := { disk := disk, status := fun _ => 0x40 }

/-- A medium whose byte number `k` is `k mod 256`. -/
def demoDisk : Nat → Byte := fun k => ⟨k % 256, Nat.mod_lt k (by decide)⟩

/-- The first 116 bytes of an image for scenario B under the `elf32` layout:
magic, entry `0x100000`, table offset 52, two descriptors
`(p_va, p_memsz, p_offset) = (0x100000, 4096, 0)` and `(0x108000, 4096, 4096)`. -/
def scenarioB : List Byte :=
  [0x7F, 0x45, 0x4C, 0x46, 0, 0, 0, 0, 0, 0, 0, 0, 0, 0, 0, 0,
   0, 0, 0, 0, 0, 0, 0, 0, 0x00, 0x00, 0x10, 0x00, 0x34, 0, 0, 0,
   0, 0, 0, 0, 0, 0, 0, 0, 0, 0, 0, 0, 0x02, 0x00, 0, 0,
   0, 0, 0, 0,
   1, 0, 0, 0, 0x00, 0x00, 0x00, 0x00, 0x00, 0x00, 0x10, 0x00, 0, 0, 0, 0,
   0, 0, 0, 0, 0x00, 0x10, 0x00, 0x00, 0, 0, 0, 0, 0, 0, 0, 0,
   1, 0, 0, 0, 0x00, 0x10, 0x00, 0x00, 0x00, 0x80, 0x10, 0x00, 0, 0, 0, 0,
   0, 0, 0, 0, 0x00, 0x10, 0x00, 0x00, 0, 0, 0, 0, 0, 0, 0, 0]

/-- The first 46 bytes of an image whose header puts a one-descriptor table at
the top of the address space: magic, `e_phoff = 0xFFFEFFE0` (so the table is at
`0x10000 + e_phoff = 0xFFFFFFE0`), `e_phnum = 1`. -/
def wrapImage : List Byte :=
  [0x7F, 0x45, 0x4C, 0x46, 0, 0, 0, 0, 0, 0, 0, 0, 0, 0, 0, 0,
   0, 0, 0, 0, 0, 0, 0, 0, 0, 0, 0, 0, 0xE0, 0xFF, 0xFE, 0xFF,
   0, 0, 0, 0, 0, 0, 0, 0, 0, 0, 0, 0, 0x01, 0x00]

/-- The two descriptors of scenario B, 64 bytes. -/
def tableB : List Byte := scenarioB.drop 52

/-- The first 46 bytes of an image whose header puts the descriptor table at
image offset `0xF0000`: magic, `e_phoff = 0xF0000`, `e_phnum = 2`. -/
def overlapHeader : List Byte :=
  [0x7F, 0x45, 0x4C, 0x46, 0, 0, 0, 0, 0, 0, 0, 0, 0, 0, 0, 0,
   0, 0, 0, 0, 0, 0, 0, 0, 0, 0, 0, 0, 0x00, 0x00, 0x0F, 0x00,
   0, 0, 0, 0, 0, 0, 0, 0, 0, 0, 0, 0, 0x02, 0x00]

/-- A medium whose image starts with `overlapHeader` and holds the table of
scenario B at image offset `0xF0000`. -/
def overlapDisk : Nat → Byte :=
  fun k =>
    if 512 + 0xF0000 ≤ k then tableB.getD (k - (512 + 0xF0000)) 0
    else if 512 ≤ k then overlapHeader.getD (k - 512) 0
    else 0

/-- A memory that holds the table of scenario B at `0x100000` and is zero
elsewhere. -/
def overlapMem : Nat → Byte :=
  fun a => if 0x100000 ≤ a then tableB.getD (a - 0x100000) 0 else 0

/-- The six register writes of `readsect(dst, secno)`, values in arithmetic form. -/
def cmdEvents (secno : Nat) : List Event :=
  [Event.outb 0x1F2 1, Event.outb 0x1F3 (secno % 256), Event.outb 0x1F4 (secno / 2 ^ 8 % 256),
   Event.outb 0x1F5 (secno / 2 ^ 16 % 256), Event.outb 0x1F6 (0xE0 + secno / 2 ^ 24 % 16),
   Event.outb 0x1F7 0x20]

/-- The ready condition of `waitdisk` on a status value: busy bit 7 clear and
ready bit 6 set. -/
abbrev Ready (v : Nat) : Prop := v &&& 0xC0 = 0x40

/-- The events of `j` consecutive polls of the status port, the first being poll
number `p`. -/
def pollEvents (D : Dev) (p j : Nat) : List Event :=
  (List.range j).map fun i => Event.inb 0x1F7 (D.status (p + i)).val

/-- The state after `j` polls of the status port: nothing but the poll count
and the trace has changed. -/
def polled (D : Dev) (m : Machine) (j : Nat) : Machine :=
  { m with polls := m.polls + j, trace := m.trace ++ pollEvents D m.polls j }

/-- The state after the six register writes of `readsect` for sector `secno`. -/
def commanded (secno : Nat) (m : Machine) : Machine :=
  outb 0x1F7 0x20 (outb 0x1F6 (((secno >>> 24) &&& 0xF) ||| 0xE0)
    (outb 0x1F5 ((secno >>> 16) &&& 0xFF) (outb 0x1F4 ((secno >>> 8) &&& 0xFF)
    (outb 0x1F3 (secno &&& 0xFF) (outb 0x1F2 1 m)))))

/-- Memory `[0x10000, 0x11000)` holds the first 4096 bytes of the image. -/
def ScratchIs (D : Dev) (mem : Nat → Byte) : Prop :=
  ∀ k, k < 4096 → mem (0x10000 + k) = imageByte D k

/-- The arguments of the `readseg` call for descriptor `i` of the image's table
at image offset `phoff`: masked destination, in-memory size, source offset. -/
def segArgs (D : Dev) (L : ElfLayout) (phoff i : Nat) : Nat × Nat × Nat :=
  (image32 D (phoff + i * L.phsize + L.p_va) &&& 0xFFFFFF,
   image32 D (phoff + i * L.phsize + L.p_memsz),
   image32 D (phoff + i * L.phsize + L.p_offset))

/-- The first 84 bytes of an image under the `elf32` layout whose one segment is
loaded over the scratch header: magic, entry `0x100000`, table offset 52, one
descriptor `(p_va, p_memsz, p_offset) = (0x10000, 512, 512)`. -/
def rewriteImage : List Byte :=
  [0x7F, 0x45, 0x4C, 0x46, 0, 0, 0, 0, 0, 0, 0, 0, 0, 0, 0, 0,
   0, 0, 0, 0, 0, 0, 0, 0, 0x00, 0x00, 0x10, 0x00, 0x34, 0, 0, 0,
   0, 0, 0, 0, 0, 0, 0, 0, 0, 0, 0, 0, 0x01, 0x00, 0, 0,
   0, 0, 0, 0,
   1, 0, 0, 0, 0x00, 0x02, 0x00, 0x00, 0x00, 0x00, 0x01, 0x00, 0, 0, 0, 0,
   0, 0, 0, 0, 0x00, 0x02, 0x00, 0x00, 0, 0, 0, 0, 0, 0, 0, 0]

/-- The descriptor of scenario A under the `elf32` layout, 32 bytes:
`(p_va, p_memsz, p_offset) = (0x10000, 512, 0)`. -/
def descA : List Byte :=
  [1, 0, 0, 0, 0x00, 0x00, 0x00, 0x00, 0x00, 0x00, 0x01, 0x00, 0, 0, 0, 0,
   0, 0, 0, 0, 0x00, 0x02, 0x00, 0x00, 0, 0, 0, 0, 0, 0, 0, 0]

/-- The first 52 bytes of an image for scenario A under the `elf32` layout:
magic, entry `0x100000`, table offset 52, one descriptor. -/
def headerA : List Byte :=
  [0x7F, 0x45, 0x4C, 0x46, 0, 0, 0, 0, 0, 0, 0, 0, 0, 0, 0, 0,
   0, 0, 0, 0, 0, 0, 0, 0, 0x00, 0x00, 0x10, 0x00, 0x34, 0, 0, 0,
   0, 0, 0, 0, 0, 0, 0, 0, 0, 0, 0, 0, 0x01, 0x00, 0, 0,
   0, 0, 0, 0]

/-- An image for scenario A: header, then the descriptor at offset 52. -/
def scenarioA : List Byte := headerA ++ descA

/-- A medium whose image has matching magic, `e_phoff = 0xFFFEFFE0`,
`e_phnum = 1` and the descriptor of scenario A at image offset `0xFFFEFFE0`. -/
def topTableDisk : Nat → Byte :=
  fun k =>
    if 512 + 0xFFFEFFE0 ≤ k then descA.getD (k - (512 + 0xFFFEFFE0)) 0
    else if 512 ≤ k then wrapImage.getD (k - 512) 0
    else 0

/-- A memory that holds the descriptor of scenario A at `0xFFFFFFE0` and is zero
elsewhere. -/
def topTableMem : Nat → Byte :=
  fun a => if 0xFFFFFFE0 ≤ a then descA.getD (a - 0xFFFFFFE0) 0 else 0

/-- A segment load that does not wrap and whose sector-aligned window lies wholly
below `0x10000` or wholly at or above `0x11000`. -/
abbrev ClearOfScratch (c : Nat × Nat × Nat) : Prop :=
  c.2.2 % 512 ≤ c.1 ∧ c.1 + c.2.1 + 511 < 2 ^ 32 ∧
    (c.1 + c.2.1 + 511 ≤ 0x10000 ∨ 0x11000 ≤ c.1 - c.2.2 % 512)

/-! ## A device that is always ready -/

theorem waitdisk_ready (D : Dev) (hD : AlwaysReady D) (fuel : Nat) (m : Machine) :
    waitdisk D (fuel + 1) m = Res.done (inb D 0x1F7 m).2 := by
  have h : (inb D 0x1F7 m).1 &&& 0xC0 = 0x40 := by
    simpa [inb] using hD m.polls
  simp [waitdisk, h]

theorem readsect_ready (D : Dev) (hD : AlwaysReady D) (fuel : Nat) (hf : 0 < fuel)
    (dst secno : Nat) (m : Machine) :
    readsect D fuel dst secno m = Res.done (readsectDone D dst secno m) := by
  obtain ⟨f, rfl⟩ : ∃ f, fuel = f + 1 := ⟨fuel - 1, by omega⟩
  simp only [readsect, waitdisk_ready D hD, Res.andThen, readsectDone]

theorem lba_nibble : ∀ y, y < 16 → ((y ||| 0xE0) % 256) &&& 0xF = y := by decide

theorem lba_reassemble (secno : Nat) :
    (secno &&& 0xFF) % 256 + 2 ^ 8 * (((secno >>> 8) &&& 0xFF) % 256)
      + 2 ^ 16 * (((secno >>> 16) &&& 0xFF) % 256)
      + 2 ^ 24 * (((((secno >>> 24) &&& 0xF) ||| 0xE0) % 256) &&& 0xF) = secno % 2 ^ 28 := by
  have e1 : ∀ x, x &&& 0xFF = x % 256 := fun x => Nat.and_pow_two_sub_one_eq_mod x 8
  have e2 : ∀ x, x &&& 0xF = x % 16 := fun x => Nat.and_pow_two_sub_one_eq_mod x 4
  have h := lba_nibble ((secno >>> 24) &&& 0xF) (by rw [e2]; omega)
  rw [h, e1, e1, e1, e2]
  simp only [Nat.shiftRight_eq_div_pow]
  omega

theorem readsectDone_mem (D : Dev) (dst secno : Nat) (m : Machine) (a : Nat) :
    (readsectDone D dst secno m).mem a =
      if a < 2 ^ 32 ∧ (a + 2 ^ 32 - u32 dst) % 2 ^ 32 < 512 then
        D.disk (512 * (secno % 2 ^ 28) + (a + 2 ^ 32 - u32 dst) % 2 ^ 32)
      else m.mem a := by
  have h := lba_reassemble secno
  simp only [readsectDone, insl, outb, inb, Machine.log, SECTSIZE, Ide.lba]
  simp only [Nat.reducePow] at h
  simp [h]


theorem readsectDone_mem_nowrap (D : Dev) (dst secno : Nat) (m : Machine) (a : Nat)
    (hd : dst + 512 ≤ 2 ^ 32) (hs : secno < 2 ^ 28) :
    (readsectDone D dst secno m).mem a =
      if dst ≤ a ∧ a < dst + 512 then D.disk (512 * secno + (a - dst)) else m.mem a := by
  rw [readsectDone_mem]
  have e1 : u32 dst = dst := Nat.mod_eq_of_lt (by omega)
  have e2 : secno % 2 ^ 28 = secno := Nat.mod_eq_of_lt hs
  rw [e1, e2]
  by_cases h : dst ≤ a ∧ a < dst + 512
  · have h1 : a < 2 ^ 32 ∧ (a + 2 ^ 32 - dst) % 2 ^ 32 < 512 := by omega
    have h2 : (a + 2 ^ 32 - dst) % 2 ^ 32 = a - dst := by omega
    rw [if_pos h1, if_pos h, h2]
  · have h1 : ¬ (a < 2 ^ 32 ∧ (a + 2 ^ 32 - dst) % 2 ^ 32 < 512) := by omega
    rw [if_neg h1, if_neg h]

theorem readsegLoop_ready (D : Dev) (hD : AlwaysReady D) (fuel : Nat) (hf : 0 < fuel) :
    ∀ (n k va end_va secno : Nat) (m : Machine), n < k →
      end_va ≤ va + 512 * n → va + 512 * n < end_va + 512 → va + 512 * n < 2 ^ 32 →
      secno + n < 2 ^ 32 →
      readsegLoop D fuel k va end_va secno m = Res.done (readsDone D n va secno m) := by
  intro n
  induction n with
  | zero =>
    intro k va end_va secno m hk h1 _ _ _
    obtain ⟨k, rfl⟩ : ∃ j, k = j + 1 := ⟨k - 1, by omega⟩
    have hlt : ¬ va < end_va := by omega
    simp [readsegLoop, readsDone, hlt]
  | succ n ih =>
    intro k va end_va secno m hk h1 h2 h3 h4
    obtain ⟨k, rfl⟩ : ∃ j, k = j + 1 := ⟨k - 1, by omega⟩
    have hlt : va < end_va := by omega
    have e1 : u32 (va + SECTSIZE) = va + SECTSIZE :=
      Nat.mod_eq_of_lt (by simp only [SECTSIZE]; omega)
    have e2 : u32 (secno + 1) = secno + 1 := Nat.mod_eq_of_lt (by omega)
    simp only [readsegLoop, if_pos hlt, readsect_ready D hD fuel hf, Res.andThen, e1, e2,
      readsDone]
    apply ih
    · omega
    · simp only [SECTSIZE]; omega
    · simp only [SECTSIZE]; omega
    · simp only [SECTSIZE]; omega
    · omega

theorem readsDone_mem (D : Dev) :
    ∀ (n va secno : Nat) (m : Machine) (a : Nat), va + 512 * n ≤ 2 ^ 32 →
      secno + n ≤ 2 ^ 28 →
      (readsDone D n va secno m).mem a =
        if va ≤ a ∧ a < va + 512 * n then D.disk (512 * secno + (a - va)) else m.mem a := by
  intro n
  induction n with
  | zero =>
    intro va secno m a _ _
    have h : ¬ (va ≤ a ∧ a < va + 512 * 0) := by omega
    rw [if_neg h]; rfl
  | succ n ih =>
    intro va secno m a h1 h2
    simp only [readsDone, SECTSIZE]
    rw [ih _ _ _ _ (by omega) (by omega), readsectDone_mem_nowrap D va secno m a (by omega) (by omega)]
    by_cases c1 : va + 512 ≤ a ∧ a < va + 512 + 512 * n
    · have c2 : va ≤ a ∧ a < va + 512 * (n + 1) := by omega
      have e : 512 * (secno + 1) + (a - (va + 512)) = 512 * secno + (a - va) := by omega
      rw [if_pos c1, if_pos c2, e]
    · rw [if_neg c1]
      by_cases c3 : va ≤ a ∧ a < va + 512
      · have c2 : va ≤ a ∧ a < va + 512 * (n + 1) := by omega
        rw [if_pos c3, if_pos c2]
      · have c2 : ¬ (va ≤ a ∧ a < va + 512 * (n + 1)) := by omega
        rw [if_neg c3, if_neg c2]

theorem readseg_ready (D : Dev) (hD : AlwaysReady D) (fuel va count offset : Nat) (m : Machine)
    (h1 : offset % 512 ≤ va) (h2 : va + count + 511 < 2 ^ 32) (h3 : offset < 2 ^ 32)
    (hf : sectorCount count offset < fuel) :
    readseg D fuel va count offset m =
      Res.done (readsDone D (sectorCount count offset) (va - offset % 512) (offset / 512 + 1)
        (m.log (Event.readseg va count offset))) := by
  have e1 : u32 (va + count) = va + count := Nat.mod_eq_of_lt (by omega)
  have e2 : u32 (va + 2 ^ 32 - offset % SECTSIZE) = va - offset % 512 := by
    simp only [u32, SECTSIZE]; omega
  have e3 : u32 (offset / SECTSIZE + 1) = offset / 512 + 1 := by
    simp only [u32, SECTSIZE]; omega
  simp only [readseg, e1, e2, e3]
  simp only [sectorCount, SECTSIZE] at hf ⊢
  apply readsegLoop_ready D hD fuel (by omega) _ _ _ _ _ _ hf <;> omega

/-! ## Traces -/

theorem newEvents_of_append (m m' : Machine) (ext : List Event)
    (h : m'.trace = m.trace ++ ext) : newEvents m m' = ext := by
  simp [newEvents, h]

theorem sectorReads_append (a b : List Event) :
    sectorReads (a ++ b) = sectorReads a ++ sectorReads b := by
  simp [sectorReads]

theorem readsectDone_trace (D : Dev) (dst secno : Nat) (m : Machine) :
    (readsectDone D dst secno m).trace = m.trace ++ readsectEvents D dst secno m.polls := by
  simp [readsectDone, readsectEvents, insl, outb, inb, Machine.log, SECTSIZE]

theorem readsectDone_polls (D : Dev) (dst secno : Nat) (m : Machine) :
    (readsectDone D dst secno m).polls = m.polls + 2 := by
  simp [readsectDone, insl, outb, inb, Machine.log]

theorem readsDone_trace (D : Dev) :
    ∀ (n va secno : Nat) (m : Machine),
      (readsDone D n va secno m).trace = m.trace ++ readsEvents D n va secno m.polls := by
  intro n
  induction n with
  | zero => intro va secno m; simp [readsDone, readsEvents]
  | succ n ih =>
    intro va secno m
    simp only [readsDone, readsEvents]
    rw [ih, readsectDone_trace, readsectDone_polls, List.append_assoc]

theorem readList_succ (n va secno : Nat) :
    readList (n + 1) va secno = (va, secno) :: readList n (va + SECTSIZE) (secno + 1) := by
  simp only [readList, List.range_succ_eq_map, List.map_cons, List.map_map]
  refine congrArg₂ _ (by simp) (List.map_congr_left ?_)
  intro i _
  simp only [Function.comp, SECTSIZE, Prod.mk.injEq]
  omega

theorem sectorReads_readsEvents (D : Dev) :
    ∀ (n va secno p : Nat), sectorReads (readsEvents D n va secno p) = readList n va secno := by
  intro n
  induction n with
  | zero => intro va secno p; simp [readsEvents, readList, sectorReads]
  | succ n ih =>
    intro va secno p
    rw [readList_succ, readsEvents, sectorReads_append, ih]
    simp [sectorReads, readsectEvents]

theorem readList_length (n va secno : Nat) : (readList n va secno).length = n := by
  simp [readList]

/-! ### Runs on an arbitrary device -/

theorem waitdisk_trace (D : Dev) :
    ∀ (fuel : Nat) (m : Machine),
      ∃ ext, (waitdisk D fuel m).state.trace = m.trace ++ ext ∧ sectorReads ext = [] := by
  intro fuel
  induction fuel with
  | zero => intro m; exact ⟨[], by simp [waitdisk, Res.state], rfl⟩
  | succ f ih =>
    intro m
    simp only [waitdisk]
    split
    · obtain ⟨ext, h1, h2⟩ := ih (inb D 0x1F7 m).2
      refine ⟨Event.inb 0x1F7 (D.status m.polls).val :: ext, ?_, ?_⟩
      · rw [h1]; simp [inb]
      · simpa [sectorReads] using h2
    · exact ⟨[Event.inb 0x1F7 (D.status m.polls).val], by simp [inb, Res.state], by
        simp [sectorReads]⟩

theorem andThen_trace (r : Res) (f : Machine → Res)
    (h : ∀ m, ∃ ext, (f m).state.trace = m.trace ++ ext) :
    ∃ ext, (r.andThen f).state.trace = r.state.trace ++ ext := by
  cases r with
  | done m => exact h m
  | timeout m => exact ⟨[], by simp [Res.andThen, Res.state]⟩

theorem outb_trace (port val : Nat) (m : Machine) :
    (outb port val m).trace = m.trace ++ [Event.outb port (val % 256)] := rfl

theorem waitdisk_andThen_trace (D : Dev) (fuel : Nat) (m : Machine) (f : Machine → Res)
    (h : ∀ m, ∃ ext, (f m).state.trace = m.trace ++ ext) :
    ∃ ext, ((waitdisk D fuel m).andThen f).state.trace = m.trace ++ ext := by
  obtain ⟨e1, h1, -⟩ := waitdisk_trace D fuel m
  obtain ⟨e2, h2⟩ := andThen_trace (waitdisk D fuel m) f h
  exact ⟨e1 ++ e2, by rw [h2, h1, List.append_assoc]⟩

theorem readsect_trace (D : Dev) (fuel dst secno : Nat) (m : Machine) :
    ∃ ext, (readsect D fuel dst secno m).state.trace =
      m.trace ++ Event.readsect dst secno :: ext := by
  have key : ∃ ext, (readsect D fuel dst secno m).state.trace =
      (m.log (Event.readsect dst secno)).trace ++ ext := by
    unfold readsect
    apply waitdisk_andThen_trace
    intro m1
    obtain ⟨e, he⟩ := waitdisk_andThen_trace D fuel
      (outb 0x1F7 0x20 (outb 0x1F6 (((secno >>> 24) &&& 0xF) ||| 0xE0)
        (outb 0x1F5 ((secno >>> 16) &&& 0xFF) (outb 0x1F4 ((secno >>> 8) &&& 0xFF)
        (outb 0x1F3 (secno &&& 0xFF) (outb 0x1F2 1 m1))))))
      (fun m => Res.done (insl D 0x1F0 dst (SECTSIZE / 4) m))
      (fun m => ⟨[Event.insl 0x1F0 dst (SECTSIZE / 4)], by simp [insl, Res.state]⟩)
    refine ⟨[Event.outb 0x1F2 (1 % 256), Event.outb 0x1F3 ((secno &&& 0xFF) % 256),
      Event.outb 0x1F4 (((secno >>> 8) &&& 0xFF) % 256),
      Event.outb 0x1F5 (((secno >>> 16) &&& 0xFF) % 256),
      Event.outb 0x1F6 ((((secno >>> 24) &&& 0xF) ||| 0xE0) % 256),
      Event.outb 0x1F7 (0x20 % 256)] ++ e, ?_⟩
    rw [he]
    simp only [outb_trace, List.append_assoc, List.cons_append, List.nil_append]
  obtain ⟨ext, h⟩ := key
  exact ⟨ext, by rw [h]; simp [Machine.log]⟩

theorem readsegLoop_trace (D : Dev) (fuel : Nat) :
    ∀ (k va end_va secno : Nat) (m : Machine),
      ∃ ext, (readsegLoop D fuel k va end_va secno m).state.trace = m.trace ++ ext := by
  intro k
  induction k with
  | zero => intro va end_va secno m; exact ⟨[], by simp [readsegLoop, Res.state]⟩
  | succ k ih =>
    intro va end_va secno m
    simp only [readsegLoop]
    split
    · obtain ⟨e1, h1⟩ := readsect_trace D fuel va secno m
      obtain ⟨e2, h2⟩ := andThen_trace (readsect D fuel va secno m)
        (readsegLoop D fuel k (u32 (va + SECTSIZE)) end_va (u32 (secno + 1)))
        (fun m' => ih _ _ _ m')
      rw [h1] at h2
      exact ⟨_, by rw [h2, List.append_assoc]⟩
    · exact ⟨[], by simp [Res.state]⟩

theorem readseg_first_read (D : Dev) (fuel va count offset : Nat) (m : Machine) :
    (sectorReads (newEvents m (readseg D fuel va count offset m).state)).head? =
      if 0 < fuel ∧ u32 (va + 2 ^ 32 - offset % SECTSIZE) < u32 (va + count) then
        some (u32 (va + 2 ^ 32 - offset % SECTSIZE), u32 (offset / SECTSIZE + 1))
      else none := by
  cases fuel with
  | zero =>
    rw [newEvents_of_append m _ [Event.readseg va count offset]
      (by simp [readseg, readsegLoop, Res.state, Machine.log])]
    simp [sectorReads]
  | succ f =>
    by_cases hlt : u32 (va + 2 ^ 32 - offset % SECTSIZE) < u32 (va + count)
    all_goals have hlt' := hlt
    all_goals simp only [Nat.reducePow] at hlt'
    · obtain ⟨e1, h1⟩ := readsect_trace D (f + 1) (u32 (va + 2 ^ 32 - offset % SECTSIZE))
        (u32 (offset / SECTSIZE + 1)) (m.log (Event.readseg va count offset))
      obtain ⟨e2, h2⟩ := andThen_trace (readsect D (f + 1) (u32 (va + 2 ^ 32 - offset % SECTSIZE))
        (u32 (offset / SECTSIZE + 1)) (m.log (Event.readseg va count offset)))
        (readsegLoop D (f + 1) f (u32 (u32 (va + 2 ^ 32 - offset % SECTSIZE) + SECTSIZE))
          (u32 (va + count)) (u32 (u32 (offset / SECTSIZE + 1) + 1)))
        (fun m' => readsegLoop_trace D _ _ _ _ _ m')
      rw [h1] at h2
      rw [newEvents_of_append m _ (Event.readseg va count offset ::
        Event.readsect (u32 (va + 2 ^ 32 - offset % SECTSIZE)) (u32 (offset / SECTSIZE + 1)) ::
        (e1 ++ e2))
        (by simp only [readseg, readsegLoop, if_pos hlt]; rw [h2]; simp [Machine.log])]
      simp [sectorReads, hlt']
    · rw [newEvents_of_append m _ [Event.readseg va count offset]
        (by simp [readseg, readsegLoop, Res.state, Machine.log, hlt'])]
      simp [sectorReads, hlt']

/-! ## Runs that return, on an arbitrary device -/

theorem sim_refl (a : Machine) : a.Sim a := ⟨rfl, rfl⟩

theorem sim_symm {a b : Machine} (h : a.Sim b) : b.Sim a := ⟨h.1.symm, h.2.symm⟩

theorem sim_trans {a b c : Machine} (h1 : a.Sim b) (h2 : b.Sim c) : a.Sim c :=
  ⟨h1.1.trans h2.1, h1.2.trans h2.2⟩

theorem outb_sim (port val : Nat) {a b : Machine} (h : a.Sim b) :
    (outb port val a).Sim (outb port val b) := by
  obtain ⟨h1, h2⟩ := h
  simp only [Machine.Sim, outb, h1, h2, and_self]

theorem insl_sim (D : Dev) (port addr cnt : Nat) {a b : Machine} (h : a.Sim b) :
    (insl D port addr cnt a).Sim (insl D port addr cnt b) := by
  obtain ⟨h1, h2⟩ := h
  unfold insl
  split
  · simp only [Machine.Sim, h1, h2, and_self]
  · exact ⟨h1, h2⟩

theorem inb_sim (D : Dev) (port : Nat) (a : Machine) : (inb D port a).2.Sim a := by
  unfold inb
  split <;> exact ⟨rfl, rfl⟩

theorem log_sim (a : Machine) (e : Event) : (a.log e).Sim a := ⟨rfl, rfl⟩

theorem noPolls_append (a b : List Event) : noPolls (a ++ b) = noPolls a ++ noPolls b := by
  simp [noPolls]

theorem sectorReads_noPolls (t : List Event) : sectorReads (noPolls t) = sectorReads t := by
  induction t with
  | nil => rfl
  | cons e t ih =>
    cases e <;> simp_all [sectorReads, noPolls, List.filter_cons]

theorem waitdisk_sim (D : Dev) :
    ∀ (fuel : Nat) (m : Machine), (waitdisk D fuel m).state.Sim m := by
  intro fuel
  induction fuel with
  | zero => intro m; exact sim_refl m
  | succ f ih =>
    intro m
    simp only [waitdisk]
    split
    · exact sim_trans (ih _) (inb_sim D _ m)
    · exact inb_sim D _ m

theorem waitdisk_noPolls (D : Dev) :
    ∀ (fuel : Nat) (m : Machine),
      ∃ ext, (waitdisk D fuel m).state.trace = m.trace ++ ext ∧ noPolls ext = [] := by
  intro fuel
  induction fuel with
  | zero => intro m; exact ⟨[], by simp [waitdisk, Res.state], rfl⟩
  | succ f ih =>
    intro m
    simp only [waitdisk]
    split
    · obtain ⟨ext, h1, h2⟩ := ih (inb D 0x1F7 m).2
      refine ⟨Event.inb 0x1F7 (D.status m.polls).val :: ext, ?_, ?_⟩
      · rw [h1]; simp [inb]
      · simpa [noPolls] using h2
    · exact ⟨[Event.inb 0x1F7 (D.status m.polls).val], by simp [inb, Res.state], by
        simp [noPolls]⟩

theorem andThen_done {r : Res} {f : Machine → Res} {m' : Machine}
    (h : r.andThen f = Res.done m') : ∃ m1, r = Res.done m1 ∧ f m1 = Res.done m' := by
  cases r with
  | done m1 => exact ⟨m1, rfl, h⟩
  | timeout m1 => simp [Res.andThen] at h

theorem waitdisk_done (D : Dev) (fuel : Nat) (m m' : Machine)
    (h : waitdisk D fuel m = Res.done m') :
    m'.Sim m ∧ ∃ ext, m'.trace = m.trace ++ ext ∧ noPolls ext = [] := by
  have h1 := waitdisk_sim D fuel m
  have h2 := waitdisk_noPolls D fuel m
  rw [h] at h1 h2
  exact ⟨h1, h2⟩

theorem noPolls_readsectEvents (D : Dev) (dst secno p : Nat) :
    noPolls (readsectEvents D dst secno p) =
      [Event.readsect dst secno, Event.outb 0x1F2 1, Event.outb 0x1F3 ((secno &&& 0xFF) % 256),
       Event.outb 0x1F4 (((secno >>> 8) &&& 0xFF) % 256),
       Event.outb 0x1F5 (((secno >>> 16) &&& 0xFF) % 256),
       Event.outb 0x1F6 ((((secno >>> 24) &&& 0xF) ||| 0xE0) % 256),
       Event.outb 0x1F7 0x20, Event.insl 0x1F0 dst 128] := by
  simp [noPolls, readsectEvents]

theorem readsect_done (D : Dev) (fuel dst secno : Nat) (m m' : Machine)
    (h : readsect D fuel dst secno m = Res.done m') :
    m'.Sim (readsectDone D dst secno m) ∧
      ∃ ext, m'.trace = m.trace ++ ext ∧ noPolls ext = noPolls (readsectEvents D dst secno 0) := by
  unfold readsect at h
  obtain ⟨m1, hw1, h⟩ := andThen_done h
  obtain ⟨m2, hw2, h⟩ := andThen_done h
  obtain ⟨s1, e1, t1, q1⟩ := waitdisk_done D fuel _ _ hw1
  obtain ⟨s2, e2, t2, q2⟩ := waitdisk_done D fuel _ _ hw2
  injection h with h
  subst h
  constructor
  · unfold readsectDone
    apply insl_sim
    refine sim_trans s2 ?_
    have a : m1.Sim (inb D 0x1F7 (m.log (Event.readsect dst secno))).2 :=
      sim_trans s1 (sim_symm (inb_sim D _ _))
    exact sim_trans (outb_sim _ _ (outb_sim _ _ (outb_sim _ _ (outb_sim _ _
      (outb_sim _ _ (outb_sim _ _ a)))))) (sim_symm (inb_sim D _ _))
  · refine ⟨[Event.readsect dst secno] ++ e1 ++ [Event.outb 0x1F2 (1 % 256),
      Event.outb 0x1F3 ((secno &&& 0xFF) % 256),
      Event.outb 0x1F4 (((secno >>> 8) &&& 0xFF) % 256),
      Event.outb 0x1F5 (((secno >>> 16) &&& 0xFF) % 256),
      Event.outb 0x1F6 ((((secno >>> 24) &&& 0xF) ||| 0xE0) % 256),
      Event.outb 0x1F7 (0x20 % 256)] ++ e2 ++ [Event.insl 0x1F0 dst (SECTSIZE / 4)], ?_, ?_⟩
    · simp [insl, t2, outb_trace, t1, Machine.log]
    · simp only [noPolls_append, q1, q2, noPolls_readsectEvents]
      simp [noPolls, SECTSIZE]

theorem readsectDone_sim (D : Dev) (dst secno : Nat) {a b : Machine} (h : a.Sim b) :
    (readsectDone D dst secno a).Sim (readsectDone D dst secno b) := by
  have x : (inb D 0x1F7 (a.log (Event.readsect dst secno))).2.Sim
      (inb D 0x1F7 (b.log (Event.readsect dst secno))).2 :=
    sim_trans (inb_sim D _ _) (sim_trans (log_sim a _) (sim_trans h
      (sim_symm (sim_trans (inb_sim D _ _) (log_sim b _)))))
  unfold readsectDone
  exact insl_sim D _ _ _ (sim_trans (inb_sim D _ _) (sim_trans (outb_sim _ _ (outb_sim _ _
    (outb_sim _ _ (outb_sim _ _ (outb_sim _ _ (outb_sim _ _ x))))))
    (sim_symm (inb_sim D _ _))))

theorem readsDone_sim (D : Dev) :
    ∀ (n va secno : Nat) {a b : Machine}, a.Sim b →
      (readsDone D n va secno a).Sim (readsDone D n va secno b) := by
  intro n
  induction n with
  | zero => intro va secno a b h; exact h
  | succ n ih =>
    intro va secno a b h
    exact ih _ _ (readsectDone_sim D va secno h)

theorem noPolls_readsEvents (D : Dev) :
    ∀ (n va secno p q : Nat),
      noPolls (readsEvents D n va secno p) = noPolls (readsEvents D n va secno q) := by
  intro n
  induction n with
  | zero => intro va secno p q; rfl
  | succ n ih =>
    intro va secno p q
    simp only [readsEvents, noPolls_append, noPolls_readsectEvents]
    rw [ih _ _ (p + 2) (q + 2)]

theorem readsegLoop_done (D : Dev) (fuel : Nat) :
    ∀ (n k va end_va secno : Nat) (m m' : Machine),
      end_va ≤ va + 512 * n → va + 512 * n < end_va + 512 → va + 512 * n < 2 ^ 32 →
      secno + n < 2 ^ 32 →
      readsegLoop D fuel k va end_va secno m = Res.done m' →
      m'.Sim (readsDone D n va secno m) ∧
        ∃ ext, m'.trace = m.trace ++ ext ∧
          noPolls ext = noPolls (readsEvents D n va secno 0) := by
  intro n
  induction n with
  | zero =>
    intro k va end_va secno m m' h1 _ _ _ h
    cases k with
    | zero => simp [readsegLoop] at h
    | succ k =>
      have hlt : ¬ va < end_va := by omega
      simp only [readsegLoop, if_neg hlt, Res.done.injEq] at h
      subst h
      exact ⟨sim_refl _, [], by simp, rfl⟩
  | succ n ih =>
    intro k va end_va secno m m' h1 h2 h3 h4 h
    cases k with
    | zero => simp [readsegLoop] at h
    | succ k =>
      have hlt : va < end_va := by omega
      have e1 : u32 (va + SECTSIZE) = va + SECTSIZE :=
        Nat.mod_eq_of_lt (by simp only [SECTSIZE]; omega)
      have e2 : u32 (secno + 1) = secno + 1 := Nat.mod_eq_of_lt (by omega)
      simp only [readsegLoop, if_pos hlt, e1, e2] at h
      obtain ⟨m1, hr, hl⟩ := andThen_done h
      obtain ⟨s1, x1, t1, q1⟩ := readsect_done D fuel va secno m m1 hr
      obtain ⟨s2, x2, t2, q2⟩ := ih k (va + SECTSIZE) end_va (secno + 1) m1 m'
        (by simp only [SECTSIZE]; omega) (by simp only [SECTSIZE]; omega)
        (by simp only [SECTSIZE]; omega) (by omega) hl
      refine ⟨sim_trans s2 (readsDone_sim D n _ _ s1), x1 ++ x2, ?_, ?_⟩
      · rw [t2, t1, List.append_assoc]
      · rw [noPolls_append, q1, q2, readsEvents, noPolls_append,
          noPolls_readsEvents D n _ _ 2 0]

theorem readseg_done (D : Dev) (fuel va count offset : Nat) (m m' : Machine)
    (h1 : offset % 512 ≤ va) (h2 : va + count + 511 < 2 ^ 32) (h3 : offset < 2 ^ 32)
    (h : readseg D fuel va count offset m = Res.done m') :
    m'.Sim (readsDone D (sectorCount count offset) (va - offset % 512) (offset / 512 + 1)
        (m.log (Event.readseg va count offset))) ∧
      ∃ ext, newEvents m m' = Event.readseg va count offset :: ext ∧
        noPolls ext = noPolls
          (readsEvents D (sectorCount count offset) (va - offset % 512) (offset / 512 + 1) 0) := by
  have e1 : u32 (va + count) = va + count := Nat.mod_eq_of_lt (by omega)
  have e2 : u32 (va + 2 ^ 32 - offset % SECTSIZE) = va - offset % 512 := by
    simp only [u32, SECTSIZE]; omega
  have e3 : u32 (offset / SECTSIZE + 1) = offset / 512 + 1 := by
    simp only [u32, SECTSIZE]; omega
  simp only [readseg, e1, e2, e3] at h
  obtain ⟨s, ext, t, q⟩ := readsegLoop_done D fuel (sectorCount count offset) fuel
    (va - offset % 512) (va + count) (offset / 512 + 1) _ m'
    (by simp only [sectorCount, SECTSIZE]; omega) (by simp only [sectorCount, SECTSIZE]; omega)
    (by simp only [sectorCount, SECTSIZE]; omega) (by simp only [sectorCount, SECTSIZE]; omega) h
  refine ⟨s, ext, ?_, q⟩
  apply newEvents_of_append
  rw [t]
  simp [Machine.log]

theorem readyDev_ready (disk : Nat → Byte) : AlwaysReady (readyDev disk) := by
  intro i
  show ((0x40 : Fin 256) : Nat) &&& 0xC0 = 0x40
  decide

theorem readseg_ready_mem (D : Dev) (va count offset : Nat) (m : Machine) (a : Nat)
    (h1 : offset % 512 ≤ va) (h2 : va + count + 511 < 2 ^ 32) (h3 : offset < 2 ^ 32) :
    (readsDone D (sectorCount count offset) (va - offset % 512) (offset / 512 + 1)
        (m.log (Event.readseg va count offset))).mem a =
      if va - offset % 512 ≤ a ∧ a < va - offset % 512 + 512 * sectorCount count offset then
        D.disk (512 + 512 * (offset / 512) + (a - (va - offset % 512)))
      else m.mem a := by
  have hn : 512 * sectorCount count offset ≤ offset % 512 + count + 511 := by
    simp only [sectorCount, SECTSIZE]; omega
  rw [readsDone_mem D _ _ _ _ a (by omega) (by omega)]
  have e : 512 * (offset / 512 + 1) = 512 + 512 * (offset / 512) := by omega
  rw [e]
  rfl

/-- C1: on a device that is always ready and without 32-bit wrap-around
(`offset mod 512 ≤ va`, `va + count + 511 < 2^32`), `readseg(va, count, offset)`
returns once it has fuel for its sector reads, and afterwards `memory[va + i]` is
disk byte `512 + offset + i` for every `i < count`. -/
theorem readseg_copies_image (D : Dev) (hD : AlwaysReady D) (m : Machine)
    (va count offset fuel : Nat) (h1 : offset % 512 ≤ va) (h2 : va + count + 511 < 2 ^ 32)
    (h3 : offset < 2 ^ 32) (hf : sectorCount count offset < fuel) :
    ∃ m', readseg D fuel va count offset m = Res.done m' ∧
      ∀ i, i < count → m'.mem (va + i) = D.disk (512 + offset + i) := by
  refine ⟨_, readseg_ready D hD fuel va count offset m h1 h2 h3 hf, ?_⟩
  intro i hi
  rw [readseg_ready_mem D va count offset m _ h1 h2 h3]
  have hn : offset % 512 + count ≤ 512 * sectorCount count offset := by
    simp only [sectorCount, SECTSIZE]; omega
  rw [if_pos (by omega)]
  congr 1
  omega

theorem readseg_copies_image_witness :
    ∃ m', readseg (readyDev demoDisk) 5 0x100003 1000 515 (Machine.boot fun _ => 0)
        = Res.done m' ∧
      ∀ i, i < 1000 → m'.mem (0x100003 + i) = (readyDev demoDisk).disk (512 + 515 + i) :=
  readseg_copies_image (readyDev demoDisk) (readyDev_ready demoDisk) (Machine.boot fun _ => 0)
    0x100003 1000 515 5 (by decide) (by decide) (by decide) (by decide)

/-- C2 as stated fails where the sector-aligned start wraps below zero:
`readseg(0, 1, 1)` on a ready device returns without reading any sector, while
`ceil((1 mod 512 + 1) / 512) = 1`. -/
theorem readseg_count_counterexample :
    (readseg (readyDev demoDisk) 5 0 1 1 (Machine.boot fun _ => 0)).isDone = true ∧
    (sectorReads (newEvents (Machine.boot fun _ => 0)
      (readseg (readyDev demoDisk) 5 0 1 1 (Machine.boot fun _ => 0)).state)).length = 0 ∧
    (1 % 512 + 1 + 511) / 512 = 1 := by
  decide

/-- C2, amended: without 32-bit wrap-around (`offset mod 512 ≤ va`,
`va + count + 511 < 2^32`) a `readseg(va, count, offset)` that returns, on any
device, has issued exactly `n = ceil((offset mod 512 + count) / 512)` sector reads,
`n` being the number with `512 * n - 512 < offset mod 512 + count ≤ 512 * n`; and
on a device that is always ready the call does return. -/
theorem readseg_read_count (D : Dev) (m : Machine) (va count offset fuel : Nat)
    (h1 : offset % 512 ≤ va) (h2 : va + count + 511 < 2 ^ 32) (h3 : offset < 2 ^ 32) :
    (∀ m', readseg D fuel va count offset m = Res.done m' →
      (sectorReads (newEvents m m')).length = (offset % 512 + count + 511) / 512 ∧
      offset % 512 + count ≤ 512 * (sectorReads (newEvents m m')).length ∧
      512 * (sectorReads (newEvents m m')).length < offset % 512 + count + 512) ∧
    (AlwaysReady D → (offset % 512 + count + 511) / 512 < fuel →
      ∃ m', readseg D fuel va count offset m = Res.done m') := by
  constructor
  · intro m' h
    obtain ⟨-, ext, t, q⟩ := readseg_done D fuel va count offset m m' h1 h2 h3 h
    have hlen : (sectorReads (newEvents m m')).length = (offset % 512 + count + 511) / 512 := by
      rw [t, ← List.singleton_append, sectorReads_append, ← sectorReads_noPolls ext, q,
        sectorReads_noPolls, sectorReads_readsEvents, List.length_append, readList_length]
      simp [sectorReads, sectorCount, SECTSIZE]
    rw [hlen]
    omega
  · intro hD hf
    exact ⟨_, readseg_ready D hD fuel va count offset m h1 h2 h3 hf⟩

theorem readseg_read_count_witness :
    ∃ m', readseg (readyDev demoDisk) 5 0x100003 1000 515 (Machine.boot fun _ => 0)
        = Res.done m' ∧
      (sectorReads (newEvents (Machine.boot fun _ => 0) m')).length = 2 :=
  have T := readseg_read_count (readyDev demoDisk) (Machine.boot fun _ => 0)
    0x100003 1000 515 5 (by decide) (by decide) (by decide)
  (T.2 (readyDev_ready demoDisk) (by decide)).elim fun m' hm => ⟨m', hm, (T.1 m' hm).1⟩

/-- C7: whenever `readseg(va, count, offset)` issues a sector read, on any device
and with any fuel, the first one reads sector `offset / 512 + 1`; it is sector 1
for offset 0 and sector `k + 1` for offset `512 * k`. -/
theorem readseg_first_sector (D : Dev) (fuel : Nat) (m : Machine) (va count offset : Nat)
    (h3 : offset < 2 ^ 32) (d s : Nat)
    (h : (sectorReads (newEvents m (readseg D fuel va count offset m).state)).head?
      = some (d, s)) :
    s = offset / 512 + 1 ∧ (offset = 0 → s = 1) ∧ ∀ k, offset = 512 * k → s = k + 1 := by
  rw [readseg_first_read] at h
  split at h
  · simp only [Option.some.injEq, Prod.mk.injEq, u32, SECTSIZE] at h
    have hs : s = offset / 512 + 1 := by omega
    refine ⟨hs, ?_, ?_⟩
    · intro h0; omega
    · intro k hk; omega
  · exact absurd h (by simp)

theorem readseg_first_sector_witness :
    2 = 515 / 512 + 1 ∧ (515 = 0 → 2 = 1) ∧ ∀ k, 515 = 512 * k → 2 = k + 1 :=
  readseg_first_sector (readyDev demoDisk) 5 (Machine.boot fun _ => 0) 0x100003 1000 515
    (by decide) 0x100000 2 (by decide)

/-- C8: whenever `readseg(va, count, offset)` issues a sector read, on any device
and with any fuel, the first one writes at `va - offset mod 512` taken modulo
`2^32`, which is plainly `va - offset mod 512` when `offset mod 512 ≤ va`. -/
theorem readseg_first_address (D : Dev) (fuel : Nat) (m : Machine) (va count offset : Nat)
    (hva : va < 2 ^ 32) (d s : Nat)
    (h : (sectorReads (newEvents m (readseg D fuel va count offset m).state)).head?
      = some (d, s)) :
    (d : Int) = ((va : Int) - ((offset % 512 : Nat) : Int)) % 2 ^ 32 ∧
      (offset % 512 ≤ va → d = va - offset % 512) := by
  rw [readseg_first_read] at h
  split at h
  · simp only [Option.some.injEq, Prod.mk.injEq, u32, SECTSIZE] at h
    constructor
    · omega
    · intro hr; omega
  · exact absurd h (by simp)

theorem readseg_first_address_witness :
    ((0x100000 : Nat) : Int) = (((0x100003 : Nat) : Int) - ((515 % 512 : Nat) : Int)) % 2 ^ 32 ∧
      (515 % 512 ≤ 0x100003 → 0x100000 = 0x100003 - 515 % 512) :=
  readseg_first_address (readyDev demoDisk) 5 (Machine.boot fun _ => 0) 0x100003 1000 515
    (by decide) 0x100000 2 (by decide)

/-- C9: without 32-bit wrap-around, a `readseg(va, count, offset)` with
`count > 0` that returns, on any device, has read `n` sectors into
`va - r, va - r + 512, ...` (`r = offset mod 512`); the end of the last sector,
`va - r + 512 * n`, is at or past `va + count` by at most 511, by 0 exactly when
`r + count` is a multiple of 512, and no byte at or above it is written.  On a
device that is always ready the call does return. -/
theorem readseg_overread_bound (D : Dev) (m : Machine) (va count offset fuel : Nat)
    (h1 : offset % 512 ≤ va) (h2 : va + count + 511 < 2 ^ 32) (h3 : offset < 2 ^ 32)
    (hc : 0 < count) :
    (∀ m', readseg D fuel va count offset m = Res.done m' →
      ∃ n, sectorReads (newEvents m m') = readList n (va - offset % 512) (offset / 512 + 1) ∧
        0 < n ∧
        va + count ≤ va - offset % 512 + 512 * n ∧
        (va - offset % 512 + 512 * n) - (va + count) ≤ 511 ∧
        ((va - offset % 512 + 512 * n) - (va + count) = 0
          ↔ (offset % 512 + count) % 512 = 0) ∧
        ∀ a, va - offset % 512 + 512 * n ≤ a → m'.mem a = m.mem a) ∧
    (AlwaysReady D → (offset % 512 + count + 511) / 512 < fuel →
      ∃ m', readseg D fuel va count offset m = Res.done m') := by
  constructor
  · intro m' h
    obtain ⟨s, ext, t, q⟩ := readseg_done D fuel va count offset m m' h1 h2 h3 h
    refine ⟨sectorCount count offset, ?_, ?_, ?_, ?_, ?_, ?_⟩
    · rw [t, ← List.singleton_append, sectorReads_append, ← sectorReads_noPolls ext, q,
        sectorReads_noPolls, sectorReads_readsEvents]
      simp [sectorReads]
    · simp only [sectorCount, SECTSIZE]; omega
    · simp only [sectorCount, SECTSIZE]; omega
    · simp only [sectorCount, SECTSIZE]; omega
    · simp only [sectorCount, SECTSIZE]; omega
    · intro a ha
      rw [s.1, readseg_ready_mem D va count offset m a h1 h2 h3, if_neg (by omega)]
  · intro hD hf
    exact ⟨_, readseg_ready D hD fuel va count offset m h1 h2 h3 hf⟩

theorem readseg_overread_bound_witness :
    ∃ m' n, readseg (readyDev demoDisk) 5 0x100003 1000 515 (Machine.boot fun _ => 0)
        = Res.done m' ∧
      sectorReads (newEvents (Machine.boot fun _ => 0) m') = readList n 0x100000 2 ∧
      0x100003 + 1000 ≤ 0x100000 + 512 * n ∧
      (0x100000 + 512 * n) - (0x100003 + 1000) ≤ 511 :=
  have T := readseg_overread_bound (readyDev demoDisk) (Machine.boot fun _ => 0)
    0x100003 1000 515 5 (by decide) (by decide) (by decide) (by decide)
  (T.2 (readyDev_ready demoDisk) (by decide)).elim fun m' hm =>
    (T.1 m' hm).elim fun n hn => ⟨m', n, hm, hn.1, hn.2.2.1, hn.2.2.2.1⟩

theorem readseg_done_mem (D : Dev) (fuel va count offset : Nat) (m m' : Machine) (a : Nat)
    (h1 : offset % 512 ≤ va) (h2 : va + count + 511 < 2 ^ 32) (h3 : offset < 2 ^ 32)
    (h : readseg D fuel va count offset m = Res.done m') :
    m'.mem a =
      if va - offset % 512 ≤ a ∧ a < va - offset % 512 + 512 * sectorCount count offset then
        D.disk (512 + 512 * (offset / 512) + (a - (va - offset % 512)))
      else m.mem a := by
  rw [(readseg_done D fuel va count offset m m' h1 h2 h3 h).1.1,
    readseg_ready_mem D va count offset m a h1 h2 h3]

theorem readseg_done_copy (D : Dev) (fuel va count offset : Nat) (m m' : Machine)
    (h1 : offset % 512 ≤ va) (h2 : va + count + 511 < 2 ^ 32) (h3 : offset < 2 ^ 32)
    (h : readseg D fuel va count offset m = Res.done m') (i : Nat) (hi : i < count) :
    m'.mem (va + i) = D.disk (512 + offset + i) := by
  rw [readseg_done_mem D fuel va count offset m m' _ h1 h2 h3 h]
  have hn : offset % 512 + count ≤ 512 * sectorCount count offset := by
    simp only [sectorCount, SECTSIZE]; omega
  rw [if_pos (by omega)]
  congr 1
  omega

theorem readseg_done_frame (D : Dev) (fuel va count offset : Nat) (m m' : Machine) (a : Nat)
    (h1 : offset % 512 ≤ va) (h2 : va + count + 511 < 2 ^ 32) (h3 : offset < 2 ^ 32)
    (h : readseg D fuel va count offset m = Res.done m')
    (ha : a < va - offset % 512 ∨ va + count + 511 ≤ a) :
    m'.mem a = m.mem a := by
  rw [readseg_done_mem D fuel va count offset m m' _ h1 h2 h3 h]
  have hn : 512 * sectorCount count offset ≤ offset % 512 + count + 511 := by
    simp only [sectorCount, SECTSIZE]; omega
  rw [if_neg (by omega)]

/-- C6 as stated fails: segment B's load starts `offB mod 512` bytes below `destB`.
With A = (0x100000, 512, 0) and B = (0x100200, 512, 769) the ranges do not overlap
and A lies below B, yet after both loads byte 255 of A's region holds disk byte
1024 (value 0), not image byte 255 (disk byte 767, value 255). -/
theorem two_segments_counterexample :
    0x100000 + 512 ≤ 0x100200 ∧
    ((readseg (readyDev demoDisk) 5 0x100000 512 0 (Machine.boot fun _ => 0)).andThen
      (readseg (readyDev demoDisk) 5 0x100200 512 769)).isDone = true ∧
    ((readseg (readyDev demoDisk) 5 0x100000 512 0 (Machine.boot fun _ => 0)).andThen
      (readseg (readyDev demoDisk) 5 0x100200 512 769)).state.mem (0x100000 + 255)
      ≠ (readyDev demoDisk).disk (512 + 0 + 255) := by
  decide

/-- C6, amended: for two segments A and B without 32-bit wrap-around, if B's
sector-aligned start `destB - offB mod 512` is at or above A's end
(`destA + sizeA + offB mod 512 ≤ destB`), then after `readseg` for A followed by
`readseg` for B, both returning, A's region holds image bytes `offA ..` and B's
region holds image bytes `offB ..`; on a device that is always ready both calls
return. -/
theorem two_segments_intact (D : Dev) (m : Machine) (fuel : Nat)
    (destA sizeA offA destB sizeB offB : Nat)
    (hA : offA % 512 ≤ destA) (hAB : destA + sizeA + offB % 512 ≤ destB)
    (hB : destB + sizeB + 511 < 2 ^ 32) (hoA : offA < 2 ^ 32) (hoB : offB < 2 ^ 32) :
    (∀ m1 m2, readseg D fuel destA sizeA offA m = Res.done m1 →
      readseg D fuel destB sizeB offB m1 = Res.done m2 →
      (∀ i, i < sizeA → m2.mem (destA + i) = D.disk (512 + offA + i)) ∧
      (∀ i, i < sizeB → m2.mem (destB + i) = D.disk (512 + offB + i))) ∧
    (AlwaysReady D → sectorCount sizeA offA < fuel → sectorCount sizeB offB < fuel →
      ∃ m1 m2, readseg D fuel destA sizeA offA m = Res.done m1 ∧
        readseg D fuel destB sizeB offB m1 = Res.done m2) := by
  constructor
  · intro m1 m2 r1 r2
    constructor
    · intro i hi
      rw [readseg_done_frame D fuel destB sizeB offB m1 m2 _ (by omega) hB hoB r2
        (Or.inl (by omega))]
      exact readseg_done_copy D fuel destA sizeA offA m m1 hA (by omega) hoA r1 i hi
    · intro i hi
      exact readseg_done_copy D fuel destB sizeB offB m1 m2 (by omega) hB hoB r2 i hi
  · intro hD fA fB
    exact ⟨_, _, readseg_ready D hD fuel destA sizeA offA m hA (by omega) hoA fA,
      readseg_ready D hD fuel destB sizeB offB _ (by omega) hB hoB fB⟩

theorem two_segments_intact_witness :
    ∃ m1 m2, readseg (readyDev demoDisk) 5 0x100000 512 0 (Machine.boot fun _ => 0)
        = Res.done m1 ∧
      readseg (readyDev demoDisk) 5 0x100400 512 769 m1 = Res.done m2 ∧
      (∀ i, i < 512 → m2.mem (0x100000 + i) = (readyDev demoDisk).disk (512 + 0 + i)) ∧
      (∀ i, i < 512 → m2.mem (0x100400 + i) = (readyDev demoDisk).disk (512 + 769 + i)) :=
  have T := two_segments_intact (readyDev demoDisk) (Machine.boot fun _ => 0) 5
    0x100000 512 0 0x100400 512 769 (by decide) (by decide) (by decide) (by decide) (by decide)
  (T.2 (readyDev_ready demoDisk) (by decide) (by decide)).elim fun m1 h1 =>
    h1.elim fun m2 h2 => ⟨m1, m2, h2.1, h2.2, T.1 m1 m2 h2.1 h2.2⟩

/-! ## The header load -/

theorem header_done_mem (D : Dev) (fuel : Nat) (m m1 : Machine)
    (h : readseg D fuel ELFHDR (SECTSIZE * 8) 0 m = Res.done m1) (k : Nat) (hk : k < 4096) :
    m1.mem (0x10000 + k) = imageByte D k := by
  have h' : readseg D fuel 0x10000 4096 0 m = Res.done m1 := h
  rw [readseg_done_copy D fuel 0x10000 4096 0 m m1 (by decide) (by decide) (by decide) h' k hk]
  simp [imageByte, SECTSIZE]

theorem header_done_read32 (D : Dev) (fuel : Nat) (m m1 : Machine)
    (h : readseg D fuel ELFHDR (SECTSIZE * 8) 0 m = Res.done m1) (k : Nat) (hk : k + 4 ≤ 4096) :
    read32 m1.mem (ELFHDR + k) = image32 D k := by
  have e0 : u32 (ELFHDR + k) = 0x10000 + k := by simp only [u32, ELFHDR]; omega
  have e1 : u32 (ELFHDR + k + 1) = 0x10000 + (k + 1) := by simp only [u32, ELFHDR]; omega
  have e2 : u32 (ELFHDR + k + 2) = 0x10000 + (k + 2) := by simp only [u32, ELFHDR]; omega
  have e3 : u32 (ELFHDR + k + 3) = 0x10000 + (k + 3) := by simp only [u32, ELFHDR]; omega
  simp only [read32, image32, e0, e1, e2, e3]
  rw [header_done_mem D fuel m m1 h k (by omega), header_done_mem D fuel m m1 h (k + 1) (by omega),
    header_done_mem D fuel m m1 h (k + 2) (by omega),
    header_done_mem D fuel m m1 h (k + 3) (by omega)]

theorem header_done_read16 (D : Dev) (fuel : Nat) (m m1 : Machine)
    (h : readseg D fuel ELFHDR (SECTSIZE * 8) 0 m = Res.done m1) (k : Nat) (hk : k + 2 ≤ 4096) :
    read16 m1.mem (ELFHDR + k) = image16 D k := by
  have e0 : u32 (ELFHDR + k) = 0x10000 + k := by simp only [u32, ELFHDR]; omega
  have e1 : u32 (ELFHDR + k + 1) = 0x10000 + (k + 1) := by simp only [u32, ELFHDR]; omega
  simp only [read16, image16, e0, e1]
  rw [header_done_mem D fuel m m1 h k (by omega), header_done_mem D fuel m m1 h (k + 1) (by omega)]

theorem header_done_reads (D : Dev) (fuel : Nat) (m m1 : Machine)
    (h : readseg D fuel ELFHDR (SECTSIZE * 8) 0 m = Res.done m1) :
    sectorReads (newEvents m m1) = readList 8 ELFHDR 1 := by
  have h' : readseg D fuel 0x10000 4096 0 m = Res.done m1 := h
  obtain ⟨-, ext, t, q⟩ := readseg_done D fuel 0x10000 4096 0 m m1 (by decide) (by decide)
    (by decide) h'
  rw [t, ← List.singleton_append, sectorReads_append, ← sectorReads_noPolls ext, q,
    sectorReads_noPolls, sectorReads_readsEvents]
  rfl

theorem header_ready (D : Dev) (hD : AlwaysReady D) (fuel : Nat) (hf : 8 < fuel) (m : Machine) :
    ∃ m1, readseg D fuel ELFHDR (SECTSIZE * 8) 0 m = Res.done m1 :=
  ⟨_, readseg_ready D hD fuel 0x10000 4096 0 m (by decide) (by decide) (by decide) hf⟩

theorem read32_magic_bytes (mem : Nat → Byte) :
    (mem 0x10000 = 0x7F ∧ mem 0x10001 = 0x45 ∧ mem 0x10002 = 0x4C ∧ mem 0x10003 = 0x46)
      ↔ read32 mem ELFHDR = 0x464C457F := by
  have b0 := (mem 0x10000).isLt
  have b1 := (mem 0x10001).isLt
  have b2 := (mem 0x10002).isLt
  have b3 := (mem 0x10003).isLt
  have e0 : u32 ELFHDR = 0x10000 := rfl
  have e1 : u32 (ELFHDR + 1) = 0x10001 := rfl
  have e2 : u32 (ELFHDR + 2) = 0x10002 := rfl
  have e3 : u32 (ELFHDR + 3) = 0x10003 := rfl
  simp only [read32, e0, e1, e2, e3, Fin.ext_iff]
  have v0 : ((0x7F : Fin 256) : Nat) = 127 := rfl
  have v1 : ((0x45 : Fin 256) : Nat) = 69 := rfl
  have v2 : ((0x4C : Fin 256) : Nat) = 76 := rfl
  have v3 : ((0x46 : Fin 256) : Nat) = 70 := rfl
  rw [v0, v1, v2, v3]
  omega

theorem bootmain_of_magic (D : Dev) (L : ElfLayout) (fuel : Nat) (m m1 : Machine)
    (h : readseg D fuel ELFHDR (SECTSIZE * 8) 0 m = Res.done m1)
    (hm : read32 m1.mem ELFHDR = L.ELF_MAGIC) :
    bootmain D L fuel m = loadAndJump D L fuel m1 := by
  simp only [bootmain, h, hm, ne_eq, not_true_eq_false, if_false]

theorem bootmain_of_bad_magic (D : Dev) (L : ElfLayout) (fuel : Nat) (m m1 : Machine)
    (h : readseg D fuel ELFHDR (SECTSIZE * 8) 0 m = Res.done m1)
    (hm : read32 m1.mem ELFHDR ≠ L.ELF_MAGIC) :
    bootmain D L fuel m = Outcome.spin (outw 0x8A00 0x8E00 (outw 0x8A00 0x8A00 m1)) := by
  simp only [bootmain, h, hm, ne_eq, not_false_eq_true, if_true, bad]

/-- C4 (scenario C): when the first four bytes of the image are not `ELF_MAGIC`,
no run of `bootmain` transfers control; once the header load has returned
(after exactly the 8 sector reads 1..8 into `0x10000 ..`), `bootmain` ends in the
final spin with memory as the header load left it and with exactly two further
events, the word writes `0x8A00` and `0x8E00` to port `0x8A00`.  On a device that
is always ready the header load does return. -/
theorem bad_magic_halts (D : Dev) (L : ElfLayout) (fuel : Nat) (m : Machine)
    (hm : image32 D 0 ≠ L.ELF_MAGIC) :
    (∀ e m', bootmain D L fuel m ≠ Outcome.jumped e m') ∧
    (∀ m1, readseg D fuel ELFHDR (SECTSIZE * 8) 0 m = Res.done m1 →
      sectorReads (newEvents m m1) = readList 8 ELFHDR 1 ∧
      ∃ m2, bootmain D L fuel m = Outcome.spin m2 ∧ m2.mem = m1.mem ∧
        newEvents m1 m2 = [Event.outw 0x8A00 0x8A00, Event.outw 0x8A00 0x8E00]) ∧
    (AlwaysReady D → 8 < fuel →
      ∃ m1, readseg D fuel ELFHDR (SECTSIZE * 8) 0 m = Res.done m1) := by
  have key : ∀ m1, readseg D fuel ELFHDR (SECTSIZE * 8) 0 m = Res.done m1 →
      bootmain D L fuel m = Outcome.spin (outw 0x8A00 0x8E00 (outw 0x8A00 0x8A00 m1)) := by
    intro m1 h
    have hr := header_done_read32 D fuel m m1 h 0 (by decide)
    rw [Nat.add_zero] at hr
    exact bootmain_of_bad_magic D L fuel m m1 h (by rw [hr]; exact hm)
  refine ⟨?_, ?_, ?_⟩
  · intro e m' hb
    cases hr : readseg D fuel ELFHDR (SECTSIZE * 8) 0 m with
    | done m1 => rw [key m1 hr] at hb; cases hb
    | timeout m1 => simp only [bootmain, hr] at hb; cases hb
  · intro m1 h
    refine ⟨header_done_reads D fuel m m1 h, _, key m1 h, rfl, ?_⟩
    apply newEvents_of_append
    simp [outw, Machine.log]
  · intro hD hf
    exact header_ready D hD fuel hf m

theorem bad_magic_halts_witness :
    ∃ m1 m2, readseg (readyDev demoDisk) 9 ELFHDR (SECTSIZE * 8) 0 (Machine.boot fun _ => 0)
        = Res.done m1 ∧
      bootmain (readyDev demoDisk) elf32 9 (Machine.boot fun _ => 0) = Outcome.spin m2 ∧
      m2.mem = m1.mem ∧
      newEvents m1 m2 = [Event.outw 0x8A00 0x8A00, Event.outw 0x8A00 0x8E00] :=
  have T := bad_magic_halts (readyDev demoDisk) elf32 9 (Machine.boot fun _ => 0) (by decide)
  (T.2.2 (readyDev_ready demoDisk) (by decide)).elim fun m1 h1 =>
    (T.2.1 m1 h1).2.elim fun m2 h2 => ⟨m1, m2, h1, h2⟩

/-! ## What a run may log -/

theorem grows_refl (P : Event → Bool) (m : Machine) : Grows P m m :=
  ⟨[], by simp, by simp⟩

theorem grows_trans {P : Event → Bool} {a b c : Machine} (h1 : Grows P a b)
    (h2 : Grows P b c) : Grows P a c := by
  obtain ⟨x, hx, px⟩ := h1
  obtain ⟨y, hy, py⟩ := h2
  refine ⟨x ++ y, by rw [hy, hx, List.append_assoc], ?_⟩
  intro e he
  rcases List.mem_append.1 he with h | h
  · exact px e h
  · exact py e h

theorem grows_mono {P Q : Event → Bool} (hPQ : ∀ e, P e = true → Q e = true) {a b : Machine}
    (h : Grows P a b) : Grows Q a b := by
  obtain ⟨x, hx, px⟩ := h
  exact ⟨x, hx, fun e he => hPQ e (px e he)⟩

theorem grows_log (P : Event → Bool) (m : Machine) (e : Event) (h : P e = true) :
    Grows P m (m.log e) :=
  ⟨[e], rfl, by simpa using h⟩

theorem grows_andThen {P : Event → Bool} {m : Machine} {r : Res} {f : Machine → Res}
    (h1 : Grows P m r.state) (h2 : ∀ x, Grows P x (f x).state) :
    Grows P m (r.andThen f).state := by
  cases r with
  | done x => exact grows_trans h1 (h2 x)
  | timeout x => exact h1

theorem outb_grows (port val : Nat) (m : Machine) (h : 0x1F2 ≤ port ∧ port ≤ 0x1F7) :
    Grows Event.isSector m (outb port val m) :=
  ⟨[Event.outb port (val % 256)], rfl, by simpa [Event.isSector] using h⟩

theorem waitdisk_grows (D : Dev) :
    ∀ (fuel : Nat) (m : Machine), Grows Event.isSector m (waitdisk D fuel m).state := by
  intro fuel
  induction fuel with
  | zero => intro m; exact grows_refl _ m
  | succ f ih =>
    intro m
    have hp : Grows Event.isSector m (inb D 0x1F7 m).2 :=
      ⟨[Event.inb 0x1F7 (D.status m.polls).val], by simp [inb], by simp [Event.isSector]⟩
    simp only [waitdisk]
    split
    · exact grows_trans hp (ih _)
    · exact hp

theorem readsect_grows (D : Dev) (fuel dst secno : Nat) (m : Machine) :
    Grows Event.isSector m (readsect D fuel dst secno m).state := by
  unfold readsect
  refine grows_andThen (grows_trans (grows_log _ m (Event.readsect dst secno) rfl)
    (waitdisk_grows D fuel _)) ?_
  intro x
  refine grows_trans ?_ (grows_andThen (waitdisk_grows D fuel _) ?_)
  · exact grows_trans (outb_grows _ _ _ (by decide)) (grows_trans (outb_grows _ _ _ (by decide))
      (grows_trans (outb_grows _ _ _ (by decide)) (grows_trans (outb_grows _ _ _ (by decide))
      (grows_trans (outb_grows _ _ _ (by decide)) (outb_grows _ _ _ (by decide))))))
  · intro y
    exact ⟨[Event.insl 0x1F0 dst (SECTSIZE / 4)], by simp [insl, Res.state], by
      simp [Event.isSector]⟩

theorem readsegLoop_grows (D : Dev) (fuel : Nat) :
    ∀ (k va end_va secno : Nat) (m : Machine),
      Grows Event.isSector m (readsegLoop D fuel k va end_va secno m).state := by
  intro k
  induction k with
  | zero => intro va end_va secno m; exact grows_refl _ m
  | succ k ih =>
    intro va end_va secno m
    simp only [readsegLoop]
    split
    · exact grows_andThen (readsect_grows D fuel va secno m) (fun x => ih _ _ _ x)
    · exact grows_refl _ m

theorem isSector_isLoad (e : Event) (h : e.isSector = true) : e.isLoad = true := by
  cases e <;> simp_all [Event.isSector, Event.isLoad]

theorem readseg_grows (D : Dev) (fuel va count offset : Nat) (m : Machine) (hva : va < 2 ^ 24) :
    Grows Event.isLoad m (readseg D fuel va count offset m).state := by
  unfold readseg
  exact grows_trans (grows_log _ m _ (by simpa [Event.isLoad] using hva))
    (grows_mono isSector_isLoad (readsegLoop_grows D fuel _ _ _ _ _))

theorem and_mask_lt (x : Nat) : x &&& 0xFFFFFF < 2 ^ 24 :=
  Nat.and_lt_two_pow x (by decide)

theorem loadSegmentsSpec_grows (D : Dev) (L : ElfLayout) (fuel : Nat) :
    ∀ (n ph : Nat) (m : Machine),
      Grows Event.isLoad m (loadSegmentsSpec D L fuel n ph m).state := by
  intro n
  induction n with
  | zero => intro ph m; exact grows_refl _ m
  | succ n ih =>
    intro ph m
    simp only [loadSegmentsSpec]
    exact grows_andThen (readseg_grows D fuel _ _ _ m (and_mask_lt _)) (fun x => ih _ x)

/-! ## The segment loop against the specification's wording -/

theorem phLoop_spec (D : Dev) (L : ElfLayout) (fuel : Nat) (hs : 0 < L.phsize) :
    ∀ (n k ph : Nat) (m : Machine), n < k → ph + L.phsize * n < 2 ^ 32 →
      phLoop D L fuel k ph (ph + L.phsize * n) m = loadSegmentsSpec D L fuel n ph m := by
  intro n
  induction n with
  | zero =>
    intro k ph m hk _
    obtain ⟨k, rfl⟩ : ∃ j, k = j + 1 := ⟨k - 1, by omega⟩
    simp [phLoop, loadSegmentsSpec]
  | succ n ih =>
    intro k ph m hk hw
    obtain ⟨k, rfl⟩ : ∃ j, k = j + 1 := ⟨k - 1, by omega⟩
    have e : ph + L.phsize * (n + 1) = ph + L.phsize + L.phsize * n := by
      rw [Nat.mul_succ]; omega
    have hlt : ph < ph + L.phsize + L.phsize * n := by omega
    have hu : u32 (ph + L.phsize) = ph + L.phsize := Nat.mod_eq_of_lt (by omega)
    rw [e]
    simp only [phLoop, if_pos hlt, hu, loadSegmentsSpec]
    congr 1
    funext x
    exact ih k (ph + L.phsize) x (by omega) (by omega)

theorem segLoads_append (a b : List Event) :
    segLoads (a ++ b) = segLoads a ++ segLoads b := by
  simp [segLoads]

theorem segLoads_of_isSector (ext : List Event) (h : ∀ e ∈ ext, Event.isSector e = true) :
    segLoads ext = [] := by
  induction ext with
  | nil => rfl
  | cons e t ih =>
    have he := h e (List.mem_cons_self e t)
    have ht := ih (fun x hx => h x (List.mem_cons_of_mem e hx))
    cases e <;> simp_all [segLoads, Event.isSector]

theorem readseg_events (D : Dev) (fuel va count offset : Nat) (m : Machine) :
    ∃ ext, (readseg D fuel va count offset m).state.trace =
        m.trace ++ Event.readseg va count offset :: ext ∧
      ∀ e ∈ ext, Event.isSector e = true := by
  obtain ⟨ext, h1, h2⟩ := readsegLoop_grows D fuel fuel (u32 (va + 2 ^ 32 - offset % SECTSIZE))
    (u32 (va + count)) (u32 (offset / SECTSIZE + 1)) (m.log (Event.readseg va count offset))
  exact ⟨ext, by rw [readseg, h1]; simp [Machine.log], h2⟩

theorem loadSegmentsSpec_done (D : Dev) (L : ElfLayout) (fuel : Nat) :
    ∀ (n ph : Nat) (m m' : Machine), loadSegmentsSpec D L fuel n ph m = Res.done m' →
      ∃ ext, m'.trace = m.trace ++ ext ∧ (∀ e ∈ ext, Event.isLoad e = true) ∧
        (segLoads ext).length = n := by
  intro n
  induction n with
  | zero =>
    intro ph m m' h
    simp only [loadSegmentsSpec, Res.done.injEq] at h
    subst h
    exact ⟨[], by simp, by simp, rfl⟩
  | succ n ih =>
    intro ph m m' h
    simp only [loadSegmentsSpec] at h
    obtain ⟨m1, h1, h2⟩ := andThen_done h
    obtain ⟨x, tx, px⟩ := readseg_events D fuel (read32 m.mem (ph + L.p_va) &&& 0xFFFFFF)
      (read32 m.mem (ph + L.p_memsz)) (read32 m.mem (ph + L.p_offset)) m
    rw [h1] at tx
    obtain ⟨y, ty, py, cy⟩ := ih _ m1 m' h2
    refine ⟨Event.readseg (read32 m.mem (ph + L.p_va) &&& 0xFFFFFF)
      (read32 m.mem (ph + L.p_memsz)) (read32 m.mem (ph + L.p_offset)) :: x ++ y, ?_, ?_, ?_⟩
    · have tx' : m1.trace = m.trace ++ Event.readseg (read32 m.mem (ph + L.p_va) &&& 0xFFFFFF)
          (read32 m.mem (ph + L.p_memsz)) (read32 m.mem (ph + L.p_offset)) :: x := tx
      rw [ty, tx']
      simp
    · intro e he
      rcases List.mem_append.1 he with h' | h'
      · rcases List.mem_cons.1 h' with h'' | h''
        · subst h''
          simpa [Event.isLoad] using and_mask_lt (read32 m.mem (ph + L.p_va))
        · exact isSector_isLoad e (px e h'')
      · exact py e h'
    · rw [segLoads_append, List.length_append, cy, ← List.singleton_append, segLoads_append,
        segLoads_of_isSector x px]
      simp [segLoads]
      omega

theorem portWrites_of_isLoad (ext : List Event)
    (h : ∀ e ∈ ext, Event.isLoad e = true ∨ ∃ a, e = Event.jump a) :
    ∀ pv ∈ portWrites ext, pv.1 ≠ 0x8A00 := by
  induction ext with
  | nil => intro pv hpv; simp [portWrites] at hpv
  | cons e t ih =>
    have he := h e (List.mem_cons_self e t)
    have ht := ih (fun x hx => h x (List.mem_cons_of_mem e hx))
    intro pv hpv
    cases e with
    | outb p v =>
      simp only [portWrites, List.filterMap_cons, List.mem_cons] at hpv
      rcases hpv with h1 | h1
      · subst h1
        simp [Event.isLoad, Event.isSector] at he
        show p ≠ 0x8A00
        omega
      · exact ht pv h1
    | outw p v => simp [Event.isLoad, Event.isSector] at he
    | inb p v => exact ht pv (by simpa [portWrites] using hpv)
    | insl p a c => exact ht pv (by simpa [portWrites] using hpv)
    | readsect d s => exact ht pv (by simpa [portWrites] using hpv)
    | readseg a b c => exact ht pv (by simpa [portWrites] using hpv)
    | jump a => exact ht pv (by simpa [portWrites] using hpv)

theorem loadAndJump_spec (D : Dev) (L : ElfLayout) (fuel : Nat) (m1 : Machine)
    (hs : 0 < L.phsize)
    (hw : ELFHDR + read32 m1.mem (ELFHDR + L.e_phoff)
      + L.phsize * read16 m1.mem (ELFHDR + L.e_phnum) < 2 ^ 32)
    (hf : read16 m1.mem (ELFHDR + L.e_phnum) < fuel) :
    loadAndJump D L fuel m1 =
      thenJump L (loadSegmentsSpec D L fuel (read16 m1.mem (ELFHDR + L.e_phnum))
        (ELFHDR + read32 m1.mem (ELFHDR + L.e_phoff)) m1) := by
  have hle : ELFHDR + read32 m1.mem (ELFHDR + L.e_phoff) ≤ ELFHDR + read32 m1.mem (ELFHDR + L.e_phoff)
      + L.phsize * read16 m1.mem (ELFHDR + L.e_phnum) := Nat.le_add_right _ _
  have e1 : u32 (ELFHDR + read32 m1.mem (ELFHDR + L.e_phoff))
      = ELFHDR + read32 m1.mem (ELFHDR + L.e_phoff) := Nat.mod_eq_of_lt (by omega)
  have e2 : u32 (ELFHDR + read32 m1.mem (ELFHDR + L.e_phoff)
      + L.phsize * read16 m1.mem (ELFHDR + L.e_phnum))
      = ELFHDR + read32 m1.mem (ELFHDR + L.e_phoff)
        + L.phsize * read16 m1.mem (ELFHDR + L.e_phnum) := Nat.mod_eq_of_lt hw
  simp only [loadAndJump, e1, e2]
  rw [phLoop_spec D L fuel hs _ fuel _ m1 hf hw]
  cases loadSegmentsSpec D L fuel (read16 m1.mem (ELFHDR + L.e_phnum))
    (ELFHDR + read32 m1.mem (ELFHDR + L.e_phoff)) m1 <;> rfl

/-- C5 as stated fails when the descriptor table ends at the top of the address
space: with `e_phoff = 0xFFFEFFE0` and `e_phnum = 1` the one descriptor occupies
`0xFFFFFFE0 .. 0xFFFFFFFF`, `eph` wraps to 0, the loop body never runs, and
`bootmain` jumps having called `readseg` for the header only. -/
theorem table_wrap_counterexample :
    image32 (readyDev (imageDisk wrapImage)) 0 = elf32.ELF_MAGIC ∧
    image16 (readyDev (imageDisk wrapImage)) elf32.e_phnum = 1 ∧
    ELFHDR + image32 (readyDev (imageDisk wrapImage)) elf32.e_phoff = 0xFFFFFFE0 ∧
    (bootmain (readyDev (imageDisk wrapImage)) elf32 9 (Machine.boot fun _ => 0)).isJumped
      = true ∧
    segLoads (bootmain (readyDev (imageDisk wrapImage)) elf32 9
      (Machine.boot fun _ => 0)).state.trace = [(0x10000, 4096, 0)] := by
  decide

/-! ## Scenario B -/

theorem jumps_append (a b : List Event) : jumps (a ++ b) = jumps a ++ jumps b := by
  simp [jumps]

theorem segLoads_noPolls (t : List Event) : segLoads (noPolls t) = segLoads t := by
  induction t with
  | nil => rfl
  | cons e t ih =>
    cases e <;> simp_all [segLoads, noPolls, List.filter_cons]

theorem jumps_noPolls (t : List Event) : jumps (noPolls t) = jumps t := by
  induction t with
  | nil => rfl
  | cons e t ih =>
    cases e <;> simp_all [jumps, noPolls, List.filter_cons]

theorem segLoads_readsEvents (D : Dev) :
    ∀ (n va secno p : Nat), segLoads (readsEvents D n va secno p) = [] := by
  intro n
  induction n with
  | zero => intro va secno p; rfl
  | succ n ih =>
    intro va secno p
    rw [readsEvents, segLoads_append, ih]
    simp [segLoads, readsectEvents]

theorem jumps_readsEvents (D : Dev) :
    ∀ (n va secno p : Nat), jumps (readsEvents D n va secno p) = [] := by
  intro n
  induction n with
  | zero => intro va secno p; rfl
  | succ n ih =>
    intro va secno p
    rw [readsEvents, jumps_append, ih]
    simp [jumps, readsectEvents]

/-- The observations on the events of a returned `readseg` call. -/
theorem readseg_done_obs (D : Dev) (fuel va count offset : Nat) (m m' : Machine)
    (h1 : offset % 512 ≤ va) (h2 : va + count + 511 < 2 ^ 32) (h3 : offset < 2 ^ 32)
    (h : readseg D fuel va count offset m = Res.done m') :
    ∃ ext, m'.trace = m.trace ++ ext ∧
      sectorReads ext = readList (sectorCount count offset) (va - offset % 512)
        (offset / 512 + 1) ∧
      segLoads ext = [(va, count, offset)] ∧ jumps ext = [] := by
  obtain ⟨-, ext, t, q⟩ := readseg_done D fuel va count offset m m' h1 h2 h3 h
  obtain ⟨x, tx, -⟩ := readseg_events D fuel va count offset m
  rw [h] at tx
  have tx' : m'.trace = m.trace ++ Event.readseg va count offset :: x := tx
  have hx : newEvents m m' = Event.readseg va count offset :: x :=
    newEvents_of_append m m' _ tx'
  rw [hx] at t
  have hxe : x = ext := List.tail_eq_of_cons_eq t
  subst hxe
  refine ⟨Event.readseg va count offset :: x, tx', ?_, ?_, ?_⟩
  · rw [← List.singleton_append, sectorReads_append, ← sectorReads_noPolls x, q,
      sectorReads_noPolls, sectorReads_readsEvents]
    simp [sectorReads]
  · rw [← List.singleton_append, segLoads_append, ← segLoads_noPolls x, q,
      segLoads_noPolls, segLoads_readsEvents]
    simp [segLoads]
  · rw [← List.singleton_append, jumps_append, ← jumps_noPolls x, q,
      jumps_noPolls, jumps_readsEvents]
    simp [jumps]

theorem read32_frame (mem mem' : Nat → Byte) (k : Nat) (hk : k + 4 ≤ 4096)
    (hfr : ∀ a, a < 0x100000 → mem' a = mem a) :
    read32 mem' (ELFHDR + k) = read32 mem (ELFHDR + k) := by
  have e0 : u32 (ELFHDR + k) < 0x100000 := by simp only [u32, ELFHDR]; omega
  have e1 : u32 (ELFHDR + k + 1) < 0x100000 := by simp only [u32, ELFHDR]; omega
  have e2 : u32 (ELFHDR + k + 2) < 0x100000 := by simp only [u32, ELFHDR]; omega
  have e3 : u32 (ELFHDR + k + 3) < 0x100000 := by simp only [u32, ELFHDR]; omega
  simp only [read32, hfr _ e0, hfr _ e1, hfr _ e2, hfr _ e3]

theorem phLoop_done (D : Dev) (L : ElfLayout) (fuel : Nat) (hs : 0 < L.phsize) :
    ∀ (n k ph : Nat) (m m' : Machine), ph + L.phsize * n < 2 ^ 32 →
      phLoop D L fuel k ph (ph + L.phsize * n) m = Res.done m' →
      loadSegmentsSpec D L fuel n ph m = Res.done m' := by
  intro n
  induction n with
  | zero =>
    intro k ph m m' _ h
    cases k with
    | zero => simp [phLoop] at h
    | succ k => simpa [phLoop, loadSegmentsSpec] using h
  | succ n ih =>
    intro k ph m m' hw h
    cases k with
    | zero => simp [phLoop] at h
    | succ k =>
      have e : ph + L.phsize * (n + 1) = ph + L.phsize + L.phsize * n := by
        rw [Nat.mul_succ]; omega
      have hlt : ph < ph + L.phsize + L.phsize * n := by omega
      have hu : u32 (ph + L.phsize) = ph + L.phsize := Nat.mod_eq_of_lt (by omega)
      rw [e] at h
      simp only [phLoop, if_pos hlt, hu] at h
      obtain ⟨m1, r1, r2⟩ := andThen_done h
      simp only [loadSegmentsSpec, r1, Res.andThen]
      exact ih k (ph + L.phsize) m1 m' (by omega) r2

theorem andThen_done_right (r : Res) : r.andThen (fun m => Res.done m) = r := by
  cases r <;> rfl

/-- In scenario B the specification's loop is the two loads of the scenario. -/
theorem scenarioB_spec (D : Dev) (L : ElfLayout) (fuel : Nat) (m1 : Machine) (phoff : Nat)
    (hL : L.Sane)
    (hdr : ∀ k, k + 4 ≤ 4096 → read32 m1.mem (ELFHDR + k) = image32 D k)
    (ht : phoff + 2 * L.phsize ≤ 4096)
    (a0 : image32 D (phoff + L.p_va) = 0x100000)
    (s0 : image32 D (phoff + L.p_memsz) = 4096)
    (o0 : image32 D (phoff + L.p_offset) = 0)
    (a1 : image32 D (phoff + L.phsize + L.p_va) = 0x108000)
    (s1 : image32 D (phoff + L.phsize + L.p_memsz) = 4096)
    (o1 : image32 D (phoff + L.phsize + L.p_offset) = 4096) :
    loadSegmentsSpec D L fuel 2 (ELFHDR + phoff) m1 =
      (readseg D fuel 0x100000 4096 0 m1).andThen (readseg D fuel 0x108000 4096 4096) := by
  obtain ⟨-, -, -, l1, l2, l3⟩ := hL
  have d0 : read32 m1.mem (ELFHDR + phoff + L.p_va) = 0x100000 := by
    rw [Nat.add_assoc, hdr _ (by omega), a0]
  have d1 : read32 m1.mem (ELFHDR + phoff + L.p_memsz) = 4096 := by
    rw [Nat.add_assoc, hdr _ (by omega), s0]
  have d2 : read32 m1.mem (ELFHDR + phoff + L.p_offset) = 0 := by
    rw [Nat.add_assoc, hdr _ (by omega), o0]
  have mask0 : 0x100000 &&& 0xFFFFFF = 0x100000 := by decide
  have mask1 : 0x108000 &&& 0xFFFFFF = 0x108000 := by decide
  rw [loadSegmentsSpec, d0, d1, d2, mask0]
  cases hA : readseg D fuel 0x100000 4096 0 m1 with
  | timeout x => rfl
  | done mA =>
    have fr : ∀ a, a < 0x100000 → mA.mem a = m1.mem a := fun a ha =>
      readseg_done_frame D fuel 0x100000 4096 0 m1 mA a (by decide) (by decide) (by decide) hA
        (Or.inl (by omega))
    have e0 : read32 mA.mem (ELFHDR + phoff + L.phsize + L.p_va) = 0x108000 := by
      rw [Nat.add_assoc, Nat.add_assoc, read32_frame m1.mem mA.mem _ (by omega) fr,
        hdr _ (by omega), ← Nat.add_assoc, a1]
    have e1 : read32 mA.mem (ELFHDR + phoff + L.phsize + L.p_memsz) = 4096 := by
      rw [Nat.add_assoc, Nat.add_assoc, read32_frame m1.mem mA.mem _ (by omega) fr,
        hdr _ (by omega), ← Nat.add_assoc, s1]
    have e2 : read32 mA.mem (ELFHDR + phoff + L.phsize + L.p_offset) = 4096 := by
      rw [Nat.add_assoc, Nat.add_assoc, read32_frame m1.mem mA.mem _ (by omega) fr,
        hdr _ (by omega), ← Nat.add_assoc, o1]
    simp only [Res.andThen, loadSegmentsSpec, e0, e1, e2, mask1]
    exact andThen_done_right _

/-- C10 (scenario B), amended: for an image with matching magic, `e_phnum = 2`
and a descriptor table that lies within the first 4096 bytes of the image and
holds `(0x100000, 4096, 0)` and `(0x108000, 4096, 4096)` in that order, a run of
`bootmain` that jumps has, since the header load, loaded exactly these two
segments, reading sectors 1..8 into `0x100000, 0x100200, ...` and then sectors
9..16 into `0x108000, 0x108200, ...`, and its last event is the one jump, to the
image's `e_entry & 0xFFFFFF`; no run ends in the final spin, and on a device that
is always ready the run does jump. -/
theorem scenario_two_segments (D : Dev) (L : ElfLayout) (fuel : Nat) (m : Machine)
    (hL : L.Sane) (hmagic : image32 D 0 = L.ELF_MAGIC) (hn : image16 D L.e_phnum = 2)
    (ht : image32 D L.e_phoff + 2 * L.phsize ≤ 4096)
    (a0 : image32 D (image32 D L.e_phoff + L.p_va) = 0x100000)
    (s0 : image32 D (image32 D L.e_phoff + L.p_memsz) = 4096)
    (o0 : image32 D (image32 D L.e_phoff + L.p_offset) = 0)
    (a1 : image32 D (image32 D L.e_phoff + L.phsize + L.p_va) = 0x108000)
    (s1 : image32 D (image32 D L.e_phoff + L.phsize + L.p_memsz) = 4096)
    (o1 : image32 D (image32 D L.e_phoff + L.phsize + L.p_offset) = 4096) :
    (∀ e m', bootmain D L fuel m = Outcome.jumped e m' →
      ∃ m1, readseg D fuel ELFHDR (SECTSIZE * 8) 0 m = Res.done m1 ∧
        sectorReads (newEvents m1 m') = readList 8 0x100000 1 ++ readList 8 0x108000 9 ∧
        segLoads (newEvents m1 m') = [(0x100000, 4096, 0), (0x108000, 4096, 4096)] ∧
        jumps (newEvents m1 m') = [e] ∧
        (newEvents m1 m').getLast? = some (Event.jump e) ∧
        e = image32 D L.e_entry &&& 0xFFFFFF) ∧
    (∀ m', bootmain D L fuel m ≠ Outcome.spin m') ∧
    (AlwaysReady D → 8 < fuel → ∃ e m', bootmain D L fuel m = Outcome.jumped e m') := by
  have hL' := hL
  obtain ⟨l1, l2, l3, l4, l5, l6⟩ := hL'
  -- what `bootmain` is once the header load has returned
  have key : ∀ m1, readseg D fuel ELFHDR (SECTSIZE * 8) 0 m = Res.done m1 →
      (∀ k, k + 4 ≤ 4096 → read32 m1.mem (ELFHDR + k) = image32 D k) ∧
      bootmain D L fuel m = loadAndJump D L fuel m1 ∧
      (∀ m2, phLoop D L fuel fuel (u32 (ELFHDR + read32 m1.mem (ELFHDR + L.e_phoff)))
          (u32 (u32 (ELFHDR + read32 m1.mem (ELFHDR + L.e_phoff))
            + L.phsize * read16 m1.mem (ELFHDR + L.e_phnum))) m1 = Res.done m2 →
        (readseg D fuel 0x100000 4096 0 m1).andThen (readseg D fuel 0x108000 4096 4096)
          = Res.done m2) ∧
      (2 < fuel →
        phLoop D L fuel fuel (u32 (ELFHDR + read32 m1.mem (ELFHDR + L.e_phoff)))
          (u32 (u32 (ELFHDR + read32 m1.mem (ELFHDR + L.e_phoff))
            + L.phsize * read16 m1.mem (ELFHDR + L.e_phnum))) m1
        = (readseg D fuel 0x100000 4096 0 m1).andThen (readseg D fuel 0x108000 4096 4096)) := by
    intro m1 h
    have hdr : ∀ k, k + 4 ≤ 4096 → read32 m1.mem (ELFHDR + k) = image32 D k :=
      fun k hk => header_done_read32 D fuel m m1 h k hk
    have hm : read32 m1.mem ELFHDR = L.ELF_MAGIC := by
      have := hdr 0 (by decide)
      rw [Nat.add_zero] at this
      rw [this, hmagic]
    have hph : read32 m1.mem (ELFHDR + L.e_phoff) = image32 D L.e_phoff := hdr _ l2
    have hnum : read16 m1.mem (ELFHDR + L.e_phnum) = 2 := by
      rw [header_done_read16 D fuel m m1 h _ l3, hn]
    have u1 : u32 (ELFHDR + image32 D L.e_phoff) = ELFHDR + image32 D L.e_phoff :=
      Nat.mod_eq_of_lt (by simp only [ELFHDR]; omega)
    have u2 : u32 (ELFHDR + image32 D L.e_phoff + L.phsize * 2)
        = ELFHDR + image32 D L.e_phoff + L.phsize * 2 :=
      Nat.mod_eq_of_lt (by simp only [ELFHDR]; omega)
    have hw : ELFHDR + image32 D L.e_phoff + L.phsize * 2 < 2 ^ 32 := by
      simp only [ELFHDR]; omega
    have hspec := scenarioB_spec D L fuel m1 (image32 D L.e_phoff) hL hdr ht a0 s0 o0 a1 s1 o1
    refine ⟨hdr, bootmain_of_magic D L fuel m m1 h hm, ?_, ?_⟩
    · intro m2 hp
      rw [hph, hnum, u1, u2] at hp
      rw [← hspec]
      exact phLoop_done D L fuel (by omega) 2 fuel _ m1 m2 hw hp
    · intro hf
      rw [hph, hnum, u1, u2, phLoop_spec D L fuel (by omega) 2 fuel _ m1 hf hw, hspec]
  refine ⟨?_, ?_, ?_⟩
  · intro e m' hj
    cases hr : readseg D fuel ELFHDR (SECTSIZE * 8) 0 m with
    | timeout x => simp only [bootmain, hr] at hj; cases hj
    | done m1 =>
      obtain ⟨hdr, hb, hdone, -⟩ := key m1 hr
      rw [hb] at hj
      simp only [loadAndJump] at hj
      cases hp : phLoop D L fuel fuel (u32 (ELFHDR + read32 m1.mem (ELFHDR + L.e_phoff)))
          (u32 (u32 (ELFHDR + read32 m1.mem (ELFHDR + L.e_phoff))
            + L.phsize * read16 m1.mem (ELFHDR + L.e_phnum))) m1 with
      | timeout x => rw [hp] at hj; cases hj
      | done m2 =>
        rw [hp] at hj
        simp only [callEntry, Outcome.jumped.injEq] at hj
        obtain ⟨he, hm'⟩ := hj
        obtain ⟨mA, rA, rB⟩ := andThen_done (hdone m2 hp)
        obtain ⟨xA, tA, sA, gA, jA⟩ := readseg_done_obs D fuel 0x100000 4096 0 m1 mA
          (by decide) (by decide) (by decide) rA
        obtain ⟨xB, tB, sB, gB, jB⟩ := readseg_done_obs D fuel 0x108000 4096 4096 mA m2
          (by decide) (by decide) (by decide) rB
        have frA : ∀ a, a < 0x100000 → mA.mem a = m1.mem a := fun a ha =>
          readseg_done_frame D fuel 0x100000 4096 0 m1 mA a (by decide) (by decide)
            (by decide) rA (Or.inl (by omega))
        have frB : ∀ a, a < 0x100000 → m2.mem a = mA.mem a := fun a ha =>
          readseg_done_frame D fuel 0x108000 4096 4096 mA m2 a (by decide) (by decide)
            (by decide) rB (Or.inl (by omega))
        have hent : read32 m2.mem (ELFHDR + L.e_entry) = image32 D L.e_entry := by
          rw [read32_frame mA.mem m2.mem _ l1 frB, read32_frame m1.mem mA.mem _ l1 frA,
            hdr _ l1]
        rw [hent] at he hm'
        have hnew : newEvents m1 m' = xA ++ xB ++ [Event.jump e] := by
          apply newEvents_of_append
          rw [← hm', he]
          simp [Machine.log, tB, tA]
        refine ⟨m1, rfl, ?_, ?_, ?_, ?_, he.symm⟩
        · rw [hnew, sectorReads_append, sectorReads_append, sA, sB]
          simp [sectorReads]
          rfl
        · rw [hnew, segLoads_append, segLoads_append, gA, gB]
          simp [segLoads]
        · rw [hnew, jumps_append, jumps_append, jA, jB]
          simp [jumps]
        · rw [hnew]
          simp
  · intro m' hsp
    cases hr : readseg D fuel ELFHDR (SECTSIZE * 8) 0 m with
    | timeout x => simp only [bootmain, hr] at hsp; cases hsp
    | done m1 =>
      obtain ⟨-, hb, -, -⟩ := key m1 hr
      rw [hb] at hsp
      simp only [loadAndJump] at hsp
      split at hsp
      · cases hsp
      · simp only [callEntry] at hsp; cases hsp
  · intro hD hf
    obtain ⟨m1, hr⟩ := header_ready D hD fuel hf m
    obtain ⟨-, hb, -, hrun⟩ := key m1 hr
    have rA := readseg_ready D hD fuel 0x100000 4096 0 m1 (by decide) (by decide)
      (by decide) hf
    have rB := readseg_ready D hD fuel 0x108000 4096 4096
      (readsDone D (sectorCount 4096 0) (0x100000 - 0 % 512) (0 / 512 + 1)
        (m1.log (Event.readseg 0x100000 4096 0))) (by decide) (by decide) (by decide) hf
    rw [hb]
    simp only [loadAndJump]
    rw [hrun (by omega), rA]
    simp only [Res.andThen]
    rw [rB]
    exact ⟨_, _, rfl⟩

/-- C10 as stated fails when the descriptor table lies outside the 4096 bytes
that the header load brings in.  The image below has matching magic,
`e_phnum = 2` and, at `e_phoff = 0xF0000`, exactly the two descriptors of the
scenario; the table `bootmain` walks, at `0x10000 + e_phoff = 0x100000`, holds the
same two descriptors after the header load.  The first segment load overwrites
that table, the second descriptor then reads as `(0, 0, 0)`, and the run jumps
after 8 sector reads (sectors 1..8 into `0x100000 ..`) instead of 16. -/
theorem scenario_two_segments_counterexample :
    image32 (readyDev overlapDisk) 0 = elf32.ELF_MAGIC ∧
    image16 (readyDev overlapDisk) elf32.e_phnum = 2 ∧
    image32 (readyDev overlapDisk) elf32.e_phoff = 0xF0000 ∧
    image32 (readyDev overlapDisk) (0xF0000 + elf32.p_va) = 0x100000 ∧
    image32 (readyDev overlapDisk) (0xF0000 + elf32.p_memsz) = 4096 ∧
    image32 (readyDev overlapDisk) (0xF0000 + elf32.p_offset) = 0 ∧
    image32 (readyDev overlapDisk) (0xF0000 + elf32.phsize + elf32.p_va) = 0x108000 ∧
    image32 (readyDev overlapDisk) (0xF0000 + elf32.phsize + elf32.p_memsz) = 4096 ∧
    image32 (readyDev overlapDisk) (0xF0000 + elf32.phsize + elf32.p_offset) = 4096 ∧
    read32 (readseg (readyDev overlapDisk) 9 ELFHDR (SECTSIZE * 8) 0
      (Machine.boot overlapMem)).state.mem (0x100000 + elf32.p_va) = 0x100000 ∧
    read32 (readseg (readyDev overlapDisk) 9 ELFHDR (SECTSIZE * 8) 0
      (Machine.boot overlapMem)).state.mem (0x100000 + elf32.phsize + elf32.p_va) = 0x108000 ∧
    (bootmain (readyDev overlapDisk) elf32 9 (Machine.boot overlapMem)).isJumped = true ∧
    sectorReads (newEvents
        (readseg (readyDev overlapDisk) 9 ELFHDR (SECTSIZE * 8) 0
          (Machine.boot overlapMem)).state
        (bootmain (readyDev overlapDisk) elf32 9 (Machine.boot overlapMem)).state)
      = readList 8 0x100000 1 := by
  decide

theorem scenario_two_segments_witness :
    ∃ e m' m1, bootmain (readyDev (imageDisk scenarioB)) elf32 9 (Machine.boot fun _ => 0)
        = Outcome.jumped e m' ∧
      readseg (readyDev (imageDisk scenarioB)) 9 ELFHDR (SECTSIZE * 8) 0
        (Machine.boot fun _ => 0) = Res.done m1 ∧
      sectorReads (newEvents m1 m') = readList 8 0x100000 1 ++ readList 8 0x108000 9 ∧
      e = 0x100000 :=
  have T := scenario_two_segments (readyDev (imageDisk scenarioB)) elf32 9
    (Machine.boot fun _ => 0) (by decide) (by decide) (by decide) (by decide) (by decide)
    (by decide) (by decide) (by decide) (by decide) (by decide)
  (T.2.2 (readyDev_ready _) (by decide)).elim fun e h1 => h1.elim fun m' h2 =>
    (T.1 e m' h2).elim fun m1 h3 => ⟨e, m', m1, h2, h3.1, h3.2.1, h3.2.2.2.2.2⟩

/-! ## The header load comes first -/

theorem phLoop_grows (D : Dev) (L : ElfLayout) (fuel : Nat) :
    ∀ (k ph eph : Nat) (m : Machine),
      Grows Event.isLoad m (phLoop D L fuel k ph eph m).state := by
  intro k
  induction k with
  | zero => intro ph eph m; exact grows_refl _ m
  | succ k ih =>
    intro ph eph m
    simp only [phLoop]
    split
    · exact grows_andThen (readseg_grows D fuel _ _ _ m (and_mask_lt _)) (fun x => ih _ _ x)
    · exact grows_refl _ m

theorem bootmain_after_header (D : Dev) (L : ElfLayout) (fuel : Nat) (m : Machine) :
    ∃ ext, (bootmain D L fuel m).state.trace =
      (readseg D fuel ELFHDR (SECTSIZE * 8) 0 m).state.trace ++ ext := by
  unfold bootmain
  cases hr : readseg D fuel ELFHDR (SECTSIZE * 8) 0 m with
  | timeout x => exact ⟨[], by simp [Outcome.state, Res.state]⟩
  | done m1 =>
    simp only [Res.state]
    split
    · exact ⟨[Event.outw 0x8A00 0x8A00, Event.outw 0x8A00 0x8E00], by
        simp [bad, outw, Machine.log, Outcome.state]⟩
    · simp only [loadAndJump]
      obtain ⟨ext, t, -⟩ := phLoop_grows D L fuel fuel
        (u32 (ELFHDR + read32 m1.mem (ELFHDR + L.e_phoff)))
        (u32 (u32 (ELFHDR + read32 m1.mem (ELFHDR + L.e_phoff))
          + L.phsize * read16 m1.mem (ELFHDR + L.e_phnum))) m1
      cases hp : phLoop D L fuel fuel (u32 (ELFHDR + read32 m1.mem (ELFHDR + L.e_phoff)))
          (u32 (u32 (ELFHDR + read32 m1.mem (ELFHDR + L.e_phoff))
            + L.phsize * read16 m1.mem (ELFHDR + L.e_phnum))) m1 with
      | timeout x =>
        rw [hp] at t
        exact ⟨ext, t⟩
      | done m2 =>
        rw [hp] at t
        have t' : m2.trace = m1.trace ++ ext := t
        exact ⟨ext ++ [Event.jump (read32 m2.mem (ELFHDR + L.e_entry) &&& 0xFFFFFF)], by
          simp [callEntry, Outcome.state, Machine.log, t']⟩

/-- C12 (Load-Header): for every disk, layout, fuel and start state, the first
event of `bootmain` is entering `readseg(0x10000, 4096, 0)` and everything else
the run logs comes after that call; a run that ends in the spin or in a jump
has completed it; once it has returned it has read exactly sectors 1..8 into
`0x10000, 0x10200, ..., 0x10E00` and memory `[0x10000, 0x11000)` holds the first
4096 bytes of the image; on a device that is always ready it returns. -/
theorem header_load_first (D : Dev) (L : ElfLayout) (fuel : Nat) (m : Machine) :
    (∃ ext, (bootmain D L fuel m).state.trace =
      m.trace ++ Event.readseg 0x10000 4096 0 :: ext) ∧
    (∃ ext, (bootmain D L fuel m).state.trace =
      (readseg D fuel 0x10000 4096 0 m).state.trace ++ ext) ∧
    ((∀ x, bootmain D L fuel m ≠ Outcome.timeout x) →
      (readseg D fuel 0x10000 4096 0 m).isDone = true) ∧
    (∀ m1, readseg D fuel 0x10000 4096 0 m = Res.done m1 →
      sectorReads (newEvents m m1) =
        [(0x10000, 1), (0x10200, 2), (0x10400, 3), (0x10600, 4), (0x10800, 5),
         (0x10A00, 6), (0x10C00, 7), (0x10E00, 8)] ∧
      ∀ k, k < 4096 → m1.mem (0x10000 + k) = imageByte D k) ∧
    (AlwaysReady D → 8 < fuel → ∃ m1, readseg D fuel 0x10000 4096 0 m = Res.done m1) := by
  refine ⟨?_, bootmain_after_header D L fuel m, ?_, ?_, ?_⟩
  · obtain ⟨e1, t1⟩ := bootmain_after_header D L fuel m
    obtain ⟨e2, t2, -⟩ := readseg_events D fuel 0x10000 4096 0 m
    have t2' : (readseg D fuel ELFHDR (SECTSIZE * 8) 0 m).state.trace
        = m.trace ++ Event.readseg 0x10000 4096 0 :: e2 := t2
    exact ⟨e2 ++ e1, by rw [t1, t2']; simp⟩
  · intro hne
    cases hr : readseg D fuel 0x10000 4096 0 m with
    | done m1 => rfl
    | timeout x =>
      have hr' : readseg D fuel ELFHDR (SECTSIZE * 8) 0 m = Res.timeout x := hr
      exact absurd (by simp only [bootmain, hr']) (hne x)
  · intro m1 h
    refine ⟨?_, fun k hk => header_done_mem D fuel m m1 h k hk⟩
    rw [header_done_reads D fuel m m1 h]
    decide
  · intro hD hf
    exact header_ready D hD fuel hf m

/-- C18: without 32-bit wrap-around, a `readseg(va, count, offset)` that returns
after `n` sector reads has left every memory byte outside
`[va - r, va - r + 512 * n)` (`r = offset mod 512`) unchanged and has overwritten
every byte inside it with the corresponding disk byte; in particular the `r`
bytes just below `va` hold the image bytes that precede `offset`.  On a device
that is always ready the call returns. -/
theorem readseg_window (D : Dev) (m : Machine) (va count offset fuel : Nat)
    (h1 : offset % 512 ≤ va) (h2 : va + count + 511 < 2 ^ 32) (h3 : offset < 2 ^ 32) :
    (∀ m', readseg D fuel va count offset m = Res.done m' →
      ∃ n, (sectorReads (newEvents m m')).length = n ∧
        (∀ a, ¬ (va - offset % 512 ≤ a ∧ a < va - offset % 512 + 512 * n) →
          m'.mem a = m.mem a) ∧
        (∀ j, j < 512 * n →
          m'.mem (va - offset % 512 + j) = D.disk (512 * (offset / 512 + 1) + j)) ∧
        (∀ j, j < offset % 512 →
          m'.mem (va - offset % 512 + j) = imageByte D (offset - offset % 512 + j))) ∧
    (AlwaysReady D → (offset % 512 + count + 511) / 512 < fuel →
      ∃ m', readseg D fuel va count offset m = Res.done m') := by
  constructor
  · intro m' h
    obtain ⟨x, t, s, -, -⟩ := readseg_done_obs D fuel va count offset m m' h1 h2 h3 h
    have hn : offset % 512 + count ≤ 512 * sectorCount count offset := by
      simp only [sectorCount, SECTSIZE]; omega
    refine ⟨sectorCount count offset, ?_, ?_, ?_, ?_⟩
    · rw [newEvents_of_append m m' x t, s, readList_length]
    · intro a ha
      rw [readseg_done_mem D fuel va count offset m m' a h1 h2 h3 h, if_neg ha]
    · intro j hj
      rw [readseg_done_mem D fuel va count offset m m' _ h1 h2 h3 h, if_pos (by omega)]
      congr 1
      omega
    · intro j hj
      rw [readseg_done_mem D fuel va count offset m m' _ h1 h2 h3 h, if_pos (by omega)]
      simp only [imageByte, SECTSIZE]
      congr 1
      omega
  · intro hD hf
    exact ⟨_, readseg_ready D hD fuel va count offset m h1 h2 h3 hf⟩

theorem readseg_window_witness :
    ∃ m' n, readseg (readyDev demoDisk) 5 0x100003 1000 515 (Machine.boot fun _ => 0)
        = Res.done m' ∧
      (sectorReads (newEvents (Machine.boot fun _ => 0) m')).length = n ∧
      (∀ j, j < 515 % 512 →
        m'.mem (0x100003 - 515 % 512 + j)
          = imageByte (readyDev demoDisk) (515 - 515 % 512 + j)) :=
  have T := readseg_window (readyDev demoDisk) (Machine.boot fun _ => 0) 0x100003 1000 515 5
    (by decide) (by decide) (by decide)
  (T.2 (readyDev_ready demoDisk) (by decide)).elim fun m' hm =>
    (T.1 m' hm).elim fun n hn => ⟨m', n, hm, hn.1, hn.2.2.2⟩

/-! ## Termination -/

theorem andThen_timeout (r : Res) (f : Machine → Res) (h : ∀ x, (f x).isDone = false) :
    (r.andThen f).isDone = false := by
  cases r with
  | done x => exact h x
  | timeout x => rfl

/-- With `end_va = 2^32 - 1` and `va ≡ 510 (mod 512)` the loop of `readseg` never
leaves: every value `va` takes is below `end_va`. -/
theorem readsegLoop_spins (D : Dev) (fuel : Nat) :
    ∀ (k va secno : Nat) (m : Machine), va % 512 = 510 → va < 2 ^ 32 →
      (readsegLoop D fuel k va (2 ^ 32 - 1) secno m).isDone = false := by
  intro k
  induction k with
  | zero => intro va secno m _ _; rfl
  | succ k ih =>
    intro va secno m h1 h2
    have hlt : va < 2 ^ 32 - 1 := by omega
    simp only [readsegLoop, if_pos hlt]
    apply andThen_timeout
    intro x
    apply ih
    · simp only [u32, SECTSIZE]; omega
    · simp only [u32]; omega

/-- C17: on a device that is always ready, with `offset mod 512 ≤ va` and
`va + count ≤ 2^32 - 512`, `readseg(va, count, offset)` returns for every fuel
above `count / 512 + 2`, having issued at most `count / 512 + 2` sector reads;
whereas `readseg(2^32 - 2, 1, 0)`, whose end address `2^32 - 1` lies in the last
512 bytes of the address space, returns for no fuel on any device: the
destination wraps past `2^32` and stays below the end address. -/
theorem readseg_terminates (D : Dev) (hD : AlwaysReady D) (m : Machine)
    (va count offset : Nat) (h1 : offset % 512 ≤ va) (h2 : va + count ≤ 2 ^ 32 - 512)
    (h3 : offset < 2 ^ 32) :
    (∀ fuel, count / 512 + 2 < fuel →
      ∃ m', readseg D fuel va count offset m = Res.done m' ∧
        (sectorReads (newEvents m m')).length ≤ count / 512 + 2) ∧
    (∀ (D' : Dev) (fuel : Nat) (m0 : Machine),
      (readseg D' fuel (2 ^ 32 - 2) 1 0 m0).isDone = false) := by
  constructor
  · intro fuel hf
    have hc : sectorCount count offset ≤ count / 512 + 2 := by
      simp only [sectorCount, SECTSIZE]; omega
    have hr := readseg_ready D hD fuel va count offset m h1 (by omega) h3 (by omega)
    obtain ⟨x, t, s, -, -⟩ := readseg_done_obs D fuel va count offset m _ h1 (by omega) h3 hr
    refine ⟨_, hr, ?_⟩
    rw [newEvents_of_append m _ x t, s, readList_length]
    exact hc
  · intro D' fuel m0
    exact readsegLoop_spins D' fuel fuel (2 ^ 32 - 2) _ _ (by decide) (by decide)

theorem readseg_terminates_witness :
    ∃ m', readseg (readyDev demoDisk) 5 0x100003 1000 515 (Machine.boot fun _ => 0)
        = Res.done m' ∧
      (sectorReads (newEvents (Machine.boot fun _ => 0) m')).length ≤ 1000 / 512 + 2 :=
  (readseg_terminates (readyDev demoDisk) (readyDev_ready demoDisk) (Machine.boot fun _ => 0)
    0x100003 1000 515 (by decide) (by decide) (by decide)).1 5 (by decide)

/-! ## One sector read -/

theorem ored_nibble : ∀ y, y < 16 → (y ||| 0xE0) % 256 = 0xE0 + y := by decide

theorem cmd_values (secno : Nat) :
    (secno &&& 0xFF) % 256 = secno % 256 ∧
    ((secno >>> 8) &&& 0xFF) % 256 = secno / 2 ^ 8 % 256 ∧
    ((secno >>> 16) &&& 0xFF) % 256 = secno / 2 ^ 16 % 256 ∧
    (((secno >>> 24) &&& 0xF) ||| 0xE0) % 256 = 0xE0 + secno / 2 ^ 24 % 16 := by
  have e1 : ∀ x, x &&& 0xFF = x % 256 := fun x => Nat.and_pow_two_sub_one_eq_mod x 8
  have e2 : ∀ x, x &&& 0xF = x % 16 := fun x => Nat.and_pow_two_sub_one_eq_mod x 4
  have h := ored_nibble ((secno >>> 24) &&& 0xF) (by rw [e2]; omega)
  rw [h, e1, e1, e1, e2]
  simp only [Nat.shiftRight_eq_div_pow, Nat.mod_mod, and_self]

theorem noPolls_readsect_cmd (D : Dev) (dst secno p : Nat) :
    noPolls (readsectEvents D dst secno p) =
      Event.readsect dst secno :: cmdEvents secno ++ [Event.insl 0x1F0 dst 128] := by
  obtain ⟨c1, c2, c3, c4⟩ := cmd_values secno
  rw [noPolls_readsectEvents, c1, c2, c3, c4]
  rfl

theorem portWrites_noPolls (t : List Event) : portWrites (noPolls t) = portWrites t := by
  induction t with
  | nil => rfl
  | cons e t ih =>
    cases e <;> simp_all [portWrites, noPolls, List.filter_cons]

theorem readsectDone_ide (D : Dev) (dst secno : Nat) (m : Machine) :
    (readsectDone D dst secno m).ide.nsect = 1 ∧
      (readsectDone D dst secno m).ide.lba = secno % 2 ^ 28 := by
  have h := lba_reassemble secno
  simp only [Nat.reducePow] at h
  simp [readsectDone, insl, outb, inb, Machine.log, SECTSIZE, Ide.lba, h]

/-- C14: a `readsect(dst, secno)` that returns, on any device, has written 1 to
port `0x1F2`, `secno[7:0]`, `secno[15:8]`, `secno[23:16]` to ports `0x1F3`,
`0x1F4`, `0x1F5`, `0xE0 + secno[27:24]` to port `0x1F6` and `0x20` to port `0x1F7`,
in that order and nothing else, and has then done one transfer of 128 words from
port `0x1F0` to `dst`; the block address held by the registers is
`secno mod 2^28`, the sector count is 1, and memory holds the 512 bytes of that
sector at `dst .. dst + 511` and is unchanged elsewhere.  On a device that is
always ready the call returns. -/
theorem readsect_command (D : Dev) (fuel dst secno : Nat) (m : Machine) :
    (∀ m', readsect D fuel dst secno m = Res.done m' →
      portWrites (newEvents m m') =
        [(0x1F2, 1), (0x1F3, secno % 256), (0x1F4, secno / 2 ^ 8 % 256),
         (0x1F5, secno / 2 ^ 16 % 256), (0x1F6, 0xE0 + secno / 2 ^ 24 % 16), (0x1F7, 0x20)] ∧
      noPolls (newEvents m m') =
        Event.readsect dst secno :: cmdEvents secno ++ [Event.insl 0x1F0 dst 128] ∧
      m'.ide.nsect = 1 ∧ m'.ide.lba = secno % 2 ^ 28 ∧
      (secno < 2 ^ 28 → m'.ide.lba = secno) ∧
      (dst + 512 ≤ 2 ^ 32 →
        (∀ i, i < 512 → m'.mem (dst + i) = D.disk (512 * (secno % 2 ^ 28) + i)) ∧
        (∀ a, a < dst ∨ dst + 512 ≤ a → m'.mem a = m.mem a))) ∧
    (AlwaysReady D → 0 < fuel → ∃ m', readsect D fuel dst secno m = Res.done m') := by
  constructor
  · intro m' h
    obtain ⟨s, ext, t, q⟩ := readsect_done D fuel dst secno m m' h
    have hq : noPolls (newEvents m m') =
        Event.readsect dst secno :: cmdEvents secno ++ [Event.insl 0x1F0 dst 128] := by
      rw [newEvents_of_append m m' ext t, q, noPolls_readsect_cmd]
    obtain ⟨i1, i2⟩ := readsectDone_ide D dst secno m
    refine ⟨?_, hq, ?_, ?_, ?_, ?_⟩
    · rw [← portWrites_noPolls, hq]
      simp [portWrites, cmdEvents]
    · rw [s.2, i1]
    · rw [s.2, i2]
    · intro hs
      rw [s.2, i2, Nat.mod_eq_of_lt hs]
    · intro hd
      have e1 : u32 dst = dst := Nat.mod_eq_of_lt (by omega)
      constructor
      · intro i hi
        rw [s.1, readsectDone_mem, e1, if_pos (by omega)]
        congr 2
        omega
      · intro a ha
        rw [s.1, readsectDone_mem, e1, if_neg (by omega)]
  · intro hD hf
    exact ⟨_, readsect_ready D hD fuel hf dst secno m⟩

/-! ## Waiting for the device -/

theorem pollEvents_add (D : Dev) (p a b : Nat) :
    pollEvents D p (a + b) = pollEvents D p a ++ pollEvents D (p + a) b := by
  simp only [pollEvents, List.range_add, List.map_append, List.map_map]
  congr 1
  apply List.map_congr_left
  intro i _
  simp [Function.comp, Nat.add_assoc]

theorem pollEvents_one (D : Dev) (p : Nat) :
    pollEvents D p 1 = [Event.inb 0x1F7 (D.status p).val] := rfl

theorem polled_zero (D : Dev) (m : Machine) : polled D m 0 = m := by
  cases m
  simp [polled, pollEvents]

theorem polled_polled (D : Dev) (m : Machine) (a b : Nat) :
    polled D (polled D m a) b = polled D m (a + b) := by
  simp [polled, pollEvents_add, Nat.add_assoc]

theorem inb_polled (D : Dev) (m : Machine) : (inb D 0x1F7 m).2 = polled D m 1 := by
  simp [inb, polled, pollEvents_one]

/-- `waitdisk` polls until the first ready status: with enough fuel it returns
right after poll `j`, the first one that reads ready, and otherwise it has
polled `fuel` times without reading ready. -/
theorem waitdisk_shape (D : Dev) :
    ∀ (fuel : Nat) (m : Machine),
      (∃ j, j < fuel ∧ (∀ i, i < j → ¬ Ready (D.status (m.polls + i)).val) ∧
        Ready (D.status (m.polls + j)).val ∧
        waitdisk D fuel m = Res.done (polled D m (j + 1))) ∨
      ((∀ i, i < fuel → ¬ Ready (D.status (m.polls + i)).val) ∧
        waitdisk D fuel m = Res.timeout (polled D m fuel)) := by
  intro fuel
  induction fuel with
  | zero =>
    intro m
    exact Or.inr ⟨fun i hi => absurd hi (Nat.not_lt_zero i), by rw [polled_zero]; rfl⟩
  | succ f ih =>
    intro m
    have hv : (inb D 0x1F7 m).1 = (D.status m.polls).val := by simp [inb]
    by_cases hr : Ready (D.status m.polls).val
    · refine Or.inl ⟨0, Nat.succ_pos f, fun i hi => absurd hi (Nat.not_lt_zero i), hr, ?_⟩
      have hr' : ¬ ((inb D 0x1F7 m).1 &&& 0xC0 ≠ 0x40) := by rw [hv]; exact not_not.2 hr
      simp only [waitdisk, if_neg hr', inb_polled]
    · have hr' : (inb D 0x1F7 m).1 &&& 0xC0 ≠ 0x40 := by rw [hv]; exact hr
      have hp : (polled D m 1).polls = m.polls + 1 := rfl
      have step : waitdisk D (f + 1) m = waitdisk D f (polled D m 1) := by
        simp only [waitdisk, if_pos hr', inb_polled]
      have hall : ∀ n, (∀ i, i < n → ¬ Ready (D.status (m.polls + 1 + i)).val) →
          ∀ i, i < n + 1 → ¬ Ready (D.status (m.polls + i)).val := by
        intro n hn i hi
        cases i with
        | zero => exact hr
        | succ i =>
          have := hn i (by omega)
          rwa [Nat.add_assoc, Nat.add_comm 1 i] at this
      rcases ih (polled D m 1) with ⟨j, hj, h1, h2, h3⟩ | ⟨h1, h3⟩
      · rw [hp] at h1 h2
        refine Or.inl ⟨j + 1, by omega, hall j h1, ?_, ?_⟩
        · rwa [Nat.add_assoc, Nat.add_comm 1 j] at h2
        · rw [step, h3, polled_polled, Nat.add_comm 1 (j + 1)]
      · rw [hp] at h1
        refine Or.inr ⟨hall f h1, ?_⟩
        rw [step, h3, polled_polled, Nat.add_comm 1 f]

theorem readsect_eq (D : Dev) (fuel dst secno : Nat) (m : Machine) :
    readsect D fuel dst secno m =
      (waitdisk D fuel (m.log (Event.readsect dst secno))).andThen fun x =>
        (waitdisk D fuel (commanded secno x)).andThen fun y =>
          Res.done (insl D 0x1F0 dst (SECTSIZE / 4) y) := rfl

theorem commanded_trace (secno : Nat) (m : Machine) :
    (commanded secno m).trace = m.trace ++ cmdEvents secno := by
  obtain ⟨c1, c2, c3, c4⟩ := cmd_values secno
  simp only [commanded, outb_trace, List.append_assoc, c1, c2, c3, c4]
  rfl

theorem commanded_polls (secno : Nat) (m : Machine) : (commanded secno m).polls = m.polls := rfl

theorem pollEvents_succ (D : Dev) (p j : Nat) :
    pollEvents D p (j + 1) = pollEvents D p j ++ [Event.inb 0x1F7 (D.status (p + j)).val] := by
  rw [pollEvents_add, pollEvents_one]

/-- The trace of one `readsect`, whatever the device does: the run is stuck in
the first wait, or the first wait ended on a ready status and the six register
writes followed; then it is stuck in the second wait, or that wait ended on a
ready status too and the data transfer followed. -/
theorem readsect_shape (D : Dev) (fuel dst secno : Nat) (m : Machine) :
    ((readsect D fuel dst secno m).isDone = false ∧
      (∀ i, i < fuel → ¬ Ready (D.status (m.polls + i)).val) ∧
      newEvents m (readsect D fuel dst secno m).state =
        Event.readsect dst secno :: pollEvents D m.polls fuel) ∨
    ∃ j1, j1 < fuel ∧ (∀ i, i < j1 → ¬ Ready (D.status (m.polls + i)).val) ∧
      Ready (D.status (m.polls + j1)).val ∧
      (((readsect D fuel dst secno m).isDone = false ∧
        (∀ i, i < fuel → ¬ Ready (D.status (m.polls + (j1 + 1) + i)).val) ∧
        newEvents m (readsect D fuel dst secno m).state =
          Event.readsect dst secno :: (pollEvents D m.polls j1 ++
            Event.inb 0x1F7 (D.status (m.polls + j1)).val ::
            (cmdEvents secno ++ pollEvents D (m.polls + (j1 + 1)) fuel))) ∨
      ∃ j2, j2 < fuel ∧
        (∀ i, i < j2 → ¬ Ready (D.status (m.polls + (j1 + 1) + i)).val) ∧
        Ready (D.status (m.polls + (j1 + 1) + j2)).val ∧
        (readsect D fuel dst secno m).isDone = true ∧
        newEvents m (readsect D fuel dst secno m).state =
          Event.readsect dst secno :: (pollEvents D m.polls j1 ++
            Event.inb 0x1F7 (D.status (m.polls + j1)).val ::
            (cmdEvents secno ++ (pollEvents D (m.polls + (j1 + 1)) j2 ++
              [Event.inb 0x1F7 (D.status (m.polls + (j1 + 1) + j2)).val,
               Event.insl 0x1F0 dst 128])))) := by
  have hp0 : (m.log (Event.readsect dst secno)).polls = m.polls := rfl
  rcases waitdisk_shape D fuel (m.log (Event.readsect dst secno)) with
    ⟨j1, hj1, n1, r1, w1⟩ | ⟨n1, w1⟩
  · rw [hp0] at n1 r1
    refine Or.inr ⟨j1, hj1, n1, r1, ?_⟩
    have hpc : (commanded secno (polled D (m.log (Event.readsect dst secno)) (j1 + 1))).polls
        = m.polls + (j1 + 1) := rfl
    rcases waitdisk_shape D fuel
        (commanded secno (polled D (m.log (Event.readsect dst secno)) (j1 + 1))) with
      ⟨j2, hj2, n2, r2, w2⟩ | ⟨n2, w2⟩
    · rw [hpc] at n2 r2
      refine Or.inr ⟨j2, hj2, n2, r2, ?_, ?_⟩
      · rw [readsect_eq, w1]
        simp only [Res.andThen, w2]
        rfl
      · apply newEvents_of_append
        rw [readsect_eq, w1]
        simp only [Res.andThen, w2, Res.state]
        simp [insl, polled, commanded_trace, commanded_polls, pollEvents_succ, Machine.log,
          SECTSIZE]
    · rw [hpc] at n2
      refine Or.inl ⟨?_, n2, ?_⟩
      · rw [readsect_eq, w1]
        simp only [Res.andThen, w2]
        rfl
      · apply newEvents_of_append
        rw [readsect_eq, w1]
        simp only [Res.andThen, w2, Res.state]
        simp [polled, commanded_trace, commanded_polls, pollEvents_succ, Machine.log]
  · rw [hp0] at n1
    refine Or.inl ⟨?_, n1, ?_⟩
    · rw [readsect_eq, w1]; rfl
    · apply newEvents_of_append
      rw [readsect_eq, w1]
      simp [Res.andThen, Res.state, polled, Machine.log]

/-- C16: whatever statuses the device returns, a `readsect` run has one of three
traces: it is stuck in the first `waitdisk` and has written no port; or the
status read immediately before the first register write satisfies
`(status & 0xC0) = 0x40` and it is stuck in the second `waitdisk`, without any
data transfer; or that holds and the status read immediately before the data
transfer satisfies it too.  `waitdisk` itself returns right after the first poll
that reads ready (given the fuel for it) and changes nothing but the poll count
and the trace, to which it adds only reads of port `0x1F7`. -/
theorem readsect_waits (D : Dev) (fuel dst secno : Nat) (m : Machine) :
    (((readsect D fuel dst secno m).isDone = false ∧
      (∀ i, i < fuel → ¬ Ready (D.status (m.polls + i)).val) ∧
      newEvents m (readsect D fuel dst secno m).state =
        Event.readsect dst secno :: pollEvents D m.polls fuel) ∨
    ∃ j1, j1 < fuel ∧ (∀ i, i < j1 → ¬ Ready (D.status (m.polls + i)).val) ∧
      Ready (D.status (m.polls + j1)).val ∧
      (((readsect D fuel dst secno m).isDone = false ∧
        (∀ i, i < fuel → ¬ Ready (D.status (m.polls + (j1 + 1) + i)).val) ∧
        newEvents m (readsect D fuel dst secno m).state =
          Event.readsect dst secno :: (pollEvents D m.polls j1 ++
            Event.inb 0x1F7 (D.status (m.polls + j1)).val ::
            (cmdEvents secno ++ pollEvents D (m.polls + (j1 + 1)) fuel))) ∨
      ∃ j2, j2 < fuel ∧
        (∀ i, i < j2 → ¬ Ready (D.status (m.polls + (j1 + 1) + i)).val) ∧
        Ready (D.status (m.polls + (j1 + 1) + j2)).val ∧
        (readsect D fuel dst secno m).isDone = true ∧
        newEvents m (readsect D fuel dst secno m).state =
          Event.readsect dst secno :: (pollEvents D m.polls j1 ++
            Event.inb 0x1F7 (D.status (m.polls + j1)).val ::
            (cmdEvents secno ++ (pollEvents D (m.polls + (j1 + 1)) j2 ++
              [Event.inb 0x1F7 (D.status (m.polls + (j1 + 1) + j2)).val,
               Event.insl 0x1F0 dst 128]))))) ∧
    (∀ (f : Nat) (m0 : Machine),
      (∃ j, j < f ∧ (∀ i, i < j → ¬ Ready (D.status (m0.polls + i)).val) ∧
        Ready (D.status (m0.polls + j)).val ∧
        waitdisk D f m0 = Res.done
          { m0 with polls := m0.polls + (j + 1),
                    trace := m0.trace ++ pollEvents D m0.polls (j + 1) }) ∨
      ((∀ i, i < f → ¬ Ready (D.status (m0.polls + i)).val) ∧
        waitdisk D f m0 = Res.timeout
          { m0 with polls := m0.polls + f, trace := m0.trace ++ pollEvents D m0.polls f })) :=
  ⟨readsect_shape D fuel dst secno m, fun f m0 => waitdisk_shape D f m0⟩

/-! ## The sequence of sector reads of one segment load -/

theorem sectorReads_pollEvents (D : Dev) (p j : Nat) : sectorReads (pollEvents D p j) = [] := by
  induction j with
  | zero => rfl
  | succ j ih => rw [pollEvents_succ, sectorReads_append, ih]; rfl

theorem sectorReads_cons_readsect (d s : Nat) (l : List Event) :
    sectorReads (Event.readsect d s :: l) = (d, s) :: sectorReads l := rfl

theorem sectorReads_cons_inb (p v : Nat) (l : List Event) :
    sectorReads (Event.inb p v :: l) = sectorReads l := rfl

theorem sectorReads_cmdEvents (secno : Nat) : sectorReads (cmdEvents secno) = [] := rfl

theorem readsect_reads (D : Dev) (fuel dst secno : Nat) (m : Machine) :
    ∃ ext, (readsect D fuel dst secno m).state.trace = m.trace ++ ext ∧
      sectorReads ext = [(dst, secno)] := by
  obtain ⟨e, t⟩ := readsect_trace D fuel dst secno m
  refine ⟨_, t, ?_⟩
  have hn := newEvents_of_append m _ _ t
  rw [← hn]
  rcases readsect_shape D fuel dst secno m with
    ⟨-, -, h⟩ | ⟨j1, -, -, -, ⟨-, -, h⟩ | ⟨j2, -, -, -, -, h⟩⟩
  all_goals rw [h]
  all_goals simp only [sectorReads_cons_readsect, sectorReads_append, sectorReads_pollEvents,
    sectorReads_cons_inb, sectorReads_cmdEvents, List.nil_append]
  rfl

/-- Any run of the loop of `readseg`, finished or not, has issued an initial part
of the regular sequence of reads, and all of it when it has finished. -/
theorem readsegLoop_reads (D : Dev) (fuel : Nat) :
    ∀ (n k va end_va secno : Nat) (m : Machine),
      end_va ≤ va + 512 * n → va + 512 * n < end_va + 512 → va + 512 * n < 2 ^ 32 →
      secno + n < 2 ^ 32 →
      ∃ j ext, j ≤ n ∧
        (readsegLoop D fuel k va end_va secno m).state.trace = m.trace ++ ext ∧
        sectorReads ext = readList j va secno ∧
        ((readsegLoop D fuel k va end_va secno m).isDone = true → j = n) ∧
        (0 < k → 0 < n → 0 < j) := by
  intro n
  induction n with
  | zero =>
    intro k va end_va secno m h1 _ _ _
    refine ⟨0, [], Nat.le_refl 0, ?_, rfl, fun _ => rfl, fun _ h => absurd h (Nat.lt_irrefl 0)⟩
    cases k with
    | zero => simp [readsegLoop, Res.state]
    | succ k =>
      have hlt : ¬ va < end_va := by omega
      simp [readsegLoop, hlt, Res.state]
  | succ n ih =>
    intro k va end_va secno m h1 h2 h3 h4
    cases k with
    | zero =>
      exact ⟨0, [], Nat.zero_le _, by simp [readsegLoop, Res.state], rfl,
        fun h => by simp [readsegLoop, Res.isDone] at h, fun h => absurd h (Nat.lt_irrefl 0)⟩
    | succ k =>
      have hlt : va < end_va := by omega
      have e1 : u32 (va + SECTSIZE) = va + SECTSIZE :=
        Nat.mod_eq_of_lt (by simp only [SECTSIZE]; omega)
      have e2 : u32 (secno + 1) = secno + 1 := Nat.mod_eq_of_lt (by omega)
      obtain ⟨x, tx, sx⟩ := readsect_reads D fuel va secno m
      simp only [readsegLoop, if_pos hlt, e1, e2]
      cases hr : readsect D fuel va secno m with
      | timeout y =>
        rw [hr] at tx
        refine ⟨1, x, by omega, tx, ?_, fun h => by simp [Res.andThen, Res.isDone] at h,
          fun _ _ => Nat.one_pos⟩
        rw [sx]
        rfl
      | done y =>
        rw [hr] at tx
        have tx' : y.trace = m.trace ++ x := tx
        obtain ⟨j, ext, hj, t, s, d, -⟩ := ih k (va + SECTSIZE) end_va (secno + 1) y
          (by simp only [SECTSIZE]; omega) (by simp only [SECTSIZE]; omega)
          (by simp only [SECTSIZE]; omega) (by omega)
        refine ⟨j + 1, x ++ ext, by omega, ?_, ?_, ?_, fun _ _ => Nat.succ_pos j⟩
        · simp only [Res.andThen]
          rw [t, tx', List.append_assoc]
        · rw [sectorReads_append, sx, s, readList_succ]
          rfl
        · intro hd
          simp only [Res.andThen] at hd
          rw [d hd]

theorem readList_getElem (j va secno i : Nat) (hi : i < j) :
    (readList j va secno)[i]? = some (va + 512 * i, secno + i) := by
  simp [readList, List.getElem?_map, List.getElem?_range hi, SECTSIZE]

theorem readseg_reads (D : Dev) (fuel va count offset : Nat) (m : Machine) (n : Nat)
    (h0 : va < 2 ^ 32) (h1 : offset % 512 ≤ va) (h3 : offset < 2 ^ 32)
    (hc : va + count < 2 ^ 32)
    (ha : va + count ≤ va - offset % 512 + 512 * n)
    (hb : va - offset % 512 + 512 * n < va + count + 512)
    (hw : va - offset % 512 + 512 * n < 2 ^ 32) :
    ∃ j, j ≤ n ∧
      sectorReads (newEvents m (readseg D fuel va count offset m).state)
        = readList j (va - offset % 512) (offset / 512 + 1) ∧
      ((readseg D fuel va count offset m).isDone = true → j = n) ∧
      (0 < fuel → 0 < n → 0 < j) := by
  have e1 : u32 (va + count) = va + count := Nat.mod_eq_of_lt hc
  have e2 : u32 (va + 2 ^ 32 - offset % SECTSIZE) = va - offset % 512 := by
    simp only [u32, SECTSIZE]; omega
  have e3 : u32 (offset / SECTSIZE + 1) = offset / 512 + 1 := by
    simp only [u32, SECTSIZE]; omega
  obtain ⟨j, ext, hj, t, s, d, p⟩ := readsegLoop_reads D fuel n fuel (va - offset % 512)
    (va + count) (offset / 512 + 1) (m.log (Event.readseg va count offset)) ha hb hw (by omega)
  refine ⟨j, hj, ?_, ?_, p⟩
  · rw [newEvents_of_append m _ (Event.readseg va count offset :: ext)
      (by simp only [readseg, e1, e2, e3]; rw [t]; simp [Machine.log])]
    rw [← List.singleton_append, sectorReads_append, s]
    rfl
  · intro hd
    apply d
    simpa only [readseg, e1, e2, e3] using hd

/-- C15: without 32-bit wrap-around, the sector reads of a run of
`readseg(va, count, offset)`, finished or not, on any device, are the first `j`
of the sequence whose `i`-th member is
`readsect(va - offset mod 512 + 512 * i, offset / 512 + 1 + i)`, with `j = n` once
the call has returned, `n` being the first `i` with
`va - offset mod 512 + 512 * i ≥ va + count`; on a device that is always ready
the call returns. -/
theorem readseg_sequence (D : Dev) (m : Machine) (va count offset fuel : Nat)
    (h1 : offset % 512 ≤ va) (h2 : va + count + 511 < 2 ^ 32) (h3 : offset < 2 ^ 32) :
    ∃ n, (∀ i, i < n → va - offset % 512 + 512 * i < va + count) ∧
      va + count ≤ va - offset % 512 + 512 * n ∧
      (∃ j, j ≤ n ∧
        sectorReads (newEvents m (readseg D fuel va count offset m).state)
          = readList j (va - offset % 512) (offset / 512 + 1) ∧
        (∀ i, i < j →
          (sectorReads (newEvents m (readseg D fuel va count offset m).state))[i]?
            = some (va - offset % 512 + 512 * i, offset / 512 + 1 + i)) ∧
        ((readseg D fuel va count offset m).isDone = true → j = n)) ∧
      (AlwaysReady D → n < fuel → (readseg D fuel va count offset m).isDone = true) := by
  have hn1 : offset % 512 + count ≤ 512 * sectorCount count offset := by
    simp only [sectorCount, SECTSIZE]; omega
  have hn2 : 512 * sectorCount count offset < offset % 512 + count + 512 := by
    simp only [sectorCount, SECTSIZE]; omega
  refine ⟨sectorCount count offset, ?_, by omega, ?_, ?_⟩
  · intro i hi
    have : 512 * (i + 1) ≤ 512 * sectorCount count offset := Nat.mul_le_mul_left 512 hi
    omega
  · obtain ⟨j, hj, s, d, -⟩ := readseg_reads D fuel va count offset m (sectorCount count offset)
      (by omega) h1 h3 (by omega) (by omega) (by omega) (by omega)
    refine ⟨j, hj, s, ?_, d⟩
    intro i hi
    rw [s, readList_getElem j _ _ i hi]
  · intro hD hf
    rw [readseg_ready D hD fuel va count offset m h1 h2 h3 hf]
    rfl

theorem readseg_sequence_witness :
    ∃ n, (∀ i, i < n → 0x100003 - 515 % 512 + 512 * i < 0x100003 + 1000) ∧
      0x100003 + 1000 ≤ 0x100003 - 515 % 512 + 512 * n ∧
      (∃ j, j ≤ n ∧
        sectorReads (newEvents (Machine.boot fun _ => 0)
            (readseg (readyDev demoDisk) 5 0x100003 1000 515 (Machine.boot fun _ => 0)).state)
          = readList j (0x100003 - 515 % 512) (515 / 512 + 1) ∧
        (∀ i, i < j →
          (sectorReads (newEvents (Machine.boot fun _ => 0)
            (readseg (readyDev demoDisk) 5 0x100003 1000 515
              (Machine.boot fun _ => 0)).state))[i]?
            = some (0x100003 - 515 % 512 + 512 * i, 515 / 512 + 1 + i)) ∧
        ((readseg (readyDev demoDisk) 5 0x100003 1000 515
            (Machine.boot fun _ => 0)).isDone = true → j = n)) ∧
      (AlwaysReady (readyDev demoDisk) → n < 5 →
        (readseg (readyDev demoDisk) 5 0x100003 1000 515
          (Machine.boot fun _ => 0)).isDone = true) :=
  readseg_sequence (readyDev demoDisk) (Machine.boot fun _ => 0) 0x100003 1000 515 5
    (by decide) (by decide) (by decide)

/-- C19 as stated fails at the top of the address space: `readseg(2^32 - 1, 0, 1)`
has `0 < offset mod 512 ≤ va`, but after the first read the destination
`2^32 - 2 + 512` wraps to 510, which is again below the end address, so the loop
goes on; with fuel 3 it has already issued three sector reads and has not
returned. -/
theorem zero_count_counterexample :
    0 < 1 % 512 ∧ 1 % 512 ≤ 2 ^ 32 - 1 ∧
    sectorReads (newEvents (Machine.boot fun _ => 0)
      (readseg (readyDev demoDisk) 3 (2 ^ 32 - 1) 0 1 (Machine.boot fun _ => 0)).state)
      = [(2 ^ 32 - 2, 1), (510, 2), (1022, 3)] ∧
    (readseg (readyDev demoDisk) 3 (2 ^ 32 - 1) 0 1 (Machine.boot fun _ => 0)).isDone
      = false := by
  decide

/-- C19, amended: `readseg(va, 0, offset)` issues no sector read and leaves memory
unchanged when `offset mod 512 = 0`; when `0 < offset mod 512 ≤ va` and the end of
the first sector does not wrap (`va - offset mod 512 + 512 < 2^32`) it issues
exactly one sector read, of sector `offset / 512 + 1` into `va - offset mod 512`,
on any device and with any fuel above 0, and returns on a device that is always
ready. -/
theorem readseg_zero_count (D : Dev) (fuel : Nat) (m : Machine) (va offset : Nat)
    (hva : va < 2 ^ 32) (ho : offset < 2 ^ 32) :
    (offset % 512 = 0 →
      sectorReads (newEvents m (readseg D fuel va 0 offset m).state) = [] ∧
      (readseg D fuel va 0 offset m).state.mem = m.mem ∧
      (0 < fuel → (readseg D fuel va 0 offset m).isDone = true)) ∧
    (0 < offset % 512 → offset % 512 ≤ va → va - offset % 512 + 512 < 2 ^ 32 →
      (0 < fuel → sectorReads (newEvents m (readseg D fuel va 0 offset m).state)
        = [(va - offset % 512, offset / 512 + 1)]) ∧
      (AlwaysReady D → 1 < fuel → (readseg D fuel va 0 offset m).isDone = true)) := by
  constructor
  · intro hr
    have e1 : u32 (va + 0) = va := Nat.mod_eq_of_lt hva
    have e2 : u32 (va + 2 ^ 32 - offset % SECTSIZE) = va := by
      simp only [u32, SECTSIZE]; omega
    have hst : (readseg D fuel va 0 offset m).state = m.log (Event.readseg va 0 offset) ∧
        (0 < fuel → (readseg D fuel va 0 offset m).isDone = true) := by
      simp only [readseg, e1, e2]
      cases fuel with
      | zero => exact ⟨rfl, fun h => absurd h (Nat.lt_irrefl 0)⟩
      | succ f => simp [readsegLoop, Res.state, Res.isDone]
    refine ⟨?_, ?_, hst.2⟩
    · rw [newEvents_of_append m _ [Event.readseg va 0 offset] (by rw [hst.1]; rfl)]
      rfl
    · rw [hst.1]; rfl
  · intro hr h1 hw
    constructor
    · intro hf
      obtain ⟨j, hj, s, -, p⟩ := readseg_reads D fuel va 0 offset m 1 hva h1 ho (by omega)
        (by omega) (by omega) (by omega)
      have hj1 : j = 1 := by have := p hf Nat.one_pos; omega
      rw [s, hj1]
      rfl
    · intro hD hf
      have e1 : u32 (va + 0) = va := Nat.mod_eq_of_lt hva
      have e2 : u32 (va + 2 ^ 32 - offset % SECTSIZE) = va - offset % 512 := by
        simp only [u32, SECTSIZE]; omega
      have e3 : u32 (offset / SECTSIZE + 1) = offset / 512 + 1 := by
        simp only [u32, SECTSIZE]; omega
      simp only [readseg, e1, e2, e3]
      rw [readsegLoop_ready D hD fuel (by omega) 1 fuel _ _ _ _ hf (by omega) (by omega)
        (by omega) (by omega)]
      rfl

theorem readseg_zero_count_witness :
    sectorReads (newEvents (Machine.boot fun _ => 0)
        (readseg (readyDev demoDisk) 5 0x100003 0 515 (Machine.boot fun _ => 0)).state)
      = [(0x100003 - 515 % 512, 515 / 512 + 1)] ∧
    (readseg (readyDev demoDisk) 5 0x100003 0 515 (Machine.boot fun _ => 0)).isDone = true :=
  have T := (readseg_zero_count (readyDev demoDisk) 5 (Machine.boot fun _ => 0) 0x100003 515
    (by decide) (by decide)).2 (by decide) (by decide) (by decide)
  ⟨T.1 (by decide), T.2 (readyDev_ready demoDisk) (by decide)⟩

/-! ## The scratch header during the segment loop -/

theorem image32_lt (D : Dev) (k : Nat) : image32 D k < 2 ^ 32 := by
  have b0 := (imageByte D k).isLt
  have b1 := (imageByte D (k + 1)).isLt
  have b2 := (imageByte D (k + 2)).isLt
  have b3 := (imageByte D (k + 3)).isLt
  simp only [image32]
  omega

theorem read32_of_scratch (D : Dev) (mem : Nat → Byte) (h : ScratchIs D mem) (k : Nat)
    (hk : k + 4 ≤ 4096) : read32 mem (ELFHDR + k) = image32 D k := by
  have e0 : u32 (ELFHDR + k) = 0x10000 + k := by simp only [u32, ELFHDR]; omega
  have e1 : u32 (ELFHDR + k + 1) = 0x10000 + (k + 1) := by simp only [u32, ELFHDR]; omega
  have e2 : u32 (ELFHDR + k + 2) = 0x10000 + (k + 2) := by simp only [u32, ELFHDR]; omega
  have e3 : u32 (ELFHDR + k + 3) = 0x10000 + (k + 3) := by simp only [u32, ELFHDR]; omega
  simp only [read32, image32, e0, e1, e2, e3]
  rw [h k (by omega), h (k + 1) (by omega), h (k + 2) (by omega), h (k + 3) (by omega)]

theorem read16_of_scratch (D : Dev) (mem : Nat → Byte) (h : ScratchIs D mem) (k : Nat)
    (hk : k + 2 ≤ 4096) : read16 mem (ELFHDR + k) = image16 D k := by
  have e0 : u32 (ELFHDR + k) = 0x10000 + k := by simp only [u32, ELFHDR]; omega
  have e1 : u32 (ELFHDR + k + 1) = 0x10000 + (k + 1) := by simp only [u32, ELFHDR]; omega
  simp only [read16, image16, e0, e1]
  rw [h k (by omega), h (k + 1) (by omega)]

theorem header_scratch (D : Dev) (fuel : Nat) (m m1 : Machine)
    (h : readseg D fuel ELFHDR (SECTSIZE * 8) 0 m = Res.done m1) : ScratchIs D m1.mem :=
  fun k hk => header_done_mem D fuel m m1 h k hk

/-- With the image's header in the scratch region, the descriptor `bootmain`
reads at index `t` is the image's. -/
theorem descriptor_of_scratch (D : Dev) (L : ElfLayout) (hL : L.Sane) (phoff t : Nat)
    (mem : Nat → Byte) (h : ScratchIs D mem) (ht : phoff + (t + 1) * L.phsize ≤ 4096) :
    read32 mem (ELFHDR + phoff + t * L.phsize + L.p_va) &&& 0xFFFFFF
        = (segArgs D L phoff t).1 ∧
      read32 mem (ELFHDR + phoff + t * L.phsize + L.p_memsz) = (segArgs D L phoff t).2.1 ∧
      read32 mem (ELFHDR + phoff + t * L.phsize + L.p_offset) = (segArgs D L phoff t).2.2 := by
  obtain ⟨-, -, -, l1, l2, l3⟩ := hL
  have e : (t + 1) * L.phsize = t * L.phsize + L.phsize := Nat.succ_mul t L.phsize
  have a1 : ELFHDR + phoff + t * L.phsize + L.p_va = ELFHDR + (phoff + t * L.phsize + L.p_va) := by
    omega
  have a2 : ELFHDR + phoff + t * L.phsize + L.p_memsz
      = ELFHDR + (phoff + t * L.phsize + L.p_memsz) := by omega
  have a3 : ELFHDR + phoff + t * L.phsize + L.p_offset
      = ELFHDR + (phoff + t * L.phsize + L.p_offset) := by omega
  rw [a1, a2, a3, read32_of_scratch D mem h _ (by omega), read32_of_scratch D mem h _ (by omega),
    read32_of_scratch D mem h _ (by omega)]
  exact ⟨rfl, rfl, rfl⟩

/-- A returned segment load that is clear of the scratch region leaves it as it
was. -/
theorem clear_keeps_scratch (D : Dev) (fuel : Nat) (c : Nat × Nat × Nat) (m m1 : Machine)
    (hc : ClearOfScratch c) (ho : c.2.2 < 2 ^ 32)
    (h : readseg D fuel c.1 c.2.1 c.2.2 m = Res.done m1) (a : Nat) (h0 : 0x10000 ≤ a)
    (h1 : a < 0x11000) : m1.mem a = m.mem a := by
  obtain ⟨c1, c2, c3⟩ := hc
  have hn : 512 * sectorCount c.2.1 c.2.2 ≤ c.2.2 % 512 + c.2.1 + 511 := by
    simp only [sectorCount, SECTSIZE]; omega
  rw [readseg_done_mem D fuel c.1 c.2.1 c.2.2 m m1 a c1 c2 ho h, if_neg (by omega)]

theorem scratchIs_of_agree (D : Dev) (mem mem' : Nat → Byte) (h : ScratchIs D mem)
    (hag : ∀ a, 0x10000 ≤ a → a < 0x11000 → mem' a = mem a) : ScratchIs D mem' :=
  fun k hk => by rw [hag _ (by omega) (by omega), h k hk]

/-- The specification's loop over descriptors `t .. t + n - 1`, all clear of the
scratch region: if it returns, the scratch region is as before and the loads
made are those of the image's descriptors, in order. -/
theorem spec_keeps_scratch (D : Dev) (L : ElfLayout) (fuel : Nat) (hL : L.Sane) (phoff : Nat) :
    ∀ (n t : Nat) (m m' : Machine), phoff + (t + n) * L.phsize ≤ 4096 →
      ScratchIs D m.mem →
      (∀ i, t ≤ i → i < t + n → ClearOfScratch (segArgs D L phoff i)) →
      loadSegmentsSpec D L fuel n (ELFHDR + phoff + t * L.phsize) m = Res.done m' →
      (∀ a, 0x10000 ≤ a → a < 0x11000 → m'.mem a = m.mem a) ∧
      ∃ ext, m'.trace = m.trace ++ ext ∧
        segLoads ext = (List.range' t n).map (segArgs D L phoff) ∧ jumps ext = [] := by
  intro n
  induction n with
  | zero =>
    intro t m m' _ _ _ h
    simp only [loadSegmentsSpec, Res.done.injEq] at h
    subst h
    exact ⟨fun a _ _ => rfl, [], by simp, rfl, rfl⟩
  | succ n ih =>
    intro t m m' ht hs hc h
    have hmul : (t + (n + 1)) * L.phsize = (t + 1) * L.phsize + n * L.phsize := by
      rw [← Nat.add_mul]; congr 1; omega
    have hd := descriptor_of_scratch D L hL phoff t m.mem hs
      (by have := Nat.zero_le (n * L.phsize); omega)
    simp only [loadSegmentsSpec] at h
    obtain ⟨m1, r1, r2⟩ := andThen_done h
    rw [hd.1, hd.2.1, hd.2.2] at r1
    have hc0 := hc t (Nat.le_refl t) (by omega)
    have ho : (segArgs D L phoff t).2.2 < 2 ^ 32 := image32_lt D _
    have keep1 := clear_keeps_scratch D fuel (segArgs D L phoff t) m m1 hc0 ho r1
    have e2 : ELFHDR + phoff + t * L.phsize + L.phsize = ELFHDR + phoff + (t + 1) * L.phsize := by
      rw [Nat.succ_mul]; omega
    rw [e2] at r2
    obtain ⟨keep2, y, ty, gy, jy⟩ := ih (t + 1) m1 m'
      (by have e : t + 1 + n = t + (n + 1) := by omega
          rw [e]; exact ht)
      (scratchIs_of_agree D m.mem m1.mem hs keep1)
      (fun i h1 h2 => hc i (by omega) (by omega)) r2
    obtain ⟨x, tx, -, gx, jx⟩ := readseg_done_obs D fuel _ _ _ m m1 hc0.1 hc0.2.1 ho r1
    refine ⟨fun a h0 h1 => by rw [keep2 a h0 h1, keep1 a h0 h1], x ++ y, ?_, ?_, ?_⟩
    · rw [ty, tx, List.append_assoc]
    · rw [segLoads_append, gx, gy, List.range'_succ]
      rfl
    · rw [jumps_append, jx, jy]
      rfl

theorem spec_ready (D : Dev) (hD : AlwaysReady D) (L : ElfLayout) (fuel : Nat) (hL : L.Sane)
    (phoff : Nat) :
    ∀ (n t : Nat) (m : Machine), phoff + (t + n) * L.phsize ≤ 4096 →
      ScratchIs D m.mem →
      (∀ i, t ≤ i → i < t + n → ClearOfScratch (segArgs D L phoff i)) →
      (∀ i, t ≤ i → i < t + n →
        sectorCount (segArgs D L phoff i).2.1 (segArgs D L phoff i).2.2 < fuel) →
      ∃ m', loadSegmentsSpec D L fuel n (ELFHDR + phoff + t * L.phsize) m = Res.done m' := by
  intro n
  induction n with
  | zero => intro t m _ _ _ _; exact ⟨m, rfl⟩
  | succ n ih =>
    intro t m ht hs hc hf
    have hmul : (t + (n + 1)) * L.phsize = (t + 1) * L.phsize + n * L.phsize := by
      rw [← Nat.add_mul]; congr 1; omega
    have hd := descriptor_of_scratch D L hL phoff t m.mem hs
      (by have := Nat.zero_le (n * L.phsize); omega)
    have hc0 := hc t (Nat.le_refl t) (by omega)
    have ho : (segArgs D L phoff t).2.2 < 2 ^ 32 := image32_lt D _
    have r1 := readseg_ready D hD fuel _ _ _ m hc0.1 hc0.2.1 ho (hf t (Nat.le_refl t) (by omega))
    have keep1 := clear_keeps_scratch D fuel (segArgs D L phoff t) m _ hc0 ho r1
    have e2 : ELFHDR + phoff + t * L.phsize + L.phsize = ELFHDR + phoff + (t + 1) * L.phsize := by
      rw [Nat.succ_mul]; omega
    obtain ⟨m', hm'⟩ := ih (t + 1) _
      (by have e : t + 1 + n = t + (n + 1) := by omega
          rw [e]; exact ht)
      (scratchIs_of_agree D m.mem _ hs keep1)
      (fun i h1 h2 => hc i (by omega) (by omega))
      (fun i h1 h2 => hf i (by omega) (by omega))
    refine ⟨m', ?_⟩
    simp only [loadSegmentsSpec]
    rw [hd.1, hd.2.1, hd.2.2, r1, e2]
    exact hm'

theorem segLoads_concat_jump (ext : List Event) (e : Nat) :
    segLoads (ext ++ [Event.jump e]) = segLoads ext := by
  rw [segLoads_append]
  simp [segLoads]

/-- C13 as stated fails: nothing keeps a segment out of the scratch region.  The
image below has matching magic, entry `0x100000` and one descriptor
`(0x10000, 512, 512)` in a table at offset 52.  After the header load byte
`0x10000` is `0x7F`; the segment load puts sector 2 (all zero) there, and
`bootmain` then reads the entry address 0 from the overwritten header and jumps
to 0, not to `0x100000`. -/
theorem scratch_header_counterexample :
    image32 (readyDev (imageDisk rewriteImage)) 0 = elf32.ELF_MAGIC ∧
    image32 (readyDev (imageDisk rewriteImage)) elf32.e_entry = 0x100000 ∧
    (readseg (readyDev (imageDisk rewriteImage)) 9 ELFHDR (SECTSIZE * 8) 0
      (Machine.boot fun _ => 0)).state.mem 0x10000 = 0x7F ∧
    (bootmain (readyDev (imageDisk rewriteImage)) elf32 9 (Machine.boot fun _ => 0)).isJumped
      = true ∧
    (bootmain (readyDev (imageDisk rewriteImage)) elf32 9
      (Machine.boot fun _ => 0)).state.mem 0x10000 = 0 ∧
    segLoads (bootmain (readyDev (imageDisk rewriteImage)) elf32 9
      (Machine.boot fun _ => 0)).state.trace = [(0x10000, 4096, 0), (0x10000, 512, 512)] ∧
    jumps (bootmain (readyDev (imageDisk rewriteImage)) elf32 9
      (Machine.boot fun _ => 0)).state.trace = [0] := by
  decide

/-- C13, amended: for an image with matching magic whose descriptor table lies
within the first 4096 bytes of the image and each of whose segment loads is free
of wrap-around and has its sector-aligned window wholly below `0x10000` or wholly
at or above `0x11000`, a run of `bootmain` that jumps has memory
`[0x10000, 0x11000)` as the header load left it, has made the loads of the
image's descriptors `0 .. e_phnum - 1` in order, and has jumped to the image's
`e_entry & 0xFFFFFF`; on a device that is always ready, with fuel above 8, above
`e_phnum` and above every segment's sector count, the run does jump. -/
theorem scratch_header_kept (D : Dev) (L : ElfLayout) (fuel : Nat) (m : Machine)
    (hL : L.Sane) (hmagic : image32 D 0 = L.ELF_MAGIC)
    (ht : image32 D L.e_phoff + image16 D L.e_phnum * L.phsize ≤ 4096)
    (hc : ∀ i, i < image16 D L.e_phnum →
      ClearOfScratch (segArgs D L (image32 D L.e_phoff) i)) :
    (∀ e m', bootmain D L fuel m = Outcome.jumped e m' →
      ∃ m1, readseg D fuel ELFHDR (SECTSIZE * 8) 0 m = Res.done m1 ∧
        (∀ a, 0x10000 ≤ a → a < 0x11000 → m'.mem a = m1.mem a) ∧
        segLoads (newEvents m1 m') =
          (List.range (image16 D L.e_phnum)).map (segArgs D L (image32 D L.e_phoff)) ∧
        e = image32 D L.e_entry &&& 0xFFFFFF) ∧
    (AlwaysReady D → 8 < fuel → image16 D L.e_phnum < fuel →
      (∀ i, i < image16 D L.e_phnum →
        sectorCount (segArgs D L (image32 D L.e_phoff) i).2.1
          (segArgs D L (image32 D L.e_phoff) i).2.2 < fuel) →
      ∃ e m', bootmain D L fuel m = Outcome.jumped e m') := by
  have hL' := hL
  obtain ⟨l1, l2, l3, l4, l5, l6⟩ := hL'
  have hs : 0 < L.phsize := by omega
  have facts : ∀ m1, readseg D fuel ELFHDR (SECTSIZE * 8) 0 m = Res.done m1 →
      ScratchIs D m1.mem ∧ bootmain D L fuel m = loadAndJump D L fuel m1 ∧
      read32 m1.mem (ELFHDR + L.e_phoff) = image32 D L.e_phoff ∧
      read16 m1.mem (ELFHDR + L.e_phnum) = image16 D L.e_phnum := by
    intro m1 h
    have sc := header_scratch D fuel m m1 h
    have hm : read32 m1.mem ELFHDR = L.ELF_MAGIC := by
      have := read32_of_scratch D m1.mem sc 0 (by decide)
      rw [Nat.add_zero] at this
      rw [this, hmagic]
    exact ⟨sc, bootmain_of_magic D L fuel m m1 h hm, read32_of_scratch D m1.mem sc _ l2,
      read16_of_scratch D m1.mem sc _ l3⟩
  have hw : ELFHDR + image32 D L.e_phoff + L.phsize * image16 D L.e_phnum < 2 ^ 32 := by
    rw [Nat.mul_comm]; simp only [ELFHDR]; omega
  have u1 : u32 (ELFHDR + image32 D L.e_phoff) = ELFHDR + image32 D L.e_phoff :=
    Nat.mod_eq_of_lt (by simp only [ELFHDR]; omega)
  have u2 : u32 (ELFHDR + image32 D L.e_phoff + L.phsize * image16 D L.e_phnum)
      = ELFHDR + image32 D L.e_phoff + L.phsize * image16 D L.e_phnum := Nat.mod_eq_of_lt hw
  have z : ELFHDR + image32 D L.e_phoff = ELFHDR + image32 D L.e_phoff + 0 * L.phsize := by
    rw [Nat.zero_mul, Nat.add_zero]
  constructor
  · intro e m' hj
    cases hr : readseg D fuel ELFHDR (SECTSIZE * 8) 0 m with
    | timeout x => simp only [bootmain, hr] at hj; cases hj
    | done m1 =>
      obtain ⟨sc, hb, hph, hnum⟩ := facts m1 hr
      rw [hb] at hj
      simp only [loadAndJump, hph, hnum, u1, u2] at hj
      cases hp : phLoop D L fuel fuel (ELFHDR + image32 D L.e_phoff)
          (ELFHDR + image32 D L.e_phoff + L.phsize * image16 D L.e_phnum) m1 with
      | timeout x => rw [hp] at hj; cases hj
      | done m2 =>
        rw [hp] at hj
        simp only [callEntry, Outcome.jumped.injEq] at hj
        obtain ⟨he, hm'⟩ := hj
        have hspec := phLoop_done D L fuel hs _ fuel _ m1 m2 hw hp
        rw [z] at hspec
        obtain ⟨keep, ext, t, g, -⟩ := spec_keeps_scratch D L fuel hL (image32 D L.e_phoff)
          (image16 D L.e_phnum) 0 m1 m2 (by rw [Nat.zero_add]; exact ht) sc
          (fun i _ h2 => hc i (by omega)) hspec
        have sc2 := scratchIs_of_agree D m1.mem m2.mem sc keep
        rw [read32_of_scratch D m2.mem sc2 _ l1] at he hm'
        refine ⟨m1, rfl, ?_, ?_, he.symm⟩
        · intro a h0 h1
          rw [← hm']
          exact keep a h0 h1
        · rw [newEvents_of_append m1 m' (ext ++ [Event.jump e])
            (by rw [← hm', he]; simp [Machine.log, t]), segLoads_concat_jump, g,
            List.range_eq_range']
  · intro hD hf8 hfn hfs
    obtain ⟨m1, hr⟩ := header_ready D hD fuel hf8 m
    obtain ⟨sc, hb, hph, hnum⟩ := facts m1 hr
    obtain ⟨m2, h2⟩ := spec_ready D hD L fuel hL (image32 D L.e_phoff) (image16 D L.e_phnum) 0 m1
      (by rw [Nat.zero_add]; exact ht) sc (fun i _ h2 => hc i (by omega))
      (fun i _ h2 => hfs i (by omega))
    rw [← z] at h2
    rw [hb, loadAndJump_spec D L fuel m1 hs (by rw [hph, hnum]; exact hw)
      (by rw [hnum]; exact hfn), hph, hnum, h2]
    exact ⟨_, _, rfl⟩

theorem scratch_header_kept_witness :
    ∃ e m' m1, bootmain (readyDev (imageDisk scenarioB)) elf32 9 (Machine.boot fun _ => 0)
        = Outcome.jumped e m' ∧
      readseg (readyDev (imageDisk scenarioB)) 9 ELFHDR (SECTSIZE * 8) 0
        (Machine.boot fun _ => 0) = Res.done m1 ∧
      (∀ a, 0x10000 ≤ a → a < 0x11000 → m'.mem a = m1.mem a) ∧
      e = 0x100000 :=
  have T := scratch_header_kept (readyDev (imageDisk scenarioB)) elf32 9
    (Machine.boot fun _ => 0) (by decide) (by decide) (by decide) (by decide)
  (T.2 (readyDev_ready _) (by decide) (by decide) (by decide)).elim fun e h1 =>
    h1.elim fun m' h2 => (T.1 e m' h2).elim fun m1 h3 => ⟨e, m', m1, h2, h3.1, h3.2.1, h3.2.2.2⟩

/-! ## Scenario A -/

/-- C11 as stated fails when the one-descriptor table ends at the top of the
address space.  The image below has matching magic, `e_phnum = 1` and, at
`e_phoff = 0xFFFEFFE0`, the descriptor `(0x10000, 512, 0)`; the table `bootmain`
walks, at `0x10000 + e_phoff = 0xFFFFFFE0`, holds the same descriptor.  The end
pointer wraps to 0, the loop body never runs, and the run jumps without any
sector read after the header load. -/
theorem scenario_one_segment_counterexample :
    image32 (readyDev topTableDisk) 0 = elf32.ELF_MAGIC ∧
    image16 (readyDev topTableDisk) elf32.e_phnum = 1 ∧
    image32 (readyDev topTableDisk) elf32.e_phoff = 0xFFFEFFE0 ∧
    image32 (readyDev topTableDisk) (0xFFFEFFE0 + elf32.p_va) = 0x10000 ∧
    image32 (readyDev topTableDisk) (0xFFFEFFE0 + elf32.p_memsz) = 512 ∧
    image32 (readyDev topTableDisk) (0xFFFEFFE0 + elf32.p_offset) = 0 ∧
    read32 (readseg (readyDev topTableDisk) 9 ELFHDR (SECTSIZE * 8) 0
      (Machine.boot topTableMem)).state.mem (0xFFFFFFE0 + elf32.p_va) = 0x10000 ∧
    read32 (readseg (readyDev topTableDisk) 9 ELFHDR (SECTSIZE * 8) 0
      (Machine.boot topTableMem)).state.mem (0xFFFFFFE0 + elf32.p_memsz) = 512 ∧
    read32 (readseg (readyDev topTableDisk) 9 ELFHDR (SECTSIZE * 8) 0
      (Machine.boot topTableMem)).state.mem (0xFFFFFFE0 + elf32.p_offset) = 0 ∧
    (bootmain (readyDev topTableDisk) elf32 9 (Machine.boot topTableMem)).isJumped = true ∧
    sectorReads (newEvents
        (readseg (readyDev topTableDisk) 9 ELFHDR (SECTSIZE * 8) 0
          (Machine.boot topTableMem)).state
        (bootmain (readyDev topTableDisk) elf32 9 (Machine.boot topTableMem)).state) = [] := by
  decide

/-- C11 (scenario A), amended: for an image with matching magic, `e_phnum = 1`
and a descriptor table that lies within the first 4096 bytes of the image and
holds the one segment `(0x10000, 512, 0)`, a run of `bootmain` that jumps has,
since the header load, loaded exactly that segment with exactly one sector
read, of sector 1 into `0x10000`, and then jumped to the image's
`e_entry & 0xFFFFFF`; memory `[0x10000, 0x11000)` still holds the first 4096
bytes of the image, so the header fields read are those of the image.  No run
ends in the final spin, and on a device that is always ready the run jumps. -/
theorem scenario_one_segment (D : Dev) (L : ElfLayout) (fuel : Nat) (m : Machine)
    (hL : L.Sane) (hmagic : image32 D 0 = L.ELF_MAGIC) (hn : image16 D L.e_phnum = 1)
    (ht : image32 D L.e_phoff + L.phsize ≤ 4096)
    (a0 : image32 D (image32 D L.e_phoff + L.p_va) = 0x10000)
    (s0 : image32 D (image32 D L.e_phoff + L.p_memsz) = 512)
    (o0 : image32 D (image32 D L.e_phoff + L.p_offset) = 0) :
    (∀ e m', bootmain D L fuel m = Outcome.jumped e m' →
      ∃ m1, readseg D fuel ELFHDR (SECTSIZE * 8) 0 m = Res.done m1 ∧
        sectorReads (newEvents m1 m') = [(0x10000, 1)] ∧
        segLoads (newEvents m1 m') = [(0x10000, 512, 0)] ∧
        (newEvents m1 m').getLast? = some (Event.jump e) ∧
        e = image32 D L.e_entry &&& 0xFFFFFF ∧
        (∀ k, k < 4096 → m'.mem (0x10000 + k) = imageByte D k)) ∧
    (∀ m', bootmain D L fuel m ≠ Outcome.spin m') ∧
    (AlwaysReady D → 8 < fuel → ∃ e m', bootmain D L fuel m = Outcome.jumped e m') := by
  have hL' := hL
  obtain ⟨l1, l2, l3, l4, l5, l6⟩ := hL'
  have hs : 0 < L.phsize := by omega
  have hw : ELFHDR + image32 D L.e_phoff + L.phsize * 1 < 2 ^ 32 := by
    simp only [ELFHDR]; omega
  have u1 : u32 (ELFHDR + image32 D L.e_phoff) = ELFHDR + image32 D L.e_phoff :=
    Nat.mod_eq_of_lt (by simp only [ELFHDR]; omega)
  have u2 : u32 (ELFHDR + image32 D L.e_phoff + L.phsize * 1)
      = ELFHDR + image32 D L.e_phoff + L.phsize * 1 := Nat.mod_eq_of_lt hw
  have mask : 0x10000 &&& 0xFFFFFF = 0x10000 := by decide
  -- once the header load has returned
  have facts : ∀ m1, readseg D fuel ELFHDR (SECTSIZE * 8) 0 m = Res.done m1 →
      ScratchIs D m1.mem ∧ bootmain D L fuel m = loadAndJump D L fuel m1 ∧
      read32 m1.mem (ELFHDR + L.e_phoff) = image32 D L.e_phoff ∧
      read16 m1.mem (ELFHDR + L.e_phnum) = 1 ∧
      loadSegmentsSpec D L fuel 1 (ELFHDR + image32 D L.e_phoff) m1
        = readseg D fuel 0x10000 512 0 m1 := by
    intro m1 h
    have sc := header_scratch D fuel m m1 h
    have hm : read32 m1.mem ELFHDR = L.ELF_MAGIC := by
      have := read32_of_scratch D m1.mem sc 0 (by decide)
      rw [Nat.add_zero] at this
      rw [this, hmagic]
    have hd := descriptor_of_scratch D L hL (image32 D L.e_phoff) 0 m1.mem sc
      (by rw [Nat.zero_add, Nat.one_mul]; exact ht)
    simp only [segArgs, Nat.zero_mul, Nat.add_zero] at hd
    rw [a0, s0, o0, mask] at hd
    refine ⟨sc, bootmain_of_magic D L fuel m m1 h hm, read32_of_scratch D m1.mem sc _ l2, ?_, ?_⟩
    · rw [read16_of_scratch D m1.mem sc _ l3, hn]
    · simp only [loadSegmentsSpec]
      rw [hd.1, hd.2.1, hd.2.2]
      exact andThen_done_right _
  -- the scratch region after the one segment load
  have after : ∀ m1 m2, ScratchIs D m1.mem → readseg D fuel 0x10000 512 0 m1 = Res.done m2 →
      ScratchIs D m2.mem := by
    intro m1 m2 sc r k hk
    rw [readseg_done_mem D fuel 0x10000 512 0 m1 m2 _ (by decide) (by decide) (by decide) r]
    have hcnt : sectorCount 512 0 = 1 := by decide
    rw [hcnt]
    by_cases hk' : k < 512
    · rw [if_pos (by omega)]
      simp only [imageByte, SECTSIZE]
      exact congrArg D.disk (by omega)
    · rw [if_neg (by omega)]
      exact sc k hk
  refine ⟨?_, ?_, ?_⟩
  · intro e m' hj
    cases hr : readseg D fuel ELFHDR (SECTSIZE * 8) 0 m with
    | timeout x => simp only [bootmain, hr] at hj; cases hj
    | done m1 =>
      obtain ⟨sc, hb, hph, hnum, hspec⟩ := facts m1 hr
      rw [hb] at hj
      simp only [loadAndJump, hph, hnum, u1, u2] at hj
      cases hp : phLoop D L fuel fuel (ELFHDR + image32 D L.e_phoff)
          (ELFHDR + image32 D L.e_phoff + L.phsize * 1) m1 with
      | timeout x => rw [hp] at hj; cases hj
      | done m2 =>
        rw [hp] at hj
        simp only [callEntry, Outcome.jumped.injEq] at hj
        obtain ⟨he, hm'⟩ := hj
        have r := phLoop_done D L fuel hs 1 fuel _ m1 m2 hw hp
        rw [hspec] at r
        have sc2 := after m1 m2 sc r
        obtain ⟨x, tx, sx, gx, -⟩ := readseg_done_obs D fuel 0x10000 512 0 m1 m2
          (by decide) (by decide) (by decide) r
        rw [read32_of_scratch D m2.mem sc2 _ l1] at he hm'
        have hnew : newEvents m1 m' = x ++ [Event.jump e] := by
          apply newEvents_of_append
          rw [← hm', he]
          simp [Machine.log, tx]
        refine ⟨m1, rfl, ?_, ?_, ?_, he.symm, ?_⟩
        · rw [hnew, sectorReads_append, sx]
          rfl
        · rw [hnew, segLoads_concat_jump, gx]
        · rw [hnew]
          simp
        · intro k hk
          rw [← hm']
          exact sc2 k hk
  · intro m' hsp
    cases hr : readseg D fuel ELFHDR (SECTSIZE * 8) 0 m with
    | timeout x => simp only [bootmain, hr] at hsp; cases hsp
    | done m1 =>
      obtain ⟨-, hb, -, -, -⟩ := facts m1 hr
      rw [hb] at hsp
      simp only [loadAndJump] at hsp
      split at hsp
      · cases hsp
      · simp only [callEntry] at hsp; cases hsp
  · intro hD hf
    obtain ⟨m1, hr⟩ := header_ready D hD fuel hf m
    obtain ⟨sc, hb, hph, hnum, hspec⟩ := facts m1 hr
    have r := readseg_ready D hD fuel 0x10000 512 0 m1 (by decide) (by decide) (by decide)
      (by have hcnt : sectorCount 512 0 = 1 := by decide
          rw [hcnt]; omega)
    rw [hb, loadAndJump_spec D L fuel m1 hs (by rw [hph, hnum]; exact hw)
      (by rw [hnum]; omega), hph, hnum, hspec, r]
    exact ⟨_, _, rfl⟩

theorem scenario_one_segment_witness :
    ∃ e m' m1, bootmain (readyDev (imageDisk scenarioA)) elf32 9 (Machine.boot fun _ => 0)
        = Outcome.jumped e m' ∧
      readseg (readyDev (imageDisk scenarioA)) 9 ELFHDR (SECTSIZE * 8) 0
        (Machine.boot fun _ => 0) = Res.done m1 ∧
      sectorReads (newEvents m1 m') = [(0x10000, 1)] ∧
      e = 0x100000 :=
  have T := scenario_one_segment (readyDev (imageDisk scenarioA)) elf32 9
    (Machine.boot fun _ => 0) (by decide) (by decide) (by decide) (by decide) (by decide)
    (by decide) (by decide)
  (T.2.2 (readyDev_ready _) (by decide)).elim fun e h1 => h1.elim fun m' h2 =>
    (T.1 e m' h2).elim fun m1 h3 => ⟨e, m', m1, h2, h3.1, h3.2.1, h3.2.2.2.2.1⟩

/-! ## The magic check and the transfer of control, stated on outcomes -/

theorem loadAndJump_explicit (D : Dev) (L : ElfLayout) (fuel : Nat) (m1 : Machine) :
    loadAndJump D L fuel m1 =
      thenJump L (phLoop D L fuel fuel (u32 (ELFHDR + read32 m1.mem (ELFHDR + L.e_phoff)))
        (u32 (u32 (ELFHDR + read32 m1.mem (ELFHDR + L.e_phoff))
          + L.phsize * read16 m1.mem (ELFHDR + L.e_phnum))) m1) := by
  simp only [loadAndJump]
  cases phLoop D L fuel fuel (u32 (ELFHDR + read32 m1.mem (ELFHDR + L.e_phoff)))
    (u32 (u32 (ELFHDR + read32 m1.mem (ELFHDR + L.e_phoff))
      + L.phsize * read16 m1.mem (ELFHDR + L.e_phnum))) m1 <;> rfl

theorem thenJump_not_spin (L : ElfLayout) (r : Res) (x : Machine) :
    thenJump L r ≠ Outcome.spin x := by
  cases r <;> simp [thenJump]

theorem thenJump_events (L : ElfLayout) (m1 : Machine) (r : Res)
    (g : Grows Event.isLoad m1 r.state) :
    ∀ x ∈ newEvents m1 (thenJump L r).state, Event.isLoad x = true ∨ ∃ a, x = Event.jump a := by
  obtain ⟨ext, t, p⟩ := g
  cases r with
  | timeout y =>
    rw [newEvents_of_append m1 _ ext (by simpa [thenJump, Outcome.state, Res.state] using t)]
    intro e he
    exact Or.inl (p e he)
  | done m2 =>
    have t' : m2.trace = m1.trace ++ ext := t
    rw [newEvents_of_append m1 _ (ext ++ [Event.jump
      (read32 m2.mem (ELFHDR + L.e_entry) &&& 0xFFFFFF)])
      (by simp [thenJump, Outcome.state, Machine.log, t'])]
    intro e he
    rcases List.mem_append.1 he with h' | h'
    · exact Or.inl (p e h')
    · exact Or.inr ⟨_, List.mem_singleton.1 h'⟩

theorem thenJump_jumped (L : ElfLayout) (r : Res) (e : Nat) (m' : Machine)
    (h : thenJump L r = Outcome.jumped e m') :
    ∃ m2, r = Res.done m2 ∧ e = read32 m2.mem (ELFHDR + L.e_entry) &&& 0xFFFFFF ∧
      m' = m2.log (Event.jump e) := by
  cases r with
  | timeout y => simp [thenJump] at h
  | done m2 =>
    simp only [thenJump, Outcome.jumped.injEq] at h
    obtain ⟨he, hm⟩ := h
    exact ⟨m2, rfl, he.symm, by rw [← hm, he]⟩

/-- C3: once the header load has returned in state `m1`, `bootmain` ends in the
failure path (the final spin) exactly when the 32-bit word at `0x10000` differs
from `ELF_MAGIC`; for `ELF_MAGIC = 0x464C457F` the word matches exactly when the
four bytes at `0x10000` are `7F 45 4C 46`.  On a match the run is the segment
loop started in `m1` itself followed, if the loop returns in `m2`, by the
transfer to `e_entry & 0xFFFFFF` as read in `m2`; it never spins and logs no word
write.  On a mismatch the run ends in the spin with memory as in `m1` and
exactly two further events, the word writes `0x8A00` and `0x8E00` to port
`0x8A00`.  The check writes no memory and no port: both branches start in `m1`. -/
theorem magic_check (D : Dev) (L : ElfLayout) (fuel : Nat) (m m1 : Machine)
    (h : readseg D fuel ELFHDR (SECTSIZE * 8) 0 m = Res.done m1) :
    (L.ELF_MAGIC = 0x464C457F →
      ((m1.mem 0x10000 = 0x7F ∧ m1.mem 0x10001 = 0x45 ∧ m1.mem 0x10002 = 0x4C ∧
          m1.mem 0x10003 = 0x46) ↔ read32 m1.mem ELFHDR = L.ELF_MAGIC)) ∧
    ((∃ x, bootmain D L fuel m = Outcome.spin x) ↔ read32 m1.mem ELFHDR ≠ L.ELF_MAGIC) ∧
    (read32 m1.mem ELFHDR = L.ELF_MAGIC →
      bootmain D L fuel m = loadAndJump D L fuel m1 ∧
      (∀ x, phLoop D L fuel fuel (u32 (ELFHDR + read32 m1.mem (ELFHDR + L.e_phoff)))
          (u32 (u32 (ELFHDR + read32 m1.mem (ELFHDR + L.e_phoff))
            + L.phsize * read16 m1.mem (ELFHDR + L.e_phnum))) m1 = Res.timeout x →
        bootmain D L fuel m = Outcome.timeout x) ∧
      (∀ m2, phLoop D L fuel fuel (u32 (ELFHDR + read32 m1.mem (ELFHDR + L.e_phoff)))
          (u32 (u32 (ELFHDR + read32 m1.mem (ELFHDR + L.e_phoff))
            + L.phsize * read16 m1.mem (ELFHDR + L.e_phnum))) m1 = Res.done m2 →
        bootmain D L fuel m =
          Outcome.jumped (read32 m2.mem (ELFHDR + L.e_entry) &&& 0xFFFFFF)
            (m2.log (Event.jump (read32 m2.mem (ELFHDR + L.e_entry) &&& 0xFFFFFF)))) ∧
      (∀ x ∈ newEvents m1 (bootmain D L fuel m).state,
        Event.isLoad x = true ∨ ∃ a, x = Event.jump a)) ∧
    (read32 m1.mem ELFHDR ≠ L.ELF_MAGIC →
      bootmain D L fuel m = Outcome.spin (outw 0x8A00 0x8E00 (outw 0x8A00 0x8A00 m1)) ∧
      (bootmain D L fuel m).state.mem = m1.mem ∧
      newEvents m1 (bootmain D L fuel m).state =
        [Event.outw 0x8A00 0x8A00, Event.outw 0x8A00 0x8E00]) := by
  have hmatch : read32 m1.mem ELFHDR = L.ELF_MAGIC →
      bootmain D L fuel m =
        thenJump L (phLoop D L fuel fuel (u32 (ELFHDR + read32 m1.mem (ELFHDR + L.e_phoff)))
          (u32 (u32 (ELFHDR + read32 m1.mem (ELFHDR + L.e_phoff))
            + L.phsize * read16 m1.mem (ELFHDR + L.e_phnum))) m1) := by
    intro hm
    rw [bootmain_of_magic D L fuel m m1 h hm, loadAndJump_explicit]
  refine ⟨?_, ?_, ?_, ?_⟩
  · intro hL
    rw [hL]
    exact read32_magic_bytes m1.mem
  · constructor
    · rintro ⟨x, hx⟩ hm
      rw [hmatch hm] at hx
      exact thenJump_not_spin L _ x hx
    · intro hm
      exact ⟨_, bootmain_of_bad_magic D L fuel m m1 h hm⟩
  · intro hm
    refine ⟨bootmain_of_magic D L fuel m m1 h hm, ?_, ?_, ?_⟩
    · intro x hx
      rw [hmatch hm, hx]
      rfl
    · intro m2 h2
      rw [hmatch hm, h2]
      rfl
    · rw [hmatch hm]
      exact thenJump_events L m1 _ (phLoop_grows D L fuel fuel _ _ m1)
  · intro hm
    have hb := bootmain_of_bad_magic D L fuel m m1 h hm
    refine ⟨hb, by rw [hb]; rfl, ?_⟩
    rw [hb]
    apply newEvents_of_append
    simp [outw, Machine.log, Outcome.state]

set_option maxRecDepth 8000 in
theorem magic_check_witness :
    bootmain (readyDev demoDisk) elf32 9 (Machine.boot fun _ => 0) =
      Outcome.spin (outw 0x8A00 0x8E00 (outw 0x8A00 0x8A00
        (readsDone (readyDev demoDisk) 8 0x10000 1
          ((Machine.boot fun _ => 0).log (Event.readseg 0x10000 4096 0))))) ∧
    (¬ ∃ x, bootmain (readyDev (imageDisk scenarioB)) elf32 9 (Machine.boot fun _ => 0)
      = Outcome.spin x) ∧
    (bootmain (readyDev (imageDisk scenarioB)) elf32 9 (Machine.boot fun _ => 0)).isJumped
      = true ∧
    jumps (bootmain (readyDev (imageDisk scenarioB)) elf32 9
      (Machine.boot fun _ => 0)).state.trace = [0x100000] :=
  ⟨((magic_check (readyDev demoDisk) elf32 9 (Machine.boot fun _ => 0) _
      (readseg_ready (readyDev demoDisk) (readyDev_ready demoDisk) 9 0x10000 4096 0
        (Machine.boot fun _ => 0) (by decide) (by decide) (by decide) (by decide))).2.2.2
      (by decide)).1,
    fun hx => ((magic_check (readyDev (imageDisk scenarioB)) elf32 9 (Machine.boot fun _ => 0) _
      (readseg_ready (readyDev (imageDisk scenarioB)) (readyDev_ready _) 9 0x10000 4096 0
        (Machine.boot fun _ => 0) (by decide) (by decide) (by decide) (by decide))).2.1.1 hx)
      (by decide),
    by decide, by decide⟩

/-- C5, amended: when the magic matches and the descriptor table does not wrap
around the 32-bit address space (`0x10000 + e_phoff + sizeof(proghdr) * e_phnum <
2^32`), `bootmain` does what the specification's loop does, one
`readseg(p_va & 0xFFFFFF, p_memsz, p_offset)` per descriptor `0 .. e_phnum - 1`
of the table at `0x10000 + e_phoff`, in table order, each descriptor read when
its turn comes.  If all these calls return, in state `m2`, the run ends with the
transfer of control to `e_entry & 0xFFFFFF` as held in the header in `m2`; if one
of them does not return, nothing is transferred.  A run that jumps has jumped to
`e_entry & 0xFFFFFF` (below `2^24`) and has logged, since the header load,
`e_phnum` segment loads, all with destination below `2^24`, and then the jump as
its last event; no run writes to port `0x8A00`. -/
theorem segments_in_table_order (D : Dev) (L : ElfLayout) (fuel : Nat) (m m1 : Machine)
    (h : readseg D fuel ELFHDR (SECTSIZE * 8) 0 m = Res.done m1)
    (hmagic : read32 m1.mem ELFHDR = L.ELF_MAGIC) (hs : 0 < L.phsize)
    (hw : ELFHDR + read32 m1.mem (ELFHDR + L.e_phoff)
      + L.phsize * read16 m1.mem (ELFHDR + L.e_phnum) < 2 ^ 32)
    (hf : read16 m1.mem (ELFHDR + L.e_phnum) < fuel) :
    bootmain D L fuel m =
      thenJump L (loadSegmentsSpec D L fuel (read16 m1.mem (ELFHDR + L.e_phnum))
        (ELFHDR + read32 m1.mem (ELFHDR + L.e_phoff)) m1) ∧
    (∀ m2, loadSegmentsSpec D L fuel (read16 m1.mem (ELFHDR + L.e_phnum))
        (ELFHDR + read32 m1.mem (ELFHDR + L.e_phoff)) m1 = Res.done m2 →
      bootmain D L fuel m =
        Outcome.jumped (read32 m2.mem (ELFHDR + L.e_entry) &&& 0xFFFFFF)
          (m2.log (Event.jump (read32 m2.mem (ELFHDR + L.e_entry) &&& 0xFFFFFF)))) ∧
    (∀ x, loadSegmentsSpec D L fuel (read16 m1.mem (ELFHDR + L.e_phnum))
        (ELFHDR + read32 m1.mem (ELFHDR + L.e_phoff)) m1 = Res.timeout x →
      bootmain D L fuel m = Outcome.timeout x) ∧
    (∀ e m', bootmain D L fuel m = Outcome.jumped e m' →
      e = read32 m'.mem (ELFHDR + L.e_entry) &&& 0xFFFFFF ∧
      e < 2 ^ 24 ∧
      (∃ m2, loadSegmentsSpec D L fuel (read16 m1.mem (ELFHDR + L.e_phnum))
          (ELFHDR + read32 m1.mem (ELFHDR + L.e_phoff)) m1 = Res.done m2 ∧
        m'.mem = m2.mem) ∧
      ∃ ext, newEvents m1 m' = ext ++ [Event.jump e] ∧
        (∀ x ∈ ext, Event.isLoad x = true) ∧
        (segLoads ext).length = read16 m1.mem (ELFHDR + L.e_phnum)) ∧
    (∀ pv ∈ portWrites (newEvents m (bootmain D L fuel m).state), pv.1 ≠ 0x8A00) := by
  have hb : bootmain D L fuel m =
      thenJump L (loadSegmentsSpec D L fuel (read16 m1.mem (ELFHDR + L.e_phnum))
        (ELFHDR + read32 m1.mem (ELFHDR + L.e_phoff)) m1) := by
    rw [bootmain_of_magic D L fuel m m1 h hmagic, loadAndJump_spec D L fuel m1 hs hw hf]
  refine ⟨hb, ?_, ?_, ?_, ?_⟩
  · intro m2 h2
    rw [hb, h2]
    rfl
  · intro x hx
    rw [hb, hx]
    rfl
  · intro e m' hj
    rw [hb] at hj
    obtain ⟨m2, hr, he, hm'⟩ := thenJump_jumped L _ e m' hj
    obtain ⟨ext, t, p, c⟩ := loadSegmentsSpec_done D L fuel _ _ m1 m2 hr
    have hmem : m'.mem = m2.mem := by rw [hm']; rfl
    refine ⟨by rw [hmem]; exact he, by rw [he]; exact and_mask_lt _, ⟨m2, hr, hmem⟩,
      ext, ?_, p, c⟩
    apply newEvents_of_append
    rw [hm']
    simp [Machine.log, t]
  · have g1 : Grows Event.isLoad m m1 := by
      have g := readseg_grows D fuel ELFHDR (SECTSIZE * 8) 0 m (by decide)
      rw [h] at g
      exact g
    have g2 := loadSegmentsSpec_grows D L fuel (read16 m1.mem (ELFHDR + L.e_phnum))
      (ELFHDR + read32 m1.mem (ELFHDR + L.e_phoff)) m1
    rw [hb]
    exact portWrites_of_isLoad _ (thenJump_events L m _ (grows_trans g1 g2))

set_option maxRecDepth 8000 in
theorem segments_in_table_order_witness :
    (∃ e m', bootmain (readyDev (imageDisk scenarioB)) elf32 9 (Machine.boot fun _ => 0)
        = Outcome.jumped e m' ∧
      e = read32 m'.mem (ELFHDR + elf32.e_entry) &&& 0xFFFFFF ∧ e < 2 ^ 24) ∧
    image32 (readyDev (imageDisk scenarioB)) elf32.e_entry &&& 0xFFFFFF = 0x100000 ∧
    jumps (bootmain (readyDev (imageDisk scenarioB)) elf32 9
      (Machine.boot fun _ => 0)).state.trace = [0x100000] ∧
    segLoads (bootmain (readyDev (imageDisk scenarioB)) elf32 9
      (Machine.boot fun _ => 0)).state.trace
      = [(0x10000, 4096, 0), (0x100000, 4096, 0), (0x108000, 4096, 4096)] :=
  have hr := readseg_ready (readyDev (imageDisk scenarioB)) (readyDev_ready _) 9 0x10000 4096 0
    (Machine.boot fun _ => 0) (by decide) (by decide) (by decide) (by decide)
  have T := segments_in_table_order (readyDev (imageDisk scenarioB)) elf32 9
    (Machine.boot fun _ => 0) _ hr (by decide) (by decide) (by decide) (by decide)
  have sc := header_scratch (readyDev (imageDisk scenarioB)) 9 (Machine.boot fun _ => 0) _ hr
  ⟨(spec_ready (readyDev (imageDisk scenarioB)) (readyDev_ready _) elf32 9 (by decide) 52 2 0 _
    (by decide) sc (by decide) (by decide)).elim fun m2 h2 =>
    ⟨_, _, T.2.1 m2 h2, (T.2.2.2.1 _ _ (T.2.1 m2 h2)).1, (T.2.2.2.1 _ _ (T.2.1 m2 h2)).2.1⟩,
    by decide, by decide, by decide⟩

end Bootmain
